import Mathlib

/- Verification development for the OSGOP insurance-document parser
   (app/services/parser.py, app/services/plate_normalizer.py,
   app/models/contract.py of Prikur76/osgop-parser).

   Strings are modelled as `List Char`.  Python regular-expression searches
   are modelled by dedicated deterministic scanners, one per pattern, whose
   semantics were derived from the backtracking behaviour of the concrete
   pattern (each scanner carries a comment naming its pattern).  Character
   classes follow Python semantics restricted to the character repertoire of
   these documents: the whitespace class covers the ASCII whitespace
   characters and the no-break space, the digit class covers the ASCII
   digits, and the word class covers ASCII alphanumerics, the underscore and
   the Cyrillic letters. -/

namespace OSGOP

/-- Code point of a character, as a natural number. -/
def cp (c : Char) : Nat := c.toNat

/-- ASCII decimal digit, the model of the regex class backslash-d. -/
def isDigitC (c : Char) : Bool := decide (48 ≤ cp c ∧ cp c ≤ 57)

/-- ASCII uppercase Latin letter. -/
def isLatUpper (c : Char) : Bool := decide (65 ≤ cp c ∧ cp c ≤ 90)

/-- ASCII lowercase Latin letter. -/
def isLatLower (c : Char) : Bool := decide (97 ≤ cp c ∧ cp c ≤ 122)

/-- Uppercase Cyrillic letter: the range А..Я (U+0410..U+042F) or Ё (U+0401).
    This is the model of the regex class with А-ЯЁ. -/
def isCyrUpper (c : Char) : Bool :=
  decide ((1040 ≤ cp c ∧ cp c ≤ 1071) ∨ cp c = 1025)

/-- Lowercase Cyrillic letter: the range а..я (U+0430..U+044F) or ё (U+0451).
    This is the model of the regex class with а-яё. -/
def isCyrLower (c : Char) : Bool :=
  decide ((1072 ≤ cp c ∧ cp c ≤ 1103) ∨ cp c = 1105)

/-- Whitespace class: model of Python backslash-s and of str.strip, covering
    space, tab, newline, carriage return, vertical tab, form feed and the
    no-break space U+00A0. -/
def isPySpace (c : Char) : Bool :=
  decide (cp c = 32 ∨ cp c = 9 ∨ cp c = 10 ∨ cp c = 13 ∨ cp c = 11 ∨
          cp c = 12 ∨ cp c = 160)

/-- Word-character class: model of Python backslash-w for these documents
    (ASCII alphanumerics, the underscore, Cyrillic letters). -/
def isWordC (c : Char) : Bool :=
  isDigitC c || isLatUpper c || isLatLower c || decide (cp c = 95) ||
  isCyrUpper c || isCyrLower c

/-- Python str.upper restricted to ASCII and Cyrillic: maps a..z, а..я and ё
    to their uppercase forms and leaves every other character unchanged. -/
def pyUpper (c : Char) : Char :=
  if isLatLower c then Char.ofNat (cp c - 32)
  else if decide (1072 ≤ cp c ∧ cp c ≤ 1103) then Char.ofNat (cp c - 32)
  else if decide (cp c = 1105) then Char.ofNat 1025
  else c

/-- Python str.lower restricted to ASCII and Cyrillic. -/
def pyLower (c : Char) : Char :=
  if isLatUpper c then Char.ofNat (cp c + 32)
  else if decide (1040 ≤ cp c ∧ cp c ≤ 1071) then Char.ofNat (cp c + 32)
  else if decide (cp c = 1025) then Char.ofNat 1105
  else c

/-- Case-insensitive character comparison, the model of re.IGNORECASE. -/
def ciEqC (a b : Char) : Bool := pyUpper a = pyUpper b

/-- Uppercasing of a whole string. -/
def upperStr (s : List Char) : List Char := s.map pyUpper

/- ===================== plate_normalizer.py ===================== -/

/-- Character map LAT_TO_CYR of plate_normalizer.py: the 12 Latin look-alike
    letters, both cases, mapped to their Cyrillic twins; all other characters
    pass through. -/
def lat_to_cyr (c : Char) : Char :=
  match c with
  | 'A' => 'А' | 'B' => 'В' | 'E' => 'Е' | 'K' => 'К' | 'M' => 'М' | 'H' => 'Н'
  | 'O' => 'О' | 'P' => 'Р' | 'C' => 'С' | 'T' => 'Т' | 'Y' => 'У' | 'X' => 'Х'
  | 'a' => 'а' | 'b' => 'в' | 'e' => 'е' | 'k' => 'к' | 'm' => 'м' | 'h' => 'н'
  | 'o' => 'о' | 'p' => 'р' | 'c' => 'с' | 't' => 'т' | 'y' => 'у' | 'x' => 'х'
  | c => c

/-- Character map CYR_TO_LAT of plate_normalizer.py. -/
def cyr_to_lat (c : Char) : Char :=
  match c with
  | 'А' => 'A' | 'В' => 'B' | 'Е' => 'E' | 'К' => 'K' | 'М' => 'M' | 'Н' => 'H'
  | 'О' => 'O' | 'Р' => 'P' | 'С' => 'C' | 'Т' => 'T' | 'У' => 'Y' | 'Х' => 'X'
  | 'а' => 'a' | 'в' => 'b' | 'е' => 'e' | 'к' => 'k' | 'м' => 'm' | 'н' => 'h'
  | 'о' => 'o' | 'р' => 'p' | 'с' => 'c' | 'т' => 't' | 'у' => 'y' | 'х' => 'x'
  | c => c

/-- Function to_cyr_full of plate_normalizer.py: uppercase, strip non-word
    characters, replace the Latin letter P by the Cyrillic letter Р, then map
    the remaining Latin look-alikes to Cyrillic.  The source ends with a
    regex test whose two branches both return the same value, so the test is
    dropped here.  The try/except wrapper never fires on this pure body. -/
def to_cyr_full (plate : List Char) : List Char :=
  if plate = [] then []
  else if (plate.map pyUpper).filter isWordC = [] then []
  else ((((plate.map pyUpper).filter isWordC).map
          (fun c => if c = 'P' then 'Р' else c)).map lat_to_cyr)

/-- Function to_lat_full of plate_normalizer.py: map Cyrillic look-alikes to
    Latin, then uppercase the result. -/
def to_lat_full (plate : List Char) : List Char :=
  (plate.map cyr_to_lat).map pyUpper

/-- Function normalize_plate of plate_normalizer.py: uppercase, strip
    non-word characters, convert to Latin. -/
def normalize_plate (plate_cyr : List Char) : List Char :=
  to_lat_full ((plate_cyr.map pyUpper).filter isWordC)

/-- The 12-letter plate alphabet of the specification: the shared
    Cyrillic/Latin look-alike glyphs in both cases, plus the ASCII digits. -/
def plateAlphabet : List Char :=
  ("АВЕКМНОРСТУХавекмнорстухABEKMHOPCTYXabekmhopctyx0123456789").data

/- ===================== segment detection (parser.py) ===================== -/

/-- Literal prefix test on character lists. -/
def litPref : List Char → List Char → Bool
  | [], _ => true
  | _ :: _, [] => false
  | a :: as, b :: bs => a = b && litPref as bs

/-- Matcher for a regex of literal words joined by one-or-more-whitespace
    gaps, anchored at the head of the string.  Because every word starts
    with a non-whitespace character, the greedy gap is equivalent to
    consuming the maximal whitespace run, of length at least one. -/
def wordsAt : List (List Char) → List Char → Bool
  | [], _ => true
  | w :: ws, s =>
      litPref w s &&
      match ws with
      | [] => true
      | _ :: _ =>
        match s.drop w.length with
        | [] => false
        | c :: cs => isPySpace c && wordsAt ws ((c :: cs).dropWhile isPySpace)

/-- Unanchored search for a words-with-gaps pattern, leftmost position
    first, the model of re.search for such patterns. -/
def searchWords (ws : List (List Char)) : List Char → Bool
  | [] => wordsAt ws []
  | c :: cs => wordsAt ws (c :: cs) || searchWords ws cs

/-- Words of the policy opening heading
    ПОЛИС ОБЯЗАТЕЛЬНОГО СТРАХОВАНИЯ ГРАЖДАНСКОЙ ОТВЕТСТВЕННОСТИ ПЕРЕВОЗЧИКА. -/
def polisFullWords : List (List Char) :=
  [("ПОЛИС").data, ("ОБЯЗАТЕЛЬНОГО").data, ("СТРАХОВАНИЯ").data,
   ("ГРАЖДАНСКОЙ").data, ("ОТВЕТСТВЕННОСТИ").data, ("ПЕРЕВОЗЧИКА").data]

/-- Words of the disclosure opening heading
    СВЕДЕНИЯ О ДОГОВОРЕ ОБЯЗАТЕЛЬНОГО СТРАХОВАНИЯ ГРАЖДАНСКОЙ
    ОТВЕТСТВЕННОСТИ ПЕРЕВОЗЧИКА. -/
def svedFullWords : List (List Char) :=
  [("СВЕДЕНИЯ").data, ("О").data, ("ДОГОВОРЕ").data, ("ОБЯЗАТЕЛЬНОГО").data,
   ("СТРАХОВАНИЯ").data, ("ГРАЖДАНСКОЙ").data, ("ОТВЕТСТВЕННОСТИ").data,
   ("ПЕРЕВОЗЧИКА").data]

/-- Words of the short closing pattern СВЕДЕНИЯ О ДОГОВОРЕ. -/
def svedShortWords : List (List Char) :=
  [("СВЕДЕНИЯ").data, ("О").data, ("ДОГОВОРЕ").data]

/-- Words of the short closing pattern ПОЛИС ОБЯЗАТЕЛЬНОГО СТРАХОВАНИЯ. -/
def polisShortWords : List (List Char) :=
  [("ПОЛИС").data, ("ОБЯЗАТЕЛЬНОГО").data, ("СТРАХОВАНИЯ").data]

/-- Test for the policy opening heading on an uppercased page. -/
def hasPolisStart (page : List Char) : Bool :=
  searchWords polisFullWords (upperStr page)

/-- Test for the disclosure opening heading on an uppercased page. -/
def hasSvedStart (page : List Char) : Bool :=
  searchWords svedFullWords (upperStr page)

/-- Test for either segment-closing pattern on an uppercased page, as used
    by the inner loops of _detect_segments. -/
def isSegBoundary (page : List Char) : Bool :=
  searchWords svedShortWords (upperStr page) ||
  searchWords polisShortWords (upperStr page)

/-- Kind tag of a detected segment. -/
inductive SegKind where
  | POLIS : SegKind
  | SVEDENIYA : SegKind
deriving DecidableEq, Repr

/-- Inner while loop of _detect_segments: starting from page i, the first
    page index whose text matches a closing pattern, or the page count. The
    fuel argument only bounds the recursion and is called with the page
    count, which always suffices. -/
def scanSegEnd (pages : List (List Char)) : Nat → Nat → Nat
  | 0, i => i
  | fuel + 1, i =>
    if h : i < pages.length then
      if isSegBoundary (pages.get ⟨i, h⟩) then i
      else scanSegEnd pages fuel (i + 1)
    else i

/-- Outer while loop of _detect_segments, from page index i. -/
def detectFrom (pages : List (List Char)) : Nat → Nat → List (Nat × Nat × SegKind)
  | 0, _ => []
  | fuel + 1, i =>
    if h : i < pages.length then
      if hasPolisStart (pages.get ⟨i, h⟩) then
        (i, scanSegEnd pages pages.length (i + 1), SegKind.POLIS) ::
          detectFrom pages fuel (scanSegEnd pages pages.length (i + 1))
      else if hasSvedStart (pages.get ⟨i, h⟩) then
        (i, scanSegEnd pages pages.length (i + 1), SegKind.SVEDENIYA) ::
          detectFrom pages fuel (scanSegEnd pages pages.length (i + 1))
      else detectFrom pages fuel (i + 1)
    else []

/-- Method _detect_segments of OSGOPParser. -/
def detect_segments (pages : List (List Char)) : List (Nat × Nat × SegKind) :=
  detectFrom pages pages.length 0

/-- Page text carrying the policy opening heading. -/
def pageP : List Char :=
  ("ПОЛИС ОБЯЗАТЕЛЬНОГО СТРАХОВАНИЯ ГРАЖДАНСКОЙ ОТВЕТСТВЕННОСТИ ПЕРЕВОЗЧИКА").data

/-- Page text carrying the disclosure opening heading. -/
def pageS : List Char :=
  ("СВЕДЕНИЯ О ДОГОВОРЕ ОБЯЗАТЕЛЬНОГО СТРАХОВАНИЯ ГРАЖДАНСКОЙ ОТВЕТСТВЕННОСТИ ПЕРЕВОЗЧИКА").data

/-- The 8-page example document of the specification: the policy heading on
    page 0, disclosure headings on pages 2 and 5, nothing on other pages. -/
def c4pages : List (List Char) := [pageP, [], pageS, [], [], pageS, [], []]

/- ===================== text normalisation (parser.py) ===================== -/

/-- Case-insensitive prefix test, the anchored model of an IGNORECASE
    literal pattern. -/
def ciPref : List Char → List Char → Bool
  | [], _ => true
  | _ :: _, [] => false
  | a :: as, b :: bs => ciEqC a b && ciPref as bs

/-- Fuelled worker for re.sub with a literal IGNORECASE pattern: replaces
    every non-overlapping occurrence, leftmost first, resuming after each
    match, exactly as re.sub does. -/
def ciReplaceF (pat rep : List Char) : Nat → List Char → List Char
  | 0, s => s
  | fuel + 1, s =>
    match s with
    | [] => []
    | c :: cs =>
      if ciPref pat (c :: cs) then
        rep ++ ciReplaceF pat rep fuel ((c :: cs).drop pat.length)
      else c :: ciReplaceF pat rep fuel cs

/-- Replacement of every occurrence of a literal IGNORECASE pattern.  The
    fuel equal to the string length always suffices because every step of
    the worker consumes at least one character of a nonempty pattern. -/
def ciReplace (pat rep s : List Char) : List Char :=
  ciReplaceF pat rep s.length s

/-- Model of re.sub on the pattern lowercase-Cyrillic-then-uppercase-
    Cyrillic with a space inserted between the two letters.  The scan
    resumes after each matched pair, as re.sub does. -/
def splitLU : List Char → List Char
  | [] => []
  | [c] => [c]
  | a :: b :: rest =>
    if isCyrLower a && isCyrUpper b then a :: ' ' :: b :: splitLU rest
    else a :: splitLU (b :: rest)

/-- Fuelled model of re.sub on the digit-run-then-uppercase-letter pattern
    with a negative lookbehind on a digit: a maximal digit run of length at
    least 3 immediately followed by an uppercase Cyrillic letter is split
    from the letter by a space.  The Boolean argument records whether the
    previous character was a digit (the lookbehind context). -/
def splitDA : Nat → Bool → List Char → List Char
  | 0, _, s => s
  | fuel + 1, prev, s =>
    match s with
    | [] => []
    | c :: cs =>
      if isDigitC c then
        if prev then c :: splitDA fuel true cs
        else
          match (c :: cs).dropWhile isDigitC with
          | [] => (c :: cs).takeWhile isDigitC
          | d :: ds =>
            if 3 ≤ ((c :: cs).takeWhile isDigitC).length && isCyrUpper d then
              (c :: cs).takeWhile isDigitC ++ ' ' :: d :: splitDA fuel false ds
            else (c :: cs).takeWhile isDigitC ++ splitDA fuel true (d :: ds)
      else c :: splitDA fuel false cs

/-- Fuelled model of re.sub on the uppercase-letter-then-digit-run pattern
    with a negative lookahead on a digit: an uppercase Cyrillic letter
    immediately followed by a maximal digit run of length at least 3 is
    split from the run by a space, and the scan resumes after the run. -/
def splitDB : Nat → List Char → List Char
  | 0, s => s
  | fuel + 1, s =>
    match s with
    | [] => []
    | c :: cs =>
      if isCyrUpper c && 3 ≤ (cs.takeWhile isDigitC).length then
        c :: ' ' :: (cs.takeWhile isDigitC ++ splitDB fuel (cs.dropWhile isDigitC))
      else c :: splitDB fuel cs

/-- Wrapper giving splitDA its sufficient fuel. -/
def splitDAw (s : List Char) : List Char := splitDA s.length false s

/-- Wrapper giving splitDB its sufficient fuel. -/
def splitDBw (s : List Char) : List Char := splitDB s.length s

/-- The ordered phrase-restoration table of _restore_spaces: concatenated
    domain phrases are rewritten with their spaces restored, and the three
    label patterns get a space appended; all matches are IGNORECASE. -/
def phraseSubs : List (List Char × List Char) :=
  [ (("ПОЛИСОБЯЗАТЕЛЬНОГО").data, ("ПОЛИС ОБЯЗАТЕЛЬНОГО").data),
    (("ОБЯЗАТЕЛЬНОГОСТРАХОВАНИЯ").data, ("ОБЯЗАТЕЛЬНОГО СТРАХОВАНИЯ").data),
    (("СТРАХОВАНИЯГРАЖДАНСКОЙ").data, ("СТРАХОВАНИЯ ГРАЖДАНСКОЙ").data),
    (("ГРАЖДАНСКОЙОТВЕТСТВЕННОСТИ").data, ("ГРАЖДАНСКОЙ ОТВЕТСТВЕННОСТИ").data),
    (("ОТВЕТСТВЕННОСТИПЕРЕВОЗЧИКА").data, ("ОТВЕТСТВЕННОСТИ ПЕРЕВОЗЧИКА").data),
    (("СВЕДЕНИЯОДОГОВОРЕ").data, ("СВЕДЕНИЯ О ДОГОВОРЕ").data),
    (("ДОГОВОРЕОБЯЗАТЕЛЬНОГО").data, ("ДОГОВОРЕ ОБЯЗАТЕЛЬНОГО").data),
    (("Срокстрахования").data, ("Срок страхования").data),
    (("Датазаключения").data, ("Дата заключения").data),
    (("Страховщик:").data, ("Страховщик: ").data),
    (("Страхователь:").data, ("Страхователь: ").data),
    (("ИНН/КПП:").data, ("ИНН/КПП: ").data) ]

/-- Sequential application of a substitution table. -/
def applySubs : List (List Char × List Char) → List Char → List Char
  | [], s => s
  | (pat, rep) :: rest, s => applySubs rest (ciReplace pat rep s)

/-- Method _restore_spaces of OSGOPParser: phrase table first, then the
    lowercase-uppercase split, then the two digit-letter splits. -/
def restore_spaces (text : List Char) : List Char :=
  if text = [] then text
  else splitDBw (splitDAw (splitLU (applySubs phraseSubs text)))

/-- Replacement of the no-break space and the tab by an ordinary space. -/
def replaceSpecials (s : List Char) : List Char :=
  s.map (fun c => if cp c = 160 || cp c = 9 then ' ' else c)

/-- Fuelled worker collapsing every whitespace run to a single space, the
    model of re.sub on one-or-more-whitespace with a space. -/
def collapseWSF : Nat → List Char → List Char
  | 0, s => s
  | _ + 1, [] => []
  | fuel + 1, c :: cs =>
    if isPySpace c then ' ' :: collapseWSF fuel (cs.dropWhile isPySpace)
    else c :: collapseWSF fuel cs

/-- Whitespace-run collapsing. -/
def collapseWS (s : List Char) : List Char := collapseWSF s.length s

/-- Model of str.strip: drop whitespace from both ends. -/
def pyStrip (s : List Char) : List Char :=
  ((s.dropWhile isPySpace).reverse.dropWhile isPySpace).reverse

/-- Method _normalize_page_text of OSGOPParser: restore spaces, replace the
    special characters, collapse whitespace runs, strip the ends. -/
def normalize_page_text (text : List Char) : List Char :=
  if text = [] then []
  else pyStrip (collapseWS (replaceSpecials (restore_spaces text)))

/- ===================== regex scanners for the header ===================== -/

/-- Unanchored search: apply an anchored matcher at every position, leftmost
    first, the model of re.search. -/
def searchSuf {α : Type} (f : List Char → Option α) : List Char → Option α
  | [] => f []
  | c :: cs =>
    match f (c :: cs) with
    | some r => some r
    | none => searchSuf f cs

/-- Case-insensitive substring test. -/
def containsCI (pat : List Char) : List Char → Bool
  | [] => ciPref pat []
  | c :: cs => ciPref pat (c :: cs) || containsCI pat cs

/-- Maximal digit run at the head. -/
def takeDigits (s : List Char) : List Char := s.takeWhile isDigitC

/-- Cyrillic letter of either case: the class а-яё under IGNORECASE. -/
def isCyrAny (c : Char) : Bool := isCyrLower c || isCyrUpper c

/-- Anchored matcher for the contract-number pattern ROSX followed by 8 to
    20 digits, IGNORECASE: the greedy counted repetition takes at most 20
    digits of the maximal run and needs at least 8. -/
def rosxAt (s : List Char) : Option (List Char) :=
  if ciPref (("ROSX").data) s then
    if 8 ≤ (takeDigits (s.drop 4)).length then
      some (upperStr (s.take 4) ++ (takeDigits (s.drop 4)).take 20)
    else none
  else none

/-- Search for the contract number; the source uppercases the match, which
    the anchored matcher already does. -/
def searchROSX (s : List Char) : Option (List Char) := searchSuf rosxAt s

/- ===================== _normalize_date ===================== -/

/-- Table of full Russian month names in the genitive. -/
def months_full : List (List Char × List Char) :=
  [ (("января").data, ("01").data), (("февраля").data, ("02").data),
    (("марта").data, ("03").data), (("апреля").data, ("04").data),
    (("мая").data, ("05").data), (("июня").data, ("06").data),
    (("июля").data, ("07").data), (("августа").data, ("08").data),
    (("сентября").data, ("09").data), (("октября").data, ("10").data),
    (("ноября").data, ("11").data), (("декабря").data, ("12").data) ]

/-- Table of three-letter month abbreviations. -/
def months_short : List (List Char × List Char) :=
  [ (("янв").data, ("01").data), (("фев").data, ("02").data),
    (("мар").data, ("03").data), (("апр").data, ("04").data),
    (("май").data, ("05").data), (("июн").data, ("06").data),
    (("июл").data, ("07").data), (("авг").data, ("08").data),
    (("сен").data, ("09").data), (("окт").data, ("10").data),
    (("ноя").data, ("11").data), (("дек").data, ("12").data) ]

/-- Dictionary lookup on string keys. -/
def lookupTbl (tbl : List (List Char × List Char)) (k : List Char) :
    Option (List Char) :=
  match tbl.find? (fun p => p.1 == k) with
  | some p => some p.2
  | none => none

/-- Numeric value of a digit string. -/
def natOfDigits (s : List Char) : Nat :=
  s.foldl (fun n c => n * 10 + (cp c - 48)) 0

/-- Gregorian leap-year test, as in datetime. -/
def isLeapYear (y : Nat) : Bool :=
  y % 4 = 0 && (y % 100 ≠ 0 || y % 400 = 0)

/-- Number of days of a month, as validated by datetime. -/
def daysInMonth (y m : Nat) : Nat :=
  if m = 2 then (if isLeapYear y then 29 else 28)
  else if m = 4 || m = 6 || m = 9 || m = 11 then 30
  else 31

/-- Two-digit zero padding. -/
def pad2 (n : Nat) : List Char :=
  if n < 10 then '0' :: Nat.toDigits 10 n else Nat.toDigits 10 n

/-- Method _normalize_date of OSGOPParser: resolve the Russian month name
    through the full-name table, then the three-letter table with its three
    special cases, check the day, year and calendar ranges, and format the
    date as YYYY-MM-DD; every failure gives None. -/
def normalize_date (day month year : List Char) : Option (List Char) :=
  let month_lower := pyStrip (month.map pyLower)
  let month_num :=
    match lookupTbl months_full month_lower with
    | some m => some m
    | none =>
      if 3 ≤ month_lower.length then
        let key := month_lower.take 3
        if key = ("мая").data && litPref (("мая").data) month_lower then
          some (("05").data)
        else if key = ("июн").data && litPref (("июня").data) month_lower then
          some (("06").data)
        else if key = ("июл").data && litPref (("июля").data) month_lower then
          some (("07").data)
        else lookupTbl months_short key
      else none
  match month_num with
  | none => none
  | some mn =>
    let d := pyStrip day
    let y := pyStrip year
    if d = [] || !d.all isDigitC || y = [] || !y.all isDigitC then none
    else
      let day_int := natOfDigits d
      let year_int := natOfDigits y
      if day_int < 1 || 31 < day_int then none
      else if year_int < 2000 || 2100 < year_int then none
      else if daysInMonth year_int (natOfDigits mn) < day_int then none
      else some (Nat.toDigits 10 year_int ++ '-' :: mn ++ '-' :: pad2 day_int)

/- ===================== date pattern scanners ===================== -/

/-- Anchored matcher for the day, month-name and four-digit-year triple
    under IGNORECASE.  The one-or-two-digit day group is followed by
    mandatory whitespace, so a run of three or more digits can never match
    at this position; the month run and the year run are maximal, the year
    needs at least four digits of which four are taken.  Returns the three
    groups and the suffix following the match. -/
def dmyCore (s : List Char) :
    Option ((List Char × List Char × List Char) × List Char) :=
  let r1 := takeDigits s
  if r1.length = 0 || 3 ≤ r1.length then none
  else
    let s1 := s.drop r1.length
    let w1 := s1.takeWhile isPySpace
    if w1 = [] then none
    else
      let s2 := s1.drop w1.length
      let m := s2.takeWhile isCyrAny
      if m = [] then none
      else
        let s3 := s2.drop m.length
        let w2 := s3.takeWhile isPySpace
        if w2 = [] then none
        else
          let s4 := s3.drop w2.length
          if (takeDigits s4).length < 4 then none
          else some ((r1, m, (takeDigits s4).take 4), s4.drop 4)

/-- Fuelled model of re.findall on the date triple: non-overlapping
    occurrences, scanning resumes after each match. -/
def findAllDMYF : Nat → List Char → List (List Char × List Char × List Char)
  | 0, _ => []
  | _ + 1, [] => []
  | fuel + 1, c :: cs =>
    match dmyCore (c :: cs) with
    | some (g, rest) => g :: findAllDMYF fuel rest
    | none => findAllDMYF fuel cs

/-- All date triples of a string in document order. -/
def findAllDMY (s : List Char) : List (List Char × List Char × List Char) :=
  findAllDMYF s.length s

/-- Gap class of ws or colon. -/
def isColonWS (c : Char) : Bool := c = ':' || isPySpace c

/-- Gap class of ws or dash. -/
def isWSDash (c : Char) : Bool := isPySpace c || c = '-'

/-- Consume a case-insensitive literal at the head. -/
def ciAfter (pat : List Char) (s : List Char) : Option (List Char) :=
  if ciPref pat s then some (s.drop pat.length) else none

/-- Consume the first matching alternative of case-insensitive literals. -/
def altCI : List (List Char) → List Char → Option (List Char)
  | [], _ => none
  | p :: ps, s =>
    match ciAfter p s with
    | some t => some t
    | none => altCI ps s

/-- Mandatory whitespace gap: at least one whitespace character, consumed
    maximally, as backtracking a greedy gap before a non-whitespace token
    can never succeed. -/
def wsPlus (s : List Char) : Option (List Char) :=
  match s with
  | [] => none
  | c :: cs => if isPySpace c then some (cs.dropWhile isPySpace) else none

/-- Day-and-month part of the date patterns: one-or-two-digit day followed
    by mandatory whitespace and a month-name run.  A digit run of length
    three or more can never match here because the backtracked shorter day
    group is followed by a digit where whitespace is required. -/
def dmPart (s : List Char) : Option ((List Char × List Char) × List Char) :=
  let r1 := takeDigits s
  if r1.length = 0 || 3 ≤ r1.length then none
  else
    match wsPlus (s.drop r1.length) with
    | none => none
    | some s2 =>
      let m := s2.takeWhile isCyrAny
      if m = [] then none else some ((r1, m), s2.drop m.length)

/-- Four-digit year group whose following pattern part starts with optional
    whitespace: the run must be exactly four digits, as a fifth digit blocks
    every continuation. -/
def yearExact4 (s : List Char) : Option (List Char × List Char) :=
  if (takeDigits s).length = 4 then some (takeDigits s, s.drop 4) else none

/-- Four-digit year group at a pattern end or before an unrestricted part:
    at least four digits, of which four are taken. -/
def yearMin4 (s : List Char) : Option (List Char × List Char) :=
  if 4 ≤ (takeDigits s).length then some ((takeDigits s).take 4, s.drop 4)
  else none

/-- Full date triple via the anchored core matcher. -/
def dmyFull (s : List Char) : Option (List Char × List Char × List Char) :=
  (dmyCore s).map (fun g => g.1)

/-- The part whitespace-star, optional letter г, whitespace-plus, literal
    по of the period patterns: after the maximal whitespace run, either the
    letter г is present and must be followed by at least one whitespace and
    по, or по must follow a nonempty whitespace run directly; no other
    backtracking branch can succeed. -/
def gThenPo (s : List Char) : Option (List Char) :=
  match ciAfter (("г").data) (s.dropWhile isPySpace) with
  | some w2 =>
    if w2.takeWhile isPySpace = [] then none
    else ciAfter (("по").data) (w2.dropWhile isPySpace)
  | none =>
    if s.takeWhile isPySpace = [] then none
    else ciAfter (("по").data) (s.dropWhile isPySpace)

/-- Anchored matcher of the first period pattern: Срок or Период, a
    ws-or-dash gap, страхования or действия, a ws-or-colon gap, the letter
    с, optional whitespace, a date, whitespace, an exactly-four-digit year,
    the г-and-по part, mandatory whitespace, and the second date. -/
def period1At (s : List Char) :
    Option ((List Char × List Char × List Char) × (List Char × List Char × List Char)) := do
  let t1 ← altCI [("Срок").data, ("Период").data] s
  let t3 ← altCI [("страхования").data, ("действия").data] (t1.dropWhile isWSDash)
  let t5 ← ciAfter (("с").data) (t3.dropWhile isColonWS)
  let ((d1, m1), t7) ← dmPart (t5.dropWhile isPySpace)
  let t8 ← wsPlus t7
  let (y1, t9) ← yearExact4 t8
  let t10 ← gThenPo t9
  let t11 ← wsPlus t10
  let ((d2, m2), t12) ← dmPart t11
  let t13 ← wsPlus t12
  let (y2, _) ← yearMin4 t13
  pure ((d1, m1, y1), (d2, m2, y2))

/-- Anchored matcher of the second period pattern: the letter с, optional
    whitespace, a date, whitespace, an exactly-four-digit year, the
    г-and-по part, optional whitespace, and the second date. -/
def period2At (s : List Char) :
    Option ((List Char × List Char × List Char) × (List Char × List Char × List Char)) := do
  let t1 ← ciAfter (("с").data) s
  let ((d1, m1), t3) ← dmPart (t1.dropWhile isPySpace)
  let t4 ← wsPlus t3
  let (y1, t5) ← yearExact4 t4
  let t6 ← gThenPo t5
  let ((d2, m2), t8) ← dmPart (t6.dropWhile isPySpace)
  let t9 ← wsPlus t8
  let (y2, _) ← yearMin4 t9
  pure ((d1, m1, y1), (d2, m2, y2))

/-- Tail of the third period pattern after its lazy gap: по, optional
    whitespace, and a date triple. -/
def poTailAt (s : List Char) : Option (List Char × List Char × List Char) := do
  let t ← ciAfter (("по").data) s
  dmyFull (t.dropWhile isPySpace)

/-- Lazy any-character gap of the third period pattern: the earliest
    position where the tail matches, never crossing a newline because the
    pattern is compiled without DOTALL. -/
def scanPoTail : Nat → List Char → Option (List Char × List Char × List Char)
  | 0, _ => none
  | fuel + 1, s =>
    match poTailAt s with
    | some g => some g
    | none =>
      match s with
      | [] => none
      | c :: cs => if c = '\n' then none else scanPoTail fuel cs

/-- Anchored matcher of the third period pattern: Срок, a ws-or-dash gap,
    страхования, a ws-or-colon gap, the letter с, optional whitespace, a
    date triple, then the lazy gap and the second date after по. -/
def period3At (s : List Char) :
    Option ((List Char × List Char × List Char) × (List Char × List Char × List Char)) := do
  let t1 ← ciAfter (("Срок").data) s
  let t3 ← ciAfter (("страхования").data) (t1.dropWhile isWSDash)
  let t5 ← ciAfter (("с").data) (t3.dropWhile isColonWS)
  let ((d1, m1), t7) ← dmPart (t5.dropWhile isPySpace)
  let t8 ← wsPlus t7
  let (y1, t9) ← yearMin4 t8
  let g2 ← scanPoTail t9.length t9
  pure ((d1, m1, y1), g2)

/-- Anchored matcher of the first contract-date pattern: Дата, a ws-or-dash
    gap, заключения, a ws-or-dash gap, договора or полиса, a ws-or-colon
    gap, and a date triple. -/
def cdate1At (s : List Char) : Option (List Char × List Char × List Char) := do
  let t1 ← ciAfter (("Дата").data) s
  let t2 ← ciAfter (("заключения").data) (t1.dropWhile isWSDash)
  let t3 ← altCI [("договора").data, ("полиса").data] (t2.dropWhile isWSDash)
  dmyFull (t3.dropWhile isColonWS)

/-- Anchored matcher of the second contract-date pattern: Заключен, a
    ws-or-colon gap, and a date triple. -/
def cdate2At (s : List Char) : Option (List Char × List Char × List Char) := do
  let t1 ← ciAfter (("Заключен").data) s
  dmyFull (t1.dropWhile isColonWS)

/-- Anchored matcher of the third contract-date pattern: Договор, a
    ws-or-dash gap, заключен, a ws-or-colon gap, and a date triple. -/
def cdate3At (s : List Char) : Option (List Char × List Char × List Char) := do
  let t1 ← ciAfter (("Договор").data) s
  let t2 ← ciAfter (("заключен").data) (t1.dropWhile isWSDash)
  dmyFull (t2.dropWhile isColonWS)

/-- Anchored matcher of the disclosure conclusion-date pattern: Дата,
    whitespace, заключения, whitespace, договора, a colon-or-ws gap, and a
    date triple. -/
def svedDateAt (s : List Char) : Option (List Char × List Char × List Char) := do
  let t1 ← ciAfter (("Дата").data) s
  let t2 ← wsPlus t1
  let t3 ← ciAfter (("заключения").data) t2
  let t4 ← wsPlus t3
  let t5 ← ciAfter (("договора").data) t4
  dmyFull (t5.dropWhile isColonWS)

/-- Method _extract_contract_date_from_svedeniya of OSGOPParser. -/
def extract_sved_date (text : List Char) : Option (List Char) :=
  match searchSuf svedDateAt text with
  | some (d, m, y) => normalize_date d m y
  | none => none

/-- Local normalisation at the head of _extract_dates_from_polis: the three
    quote characters are removed, the no-break space becomes a space, and
    whitespace runs collapse. -/
def normDatesText (text : List Char) : List Char :=
  collapseWS ((text.filter
    (fun c => decide (c ≠ '«' ∧ c ≠ '»' ∧ c ≠ '"'))).map
      (fun c => if cp c = 160 then ' ' else c))

/-- Result record of _extract_dates_from_polis. -/
structure DatesResult where
  contract_date : Option (List Char)
  period_from : Option (List Char)
  period_to : Option (List Char)
deriving DecidableEq, Repr

/-- The period-pattern loop: each matching pattern overwrites both period
    fields with its normalised dates; the loop stops at the first pattern
    whose two dates both normalise, otherwise partial values persist. -/
def periodLoop :
    List (List Char →
      Option ((List Char × List Char × List Char) × (List Char × List Char × List Char))) →
    List Char → Option (List Char) × Option (List Char) →
    Option (List Char) × Option (List Char)
  | [], _, acc => acc
  | m :: rest, text, acc =>
    match searchSuf m text with
    | some ((d1, m1, y1), (d2, m2, y2)) =>
      let pf := normalize_date d1 m1 y1
      let pt := normalize_date d2 m2 y2
      if pf.isSome && pt.isSome then (pf, pt)
      else periodLoop rest text (pf, pt)
    | none => periodLoop rest text acc

/-- The contract-date pattern loop: the first pattern that matches and
    whose date normalises wins. -/
def contractDateLoop :
    List (List Char → Option (List Char × List Char × List Char)) →
    List Char → Option (List Char)
  | [], _ => none
  | m :: rest, text =>
    match searchSuf m text with
    | some (d, mo, y) =>
      match normalize_date d mo y with
      | some ds => some ds
      | none => contractDateLoop rest text
    | none => contractDateLoop rest text

/-- Method _extract_dates_from_polis of OSGOPParser: period patterns, then
    contract-date patterns, then the generic date-scan fallback. -/
def extract_dates_from_polis (text : List Char) : DatesResult :=
  let nt := normDatesText text
  let pp := periodLoop [period1At, period2At, period3At] nt (none, none)
  let cd := contractDateLoop [cdate1At, cdate2At, cdate3At] nt
  if cd.isSome && pp.1.isSome && pp.2.isSome then ⟨cd, pp.1, pp.2⟩
  else
    match (findAllDMY nt).filterMap (fun g => normalize_date g.1 g.2.1 g.2.2) with
    | [] => ⟨cd, pp.1, pp.2⟩
    | d0 :: drest =>
      let cd2 := if cd = none then some d0 else cd
      match drest with
      | d1 :: _ =>
        if pp.1 = none then ⟨cd2, some d0, some d1⟩ else ⟨cd2, pp.1, pp.2⟩
      | [] => ⟨cd2, pp.1, pp.2⟩

/- ===================== party sections and tax ids ===================== -/

/-- Stop labels of the insurer-section lookahead. -/
def insurerStops : List (List Char) :=
  [("Страхователь").data, ("Итого").data, ("Премия").data, ("Срок").data,
   ("ИНН").data]

/-- Stop labels of the insured-section lookahead. -/
def insuredStops : List (List Char) :=
  [("Итого").data, ("Премия").data, ("Срок").data, ("Страховая").data,
   ("ИНН").data]

/-- Lookahead whitespace-star-then-stop-label-or-end: after the maximal
    whitespace run, either a stop label follows case-insensitively or the
    string has ended. -/
def lookAheadStop (labels : List (List Char)) (t : List Char) : Bool :=
  (t.dropWhile isPySpace).isEmpty ||
  labels.any (fun l => ciPref l (t.dropWhile isPySpace))

/-- Lazy capture of the section body: the shortest prefix whose end
    position satisfies the lookahead, which always exists because the
    lookahead holds at the string end. -/
def capUntilStop (labels : List (List Char)) : Nat → List Char → List Char
  | 0, _ => []
  | fuel + 1, t =>
    if lookAheadStop labels t then []
    else
      match t with
      | [] => []
      | c :: cs => c :: capUntilStop labels fuel cs

/-- Anchored matcher of a party-section pattern: the role label, a greedy
    colon-or-whitespace gap, then the lazy capture up to the stop
    lookahead.  Returns the capture and the whole matched text. -/
def sectionAt (label : List Char) (stops : List (List Char)) (s : List Char) :
    Option (List Char × List Char) :=
  if ciPref label s then
    some ((capUntilStop stops
            ((s.drop label.length).drop
              ((s.drop label.length).takeWhile isColonWS).length).length
            ((s.drop label.length).drop
              ((s.drop label.length).takeWhile isColonWS).length)),
          s.take (label.length +
            ((s.drop label.length).takeWhile isColonWS).length +
            (capUntilStop stops
              ((s.drop label.length).drop
                ((s.drop label.length).takeWhile isColonWS).length).length
              ((s.drop label.length).drop
                ((s.drop label.length).takeWhile isColonWS).length)).length))
  else none

/-- Fuelled removal of every parenthesised group, the model of re.sub on
    an opening parenthesis, non-closing characters and a closing
    parenthesis: an opening parenthesis with no closing one is kept. -/
def removeParensF : Nat → List Char → List Char
  | 0, s => s
  | _ + 1, [] => []
  | fuel + 1, c :: cs =>
    if c = '(' && cs.contains ')' then
      removeParensF fuel ((cs.dropWhile (fun d => decide (d ≠ ')'))).drop 1)
    else c :: removeParensF fuel cs

/-- Removal of parenthesised groups. -/
def removeParens (s : List Char) : List Char := removeParensF s.length s

/-- Prefix of a string before the first case-insensitive occurrence of a
    pattern, the model of taking the head of re.split. -/
def takeBeforeCI (pat : List Char) : List Char → List Char
  | [] => []
  | c :: cs => if ciPref pat (c :: cs) then [] else c :: takeBeforeCI pat cs

/-- Trailing-trim class of whitespace, comma, colon, semicolon, dot, dash. -/
def isTrimC (c : Char) : Bool :=
  isPySpace c || c = ',' || c = ':' || c = ';' || c = '.' || c = '-'

/-- Punctuation class of the leading-trim pattern. -/
def isPunct5 (c : Char) : Bool :=
  c = ',' || c = ':' || c = ';' || c = '.' || c = '-'

/-- Removal of the anchored leading whitespace-and-punctuation run: only
    applied when at least one punctuation character follows the leading
    whitespace, as the pattern requires. -/
def stripLeadPunct (s : List Char) : List Char :=
  if (s.dropWhile isPySpace).takeWhile isPunct5 = [] then s
  else (s.dropWhile isPySpace).dropWhile isPunct5

/-- Party-name cleaning chain shared by insurer and insured: strip, remove
    parentheses, cut at the split pattern, drop quote characters, trim the
    trailing and leading punctuation, collapse whitespace, strip, and keep
    the result only when longer than two characters. -/
def cleanParty (cutPat : List Char) (cap : List Char) : Option (List Char) :=
  let t2 := removeParens (pyStrip cap)
  let t4 := (takeBeforeCI cutPat t2).filter
    (fun c => decide (c ≠ '"' ∧ c ≠ '«' ∧ c ≠ '»' ∧ c ≠ '\''))
  let t7 := pyStrip (collapseWS (stripLeadPunct ((t4.reverse.dropWhile isTrimC).reverse)))
  if 3 ≤ t7.length then some t7 else none

/-- Complement of the letters И and Н under IGNORECASE, the class of the
    bracketed negation in the primary tax-id patterns. -/
def notInnChar (c : Char) : Bool := !(pyUpper c = 'И' || pyUpper c = 'Н')

/-- Anchored matcher of the primary tax-id pattern: role label, a run of
    non-И-Н characters, the literal ИНН, a colon-slash-whitespace gap and
    ten to twelve digits. -/
def innPrimaryAt (label : List Char) (s : List Char) : Option (List Char) := do
  let t ← ciAfter label s
  let t3 ← ciAfter (("ИНН").data) (t.dropWhile notInnChar)
  let t4 := t3.dropWhile (fun c => isColonWS c || c = '/')
  if 10 ≤ (takeDigits t4).length then some ((takeDigits t4).take 12) else none

/-- Anchored matcher of the plain tax-id pattern ИНН, colon-slash-ws gap,
    ten to twelve digits. -/
def innSimpleAt (s : List Char) : Option (List Char) := do
  let t ← ciAfter (("ИНН").data) s
  let t2 := t.dropWhile (fun c => isColonWS c || c = '/')
  if 10 ≤ (takeDigits t2).length then some ((takeDigits t2).take 12) else none

/-- Anchored matcher of the first alternative tax-id pattern: ИНН, optional
    whitespace, exactly one colon or slash, optional whitespace, ten to
    twelve digits. -/
def innColonAt (s : List Char) : Option (List Char) := do
  let t ← ciAfter (("ИНН").data) s
  match t.dropWhile isPySpace with
  | [] => none
  | c :: cs =>
    if c = ':' || c = '/' then
      if 10 ≤ (takeDigits (cs.dropWhile isPySpace)).length then
        some ((takeDigits (cs.dropWhile isPySpace)).take 12)
      else none
    else none

/-- Anchored matcher of the second alternative tax-id pattern: ИНН, any
    non-digit characters, ten to twelve digits. -/
def innLooseAt (s : List Char) : Option (List Char) := do
  let t ← ciAfter (("ИНН").data) s
  let t2 := t.dropWhile (fun c => !isDigitC c)
  if 10 ≤ (takeDigits t2).length then some ((takeDigits t2).take 12) else none

/-- Anchored matcher of a word-boundary-delimited ten-digit token: the
    previous character, when present, is no word character, the digit run
    is exactly ten, and the following character, when present, is no word
    character. -/
def bdTenAt (prev : Option Char) (s : List Char) : Option (List Char) :=
  let prevOk := match prev with | none => true | some p => !isWordC p
  let afterOk := match s.drop 10 with | [] => true | d :: _ => !isWordC d
  if prevOk && (takeDigits s).length = 10 && afterOk then some (s.take 10)
  else none

/-- Position-scanning search that threads the previous character, needed by
    the word-boundary matchers. -/
def searchSufP {α : Type} (f : Option Char → List Char → Option α) :
    Option Char → List Char → Option α
  | prev, [] => f prev []
  | prev, c :: cs =>
    match f prev (c :: cs) with
    | some r => some r
    | none => searchSufP f (some c) cs

/-- Anchored matcher of a boundary-delimited ten-digit token later followed
    by the given label (a lazy DOTALL gap, so mere containment). -/
def bdTenThenLabelAt (label : List Char) (prev : Option Char) (s : List Char) :
    Option (List Char) :=
  match bdTenAt prev s with
  | some r => if containsCI label (s.drop 10) then some r else none
  | none => none

/-- Anchored matcher of a label followed, after a lazy DOTALL gap, by the
    earliest boundary-delimited ten-digit token; the boundary context
    starts at the label end, whose last character is a word character. -/
def labelThenTenAt (label : List Char) (s : List Char) : Option (List Char) := do
  let t ← ciAfter label s
  searchSufP bdTenAt label.getLast? t

/-- Anchored matcher of a label followed, after a lazy DOTALL gap, by the
    earliest match of the colon-slash tax-id pattern. -/
def labelThenInnColonAt (label : List Char) (s : List Char) : Option (List Char) := do
  let t ← ciAfter label s
  searchSuf innColonAt t

/-- The ordered alternative tax-id chain of the insurer. -/
def insurerInnAlt (text : List Char) : Option (List Char) :=
  match searchSuf innColonAt text with
  | some v => some v
  | none =>
    match searchSuf innLooseAt text with
    | some v => some v
    | none =>
      match searchSufP (bdTenThenLabelAt (("Страховщик").data)) none text with
      | some v => some v
      | none => searchSuf (labelThenTenAt (("Страховщик").data)) text

/-- The ordered alternative tax-id chain of the insured. -/
def insuredInnAlt (text : List Char) : Option (List Char) :=
  match searchSuf (labelThenInnColonAt (("Страхователь").data)) text with
  | some v => some v
  | none =>
    match searchSuf (labelThenTenAt (("Страхователь").data)) text with
    | some v => some v
    | none => searchSufP (bdTenThenLabelAt (("Страхователь").data)) none text

/- ===================== premium ===================== -/

/-- Amount-capture class of digits, whitespace and comma. -/
def isAmtC (c : Char) : Bool := isDigitC c || isPySpace c || c = ','

/-- Optional decimal tail: a dot followed by exactly two digits. -/
def dotDD (s : List Char) : List Char :=
  match s with
  | '.' :: d1 :: d2 :: _ =>
    if isDigitC d1 && isDigitC d2 then ['.', d1, d2] else []
  | _ => []

/-- Amount capture after a premium label: the greedy colon-or-whitespace
    gap is taken maximally; when no amount-class character follows, the
    backtracking of the gap yields a single whitespace character (the
    rightmost whitespace of the gap) as the capture, when the gap has one;
    the optional dot-and-two-digits tail extends a capture that reaches the
    gap end. -/
def amountAfterGap (t : List Char) : Option (List Char) :=
  let gap := t.takeWhile isColonWS
  let post := t.drop gap.length
  let r := post.takeWhile isAmtC
  if r ≠ [] then some (r ++ dotDD (post.drop r.length))
  else
    match gap.reverse with
    | [] => none
    | c :: grest =>
      if isPySpace c then some (c :: dotDD post)
      else
        match grest.find? isPySpace with
        | some w => some [w]
        | none => none

/-- Anchored matcher of the fourth premium pattern: an amount-class run,
    the optional decimal tail, optional whitespace and the literal руб.
    The whitespace star is always empty because the maximal amount run
    already contains every whitespace character before the literal. -/
def prem4At (s : List Char) : Option (List Char) :=
  let r := s.takeWhile isAmtC
  if r = [] then none
  else
    let rest := s.drop r.length
    if dotDD rest ≠ [] &&
        ciPref (("руб").data) ((rest.drop 3).dropWhile isPySpace) then
      some (r ++ dotDD rest)
    else if ciPref (("руб").data) rest then some r
    else none

/-- Consume a sequence of case-insensitive words joined by mandatory
    whitespace gaps. -/
def ciWordsAfter : List (List Char) → List Char → Option (List Char)
  | [], s => some s
  | w :: ws, s =>
    match ciAfter w s with
    | none => none
    | some t =>
      match ws with
      | [] => some t
      | _ :: _ =>
        match wsPlus t with
        | none => none
        | some t2 => ciWordsAfter ws t2

/-- Anchored matcher of the first premium pattern, labelled Итого страховая
    премия. -/
def prem1At (s : List Char) : Option (List Char) :=
  (ciWordsAfter [("Итого").data, ("страховая").data, ("премия").data] s).bind
    amountAfterGap

/-- Anchored matcher of the second premium pattern, labelled Страховая
    премия. -/
def prem2At (s : List Char) : Option (List Char) :=
  (ciWordsAfter [("Страховая").data, ("премия").data] s).bind amountAfterGap

/-- Anchored matcher of the third premium pattern, labelled Премия. -/
def prem3At (s : List Char) : Option (List Char) :=
  (ciWordsAfter [("Премия").data] s).bind amountAfterGap

/-- Exact decimal value of a digit-and-dot string, the model of float for
    the amounts of these documents (which carry at most two decimals, so
    binary rounding never changes a comparison made here). -/
def ratOfAmount (s : List Char) : Rat :=
  (natOfDigits (s.takeWhile (fun c => decide (c ≠ '.'))) : Rat) +
    (natOfDigits ((s.dropWhile (fun c => decide (c ≠ '.'))).drop 1) : Rat) /
      ((10 : Rat) ^ ((s.dropWhile (fun c => decide (c ≠ '.'))).drop 1).length)

/-- Conversion of a premium capture: spaces removed, the decimal comma
    becomes a dot, every other non-digit non-dot character is removed, the
    empty result is skipped, and a malformed number (no digit, or more than
    one dot) raises ValueError in the source, which the loop catches and
    treats as a skip. -/
def premiumAmount (g : List Char) : Option Rat :=
  let s3 := ((g.filter (fun c => decide (c ≠ ' '))).map
    (fun c => if c = ',' then '.' else c)).filter
      (fun c => isDigitC c || c = '.')
  if s3 = [] then none
  else if decide (s3.count '.' ≤ 1) && s3.any isDigitC then
    some (ratOfAmount s3)
  else none

/-- The premium-pattern loop: the first pattern whose match converts to a
    number wins; a failed conversion falls through to the next pattern. -/
def premiumLoop : List (List Char → Option (List Char)) → List Char → Option Rat
  | [], _ => none
  | m :: rest, text =>
    match searchSuf m text with
    | some g =>
      match premiumAmount g with
      | some v => some v
      | none => premiumLoop rest text
    | none => premiumLoop rest text

/- ===================== _parse_polis_header ===================== -/

/-- Header-field record produced by _parse_polis_header; absent dictionary
    keys are None fields. -/
structure HeaderData where
  contract_number : Option (List Char)
  contract_date : Option (List Char)
  period_from : Option (List Char)
  period_to : Option (List Char)
  insurer : Option (List Char)
  insurer_inn : Option (List Char)
  insured : Option (List Char)
  insured_inn : Option (List Char)
  bonus : Option Rat
deriving DecidableEq, Repr

/-- Method _parse_polis_header of OSGOPParser: contract number, dates,
    insurer section and tax id with its fallbacks, insured section and tax
    id with its fallbacks, premium. -/
def parse_polis_header (text : List Char) : HeaderData :=
  let dates := extract_dates_from_polis text
  let insurerSec := searchSuf (sectionAt (("Страховщик").data) insurerStops) text
  let insuredSec := searchSuf (sectionAt (("Страхователь").data) insuredStops) text
  let insurer_inn0 :=
    match searchSuf (innPrimaryAt (("Страховщик").data)) text with
    | some v => some v
    | none =>
      match insurerSec with
      | some p => searchSuf innSimpleAt p.2
      | none => none
  let insured_inn0 :=
    match searchSuf (innPrimaryAt (("Страхователь").data)) text with
    | some v => some v
    | none =>
      match insuredSec with
      | some p => searchSuf innSimpleAt p.2
      | none => none
  { contract_number := searchROSX text
    contract_date := dates.contract_date
    period_from := dates.period_from
    period_to := dates.period_to
    insurer :=
      match insurerSec with
      | some p => cleanParty (("Лицензия").data) p.1
      | none => none
    insurer_inn :=
      match insurer_inn0 with
      | some v => some v
      | none => insurerInnAlt text
    insured :=
      match insuredSec with
      | some p => cleanParty (("ИНН").data) p.1
      | none => none
    insured_inn :=
      match insured_inn0 with
      | some v => some v
      | none => insuredInnAlt text
    bonus := premiumLoop [prem1At, prem2At, prem3At, prem4At] text }

/- ===================== _parse_svedeniya ===================== -/

/-- The restricted Cyrillic plate-letter class АВЕКМНОРСТУХ. -/
def isPlateCyr (c : Char) : Bool := (("АВЕКМНОРСТУХ").data).contains c

/-- Anchored matcher of the first plate shape on whitespace-free text: a
    plate letter, three digits, two plate letters, then two or three digits
    (greedy). -/
def plate1At (s : List Char) : Option (List Char) :=
  match s with
  | k1 :: d1 :: d2 :: d3 :: k2 :: k3 :: e1 :: e2 :: rest =>
    if isPlateCyr k1 && isDigitC d1 && isDigitC d2 && isDigitC d3 &&
        isPlateCyr k2 && isPlateCyr k3 && isDigitC e1 && isDigitC e2 then
      match rest with
      | e3 :: _ =>
        if isDigitC e3 then some [k1, d1, d2, d3, k2, k3, e1, e2, e3]
        else some [k1, d1, d2, d3, k2, k3, e1, e2]
      | [] => some [k1, d1, d2, d3, k2, k3, e1, e2]
    else none
  | _ => none

/-- Anchored matcher of the second plate shape on whitespace-free text: two
    plate letters then five digits. -/
def plate2At (s : List Char) : Option (List Char) :=
  match s with
  | k1 :: k2 :: d1 :: d2 :: d3 :: d4 :: d5 :: _ =>
    if isPlateCyr k1 && isPlateCyr k2 && isDigitC d1 && isDigitC d2 &&
        isDigitC d3 && isDigitC d4 && isDigitC d5 then
      some [k1, k2, d1, d2, d3, d4, d5]
    else none
  | _ => none

/-- Anchored matcher of the first spaced plate shape: the same components
    with optional whitespace between letter and digit groups; the counted
    digit groups admit no longer runs because a further digit blocks the
    following letter or ends the greedy two-or-three tail. -/
def plate1SpacedAt (s : List Char) : Option (List Char) :=
  match s with
  | [] => none
  | k1 :: t1 =>
    if isPlateCyr k1 then
      let t2 := t1.dropWhile isPySpace
      if (takeDigits t2).length = 3 then
        match (t2.drop 3).dropWhile isPySpace with
        | k2 :: k3 :: t3 =>
          if isPlateCyr k2 && isPlateCyr k3 then
            let t4 := t3.dropWhile isPySpace
            let r := takeDigits t4
            if 2 ≤ r.length then some (k1 :: t2.take 3 ++ k2 :: k3 :: r.take 3)
            else none
          else none
        | _ => none
      else none
    else none

/-- Anchored matcher of the second spaced plate shape: two plate letters,
    optional whitespace, exactly five digits taken of a run of at least
    five. -/
def plate2SpacedAt (s : List Char) : Option (List Char) :=
  match s with
  | k1 :: k2 :: t1 =>
    if isPlateCyr k1 && isPlateCyr k2 then
      let t2 := t1.dropWhile isPySpace
      if 5 ≤ (takeDigits t2).length then some (k1 :: k2 :: (takeDigits t2).take 5)
      else none
    else none
  | _ => none

/-- Vehicle data extracted from one disclosure segment. -/
structure VehicleData where
  plate_cyr : List Char
  plate_lat : List Char
  contract_date : Option (List Char)
deriving DecidableEq, Repr

/-- Method _parse_svedeniya of OSGOPParser: search the two plate shapes on
    the whitespace-stripped uppercased text, then the spaced shapes on the
    uppercased text, normalise the plate both ways, reject empty
    normalisations, and attach the local conclusion date when present. -/
def parse_svedeniya (text : List Char) : Option VehicleData :=
  let tns := (upperStr text).filter (fun c => !isPySpace c)
  let plate_match :=
    match searchSuf plate1At tns with
    | some p => some p
    | none =>
      match searchSuf plate2At tns with
      | some p => some p
      | none =>
        match searchSuf plate1SpacedAt (upperStr text) with
        | some p => some ((p.filter (fun c => !isPySpace c)))
        | none =>
          match searchSuf plate2SpacedAt (upperStr text) with
          | some p => some ((p.filter (fun c => !isPySpace c)))
          | none => none
  match plate_match with
  | none => none
  | some pm =>
    let plate_cyr := to_cyr_full pm
    let plate_lat := normalize_plate plate_cyr
    if plate_cyr = [] || plate_lat = [] then none
    else
      some { plate_cyr := plate_cyr
             plate_lat := plate_lat
             contract_date :=
               match searchSuf svedDateAt text with
               | some (d, m, y) => normalize_date d m y
               | none => none }

/- ===================== contract model and assembly ===================== -/

/-- Model of the pydantic VehicleInfo: both plate fields are required, vin
    and the registry info are optional; with no Element client configured
    both stay None. -/
structure VehicleInfo where
  vehicle_plate_cyr : List Char
  vehicle_plate_lat : List Char
  vin : Option (List Char)
  car_info : Option (List (List Char × List Char))
deriving DecidableEq, Repr

/-- Model of the pydantic OSGOPContract: the contract number and the
    vehicle list are required, every other field is optional.  Constructing
    the source model with contract_number None raises a ValidationError,
    which the embedding expresses by the builder below returning none. -/
structure OSGOPContract where
  contract_number : List Char
  contract_date : Option (List Char)
  period_from : Option (List Char)
  period_to : Option (List Char)
  insurer : Option (List Char)
  insurer_inn : Option (List Char)
  insured : Option (List Char)
  insured_inn : Option (List Char)
  bonus : Option Rat
  vehicles : List VehicleInfo
deriving DecidableEq, Repr

/-- Pydantic construction of OSGOPContract: fails exactly when the required
    contract_number is None. -/
def mkOSGOPContract (hd : HeaderData) (effDate : Option (List Char))
    (vehicles : List VehicleInfo) : Option OSGOPContract :=
  match hd.contract_number with
  | none => none
  | some num =>
    some { contract_number := num
           contract_date := effDate
           period_from := hd.period_from
           period_to := hd.period_to
           insurer := hd.insurer
           insurer_inn := hd.insurer_inn
           insured := hd.insured
           insured_inn := hd.insured_inn
           bonus := hd.bonus
           vehicles := vehicles }

/-- Newline join, the model of joining page texts. -/
def joinNL : List (List Char) → List Char
  | [] => []
  | [x] => x
  | x :: xs => x ++ '\n' :: joinNL xs

/-- Text of a page range of the normalised pages. -/
def segText (pages : List (List Char)) (s e : Nat) : List Char :=
  joinNL ((pages.drop s).take (e - s))

/-- The body of parse_with_segments after text extraction, with the mutable
    parser attribute contract_date_from_svedeniya threaded explicitly as
    state: the function returns the attribute value at return or raise time
    together with either the result or the raised validation error. -/
def parse_attempt (st : Option (List Char)) (pages : List (List Char)) :
    Option (List Char) ×
      Except (List Char) (List OSGOPContract × List (Nat × Nat)) :=
  let normalized := pages.map normalize_page_text
  let segments := detect_segments normalized
  if segments = [] then (st, .ok ([], []))
  else
    match (segments.filter (fun s => s.2.2 = SegKind.POLIS)).getLast? with
    | none => (st, .ok ([], []))
    | some (ps, pe, _) =>
      let sveds := (segments.filter (fun s => s.2.2 = SegKind.SVEDENIYA)).map
        (fun s => (s.1, s.2.1))
      let header := parse_polis_header (segText normalized ps pe)
      let st2 :=
        match sveds with
        | [] => st
        | (s0, e0) :: _ =>
          match extract_sved_date (segText normalized s0 e0) with
          | some d => some d
          | none => st
      let vehicles_data := sveds.filterMap
        (fun se => parse_svedeniya (segText normalized se.1 se.2))
      let vehicles := vehicles_data.map
        (fun v => VehicleInfo.mk v.plate_cyr v.plate_lat none none)
      let effDate :=
        if header.contract_date = none && st2.isSome then st2
        else header.contract_date
      match mkOSGOPContract header effDate vehicles with
      | none => (st2, .error (("ValidationError").data))
      | some contract => (st2, .ok ([contract], (ps, pe) :: sveds))

/-- Method parse_with_segments of OSGOPParser: the whole body runs inside a
    try block whose except-clause returns the empty result; the input is
    the outcome of the upstream text extraction, whose failure is one of
    the caught exceptions. -/
def parse_with_segments (st : Option (List Char))
    (input : Except (List Char) (List (List Char))) :
    Option (List Char) × (List OSGOPContract × List (Nat × Nat)) :=
  match input with
  | .error _ => (st, ([], []))
  | .ok pages =>
    match parse_attempt st pages with
    | (st2, .ok r) => (st2, r)
    | (st2, .error _) => (st2, ([], []))

/- ===================== concrete documents ===================== -/

/-- Policy page carrying a contract number. -/
def pagePolisRosx : List Char :=
  ("ПОЛИС ОБЯЗАТЕЛЬНОГО СТРАХОВАНИЯ ГРАЖДАНСКОЙ ОТВЕТСТВЕННОСТИ ПЕРЕВОЗЧИКА ROSX12345678").data

/-- Disclosure page carrying a conclusion date. -/
def pageSvedDate : List Char :=
  ("СВЕДЕНИЯ О ДОГОВОРЕ ОБЯЗАТЕЛЬНОГО СТРАХОВАНИЯ ГРАЖДАНСКОЙ ОТВЕТСТВЕННОСТИ ПЕРЕВОЗЧИКА Дата заключения договора: 29 октября 2025").data

/-- Policy page carrying a contract number and a plate-shaped substring. -/
def pagePolisPlate : List Char :=
  ("ПОЛИС ОБЯЗАТЕЛЬНОГО СТРАХОВАНИЯ ГРАЖДАНСКОЙ ОТВЕТСТВЕННОСТИ ПЕРЕВОЗЧИКА ROSX12345678 А123ВЕ77").data

/-- Surface test of a raised exception. -/
def isRaised : Except (List Char) (List OSGOPContract × List (Nat × Nat)) → Bool
  | .error _ => true
  | .ok _ => false

/-- Erasure of the one field the carried parser state can influence. -/
def stripDate (c : OSGOPContract) : OSGOPContract :=
  { c with contract_date := none }


/- ============ idempotence of the normalizer: notions ============ -/

/-- Case-insensitive string equality. -/
def ciEqS (x y : List Char) : Prop := upperStr x = upperStr y

/-- Case-insensitive occurrence of a pattern anywhere in a string. -/
def OccCI (pat s : List Char) : Prop := ∃ w, w <:+: s ∧ ciEqS w pat

/-- The remainder after a match starts with a space or is empty. -/
def FollowsOK (z : List Char) : Prop := z = [] ∨ ∃ z', z = ' ' :: z'

/-- Every case-insensitive occurrence of the pattern is written canonically
    and is followed by a space or by the end of the string. -/
def LabelP (pat s : List Char) : Prop :=
  ∀ t, t <:+ s → ciPref pat t = true →
    t.take pat.length = pat ∧ FollowsOK (t.drop pat.length)

/-- Relation: the second string is the first with some spaces inserted. -/
inductive InsSp : List Char → List Char → Prop where
  | nil : InsSp [] []
  | keep (c : Char) {x y : List Char} : InsSp x y → InsSp (c :: x) (c :: y)
  | add {x y : List Char} : InsSp x y → InsSp x (' ' :: y)

/-- Executable check of the space-insertion relation, greedy on equal
    heads, used only to certify concrete pattern pairs. -/
def insChk : List Char → List Char → Bool
  | [], [] => true
  | [], y :: ys => y = ' ' && insChk [] ys
  | _ :: _, [] => false
  | x :: xs, y :: ys =>
    (decide (x = y) && insChk xs ys) || (decide (y = ' ') && insChk (x :: xs) ys)

/-- Decidable pattern side condition: no pattern character uppercases to a
    whitespace character, so nothing case-insensitively equal to a pattern
    character is whitespace. -/
def patNoWS (pat : List Char) : Bool :=
  pat.all (fun c => !isPySpace (pyUpper c))

/-- Decidable pattern side condition: no proper nonempty prefix of the
    pattern is case-insensitively equal to a suffix of the same length. -/
def borderFreeCI (pat : List Char) : Bool :=
  (List.range pat.length).all (fun L =>
    decide (L = 0) ||
      !(decide (upperStr (pat.take L) = upperStr (pat.drop (pat.length - L)))))

/-- The whitespace-separated words of a string, in order, without empties. -/
def wordsOf : List Char → List (List Char)
  | [] => []
  | c :: cs =>
    if isPySpace c then wordsOf cs
    else (c :: cs.takeWhile (fun d => !isPySpace d)) ::
      wordsOf (cs.dropWhile (fun d => !isPySpace d))
  termination_by s => s.length
  decreasing_by
    · simp only [List.length_cons]; omega
    · simp only [List.length_cons]
      have := (List.dropWhile_sublist (l := cs) (fun d => !isPySpace d)).length_le
      omega

/-- Joining words with single spaces. -/
def unwordsSp : List (List Char) → List Char
  | [] => []
  | [w] => w
  | w :: u :: ws => w ++ ' ' :: unwordsSp (u :: ws)

/-- Removal of trailing whitespace only. -/
def pyStripTrail (s : List Char) : List Char :=
  (s.reverse.dropWhile isPySpace).reverse

/-- A lowercase Cyrillic letter immediately followed by an uppercase one
    occurs somewhere in the string. -/
def HasLU (s : List Char) : Prop :=
  ∃ a b, isCyrLower a = true ∧ isCyrUpper b = true ∧ [a, b] <:+: s

/-- Three digits immediately followed by an uppercase Cyrillic letter occur
    somewhere in the string. -/
def HasDDDU (s : List Char) : Prop :=
  ∃ d1 d2 d3 u, isDigitC d1 = true ∧ isDigitC d2 = true ∧ isDigitC d3 = true ∧
    isCyrUpper u = true ∧ [d1, d2, d3, u] <:+: s

/-- An uppercase Cyrillic letter immediately followed by three digits occurs
    somewhere in the string. -/
def HasUDDD (s : List Char) : Prop :=
  ∃ u d1 d2 d3, isCyrUpper u = true ∧ isDigitC d1 = true ∧ isDigitC d2 = true ∧
    isDigitC d3 = true ∧ [u, d1, d2, d3] <:+: s

/-- Whitespace normality: the only whitespace character is the plain space,
    no two spaces are adjacent, and the string neither starts nor ends with
    a space. -/
def WSNorm (s : List Char) : Prop :=
  (∀ c ∈ s, isPySpace c = true → c = ' ') ∧
  ¬([' ', ' '] <:+: s) ∧ s.head? ≠ some ' ' ∧ s.getLast? ≠ some ' '

/-- The first nine phrase patterns: concatenated phrases to be eliminated. -/
def concatPats : List (List Char) := (phraseSubs.take 9).map Prod.fst

/-- The three label patterns: labels that get a trailing space. -/
def labelPats : List (List Char) := (phraseSubs.drop 9).map Prod.fst

/-- The normal form left by _normalize_page_text: whitespace-normal, free of
    every concatenated phrase, canonical on the three labels and free of the
    three letter or digit adjacency patterns. -/
def NormForm (s : List Char) : Prop :=
  WSNorm s ∧ (∀ pat ∈ concatPats, ¬OccCI pat s) ∧
  (∀ pat ∈ labelPats, LabelP pat s) ∧ ¬HasLU s ∧ ¬HasDDDU s ∧ ¬HasUDDD s

/-- The character substitution underlying replaceSpecials. -/
def spMap (c : Char) : Char := if cp c = 160 || cp c = 9 then ' ' else c

/-- The twelve phrase patterns, named for the idempotence development. -/
def pat1 : List Char := ("ПОЛИСОБЯЗАТЕЛЬНОГО").data

def rep1 : List Char := ("ПОЛИС ОБЯЗАТЕЛЬНОГО").data

def pat2 : List Char := ("ОБЯЗАТЕЛЬНОГОСТРАХОВАНИЯ").data

def rep2 : List Char := ("ОБЯЗАТЕЛЬНОГО СТРАХОВАНИЯ").data

def pat3 : List Char := ("СТРАХОВАНИЯГРАЖДАНСКОЙ").data

def rep3 : List Char := ("СТРАХОВАНИЯ ГРАЖДАНСКОЙ").data

def pat4 : List Char := ("ГРАЖДАНСКОЙОТВЕТСТВЕННОСТИ").data

def rep4 : List Char := ("ГРАЖДАНСКОЙ ОТВЕТСТВЕННОСТИ").data

def pat5 : List Char := ("ОТВЕТСТВЕННОСТИПЕРЕВОЗЧИКА").data

def rep5 : List Char := ("ОТВЕТСТВЕННОСТИ ПЕРЕВОЗЧИКА").data

def pat6 : List Char := ("СВЕДЕНИЯОДОГОВОРЕ").data

def rep6 : List Char := ("СВЕДЕНИЯ О ДОГОВОРЕ").data

def pat7 : List Char := ("ДОГОВОРЕОБЯЗАТЕЛЬНОГО").data

def rep7 : List Char := ("ДОГОВОРЕ ОБЯЗАТЕЛЬНОГО").data

def pat8 : List Char := ("Срокстрахования").data

def rep8 : List Char := ("Срок страхования").data

def pat9 : List Char := ("Датазаключения").data

def rep9 : List Char := ("Дата заключения").data

def pat10 : List Char := ("Страховщик:").data

def rep10 : List Char := ("Страховщик: ").data

def pat11 : List Char := ("Страхователь:").data

def rep11 : List Char := ("Страхователь: ").data

def pat12 : List Char := ("ИНН/КПП:").data

def rep12 : List Char := ("ИНН/КПП: ").data

/-- No case-insensitive overlap: no nonempty proper suffix of the first
    pattern starts a match of the second pattern, in either direction. -/
def noOvl (q pat : List Char) : Bool :=
  (List.range q.length).all (fun k =>
    decide (k = 0) ||
      !(ciPref (q.drop k) pat || ciPref pat (q.drop k)))

/-- All facts needed about the 58 plate-alphabet characters, checked by
    finite computation: every character stays a word character at each stage
    and the two routes to canonical Latin agree characterwise. -/
theorem plateAlphabet_facts :
    plateAlphabet.all (fun c =>
      isWordC (pyUpper c) &&
      isWordC (pyUpper (lat_to_cyr (if pyUpper c = 'P' then 'Р' else pyUpper c))) &&
      (pyUpper (cyr_to_lat (pyUpper (lat_to_cyr
          (if pyUpper c = 'P' then 'Р' else pyUpper c)))) =
        pyUpper (cyr_to_lat (pyUpper c)))) = true := by decide

/-- Helper: a filter that keeps every element is the identity. -/
theorem filter_of_all (l : List Char) (f : Char → Bool)
    (h : ∀ c ∈ l, f c = true) : l.filter f = l :=
  List.filter_eq_self.mpr h

/-- Helper: on strings whose uppercased characters are all word characters,
    normalize_plate is the three-stage character map with no filtering. -/
theorem normalize_plate_eq (q : List Char)
    (hq : ∀ a ∈ q, isWordC (pyUpper a) = true) :
    normalize_plate q = ((q.map pyUpper).map cyr_to_lat).map pyUpper := by
  unfold normalize_plate to_lat_full
  rw [filter_of_all _ _ (by
    intro a ha
    obtain ⟨c, hc, rfl⟩ := List.mem_map.mp ha
    exact hq c hc)]

/-- Helper: elementwise agreement of the two map towers used by C3. -/
theorem plate_tower_eq (l : List Char)
    (h : ∀ c ∈ l,
      pyUpper (cyr_to_lat (pyUpper (lat_to_cyr
        (if pyUpper c = 'P' then 'Р' else pyUpper c)))) =
      pyUpper (cyr_to_lat (pyUpper c))) :
    ((((((l.map pyUpper).map (fun c => if c = 'P' then 'Р' else c)).map
        lat_to_cyr).map pyUpper).map cyr_to_lat).map pyUpper) =
      ((l.map pyUpper).map cyr_to_lat).map pyUpper := by
  induction l with
  | nil => rfl
  | cons c cs ih =>
    simp only [List.map_cons]
    rw [h c (List.mem_cons_self c cs),
        ih (fun d hd => h d (List.mem_cons_of_mem c hd))]

/-- Claim C3: for every string composed only of the 12-letter plate alphabet
    (shared Cyrillic/Latin look-alike glyphs, either case, plus digits),
    converting to canonical Cyrillic with to_cyr_full and then to canonical
    Latin with normalize_plate gives the same result as converting to
    canonical Latin directly. -/
theorem c3_plate_roundtrip (p : List Char) (hp : ∀ c ∈ p, c ∈ plateAlphabet) :
    normalize_plate (to_cyr_full p) = normalize_plate p := by
  have hfacts := List.all_eq_true.mp plateAlphabet_facts
  have h1 : ∀ c ∈ p, isWordC (pyUpper c) = true := by
    intro c hc
    have := hfacts c (hp c hc)
    simp only [Bool.and_eq_true] at this
    exact this.1.1
  have h2 : ∀ c ∈ p,
      isWordC (pyUpper (lat_to_cyr (if pyUpper c = 'P' then 'Р' else pyUpper c))) = true := by
    intro c hc
    have := hfacts c (hp c hc)
    simp only [Bool.and_eq_true] at this
    exact this.1.2
  have h3 : ∀ c ∈ p,
      pyUpper (cyr_to_lat (pyUpper (lat_to_cyr
        (if pyUpper c = 'P' then 'Р' else pyUpper c)))) =
      pyUpper (cyr_to_lat (pyUpper c)) := by
    intro c hc
    have := hfacts c (hp c hc)
    simp only [Bool.and_eq_true] at this
    exact of_decide_eq_true this.2
  by_cases hpe : p = []
  · subst hpe; rfl
  · have hmapne : p.map pyUpper ≠ [] := by
      intro h
      exact hpe (List.map_eq_nil_iff.mp h)
    have hfilter1 : (p.map pyUpper).filter isWordC = p.map pyUpper :=
      filter_of_all _ _ (by
        intro a ha
        obtain ⟨c, hc, rfl⟩ := List.mem_map.mp ha
        exact h1 c hc)
    have hcyr : to_cyr_full p =
        ((p.map pyUpper).map (fun c => if c = 'P' then 'Р' else c)).map lat_to_cyr := by
      unfold to_cyr_full
      rw [if_neg hpe, hfilter1, if_neg hmapne]
    rw [hcyr, normalize_plate_eq _ (by
      intro a ha
      obtain ⟨b, hb, rfl⟩ := List.mem_map.mp ha
      obtain ⟨d, hd, rfl⟩ := List.mem_map.mp hb
      obtain ⟨c, hc, rfl⟩ := List.mem_map.mp hd
      exact h2 c hc), normalize_plate_eq p h1]
    exact plate_tower_eq p h3

/-- Witness for C3 at a concrete plate over the alphabet. -/
theorem c3_plate_roundtrip_witness :
    (∀ c ∈ ("A225PH797").data, c ∈ plateAlphabet) ∧
    normalize_plate (to_cyr_full ("A225PH797").data) =
      normalize_plate ("A225PH797").data :=
  ⟨by decide, c3_plate_roundtrip ("A225PH797").data (by decide)⟩

/-- Helper: the closing-scan loop never moves backwards. -/
theorem scanSegEnd_ge (pages : List (List Char)) :
    ∀ fuel i, i ≤ scanSegEnd pages fuel i := by
  intro fuel
  induction fuel with
  | zero => intro i; exact Nat.le_refl i
  | succ n ih =>
    intro i
    unfold scanSegEnd
    by_cases h : i < pages.length
    · rw [dif_pos h]
      by_cases hb : isSegBoundary (pages.get ⟨i, h⟩)
      · rw [if_pos hb]
      · rw [if_neg hb]
        exact Nat.le_trans (Nat.le_succ i) (ih (i + 1))
    · rw [dif_neg h]

/-- Helper: every segment produced from page index i starts at or after i. -/
theorem detectFrom_start_ge (pages : List (List Char)) :
    ∀ fuel i, ∀ seg ∈ detectFrom pages fuel i, i ≤ seg.1 := by
  intro fuel
  induction fuel with
  | zero => intro i seg hseg; simp [detectFrom] at hseg
  | succ n ih =>
    intro i seg hseg
    unfold detectFrom at hseg
    by_cases h : i < pages.length
    · rw [dif_pos h] at hseg
      by_cases hp : hasPolisStart (pages.get ⟨i, h⟩)
      · rw [if_pos hp] at hseg
        rcases List.mem_cons.mp hseg with hh | ht
        · rw [hh]
        · exact Nat.le_trans
            (Nat.le_trans (Nat.le_succ i) (scanSegEnd_ge pages pages.length (i + 1)))
            (ih _ seg ht)
      · rw [if_neg hp] at hseg
        by_cases hs : hasSvedStart (pages.get ⟨i, h⟩)
        · rw [if_pos hs] at hseg
          rcases List.mem_cons.mp hseg with hh | ht
          · rw [hh]
          · exact Nat.le_trans
              (Nat.le_trans (Nat.le_succ i) (scanSegEnd_ge pages pages.length (i + 1)))
              (ih _ seg ht)
        · rw [if_neg hs] at hseg
          exact Nat.le_trans (Nat.le_succ i) (ih _ seg hseg)
    · rw [dif_neg h] at hseg
      simp at hseg

/-- Helper: segments are well formed and chained in page order. -/
theorem detectFrom_ordered (pages : List (List Char)) :
    ∀ fuel i,
      (∀ seg ∈ detectFrom pages fuel i, seg.1 < seg.2.1) ∧
      List.Chain' (fun a b : Nat × Nat × SegKind => a.2.1 ≤ b.1)
        (detectFrom pages fuel i) := by
  intro fuel
  induction fuel with
  | zero =>
    intro i
    refine ⟨?_, ?_⟩
    · intro seg hseg; simp [detectFrom] at hseg
    · simp [detectFrom]
  | succ n ih =>
    intro i
    unfold detectFrom
    by_cases h : i < pages.length
    · rw [dif_pos h]
      by_cases hp : hasPolisStart (pages.get ⟨i, h⟩)
      · rw [if_pos hp]
        constructor
        · intro seg hseg
          rcases List.mem_cons.mp hseg with hh | ht
          · rw [hh]
            exact Nat.lt_of_lt_of_le (Nat.lt_succ_self i)
              (scanSegEnd_ge pages pages.length (i + 1))
          · exact (ih _).1 seg ht
        · rw [List.chain'_cons']
          refine ⟨?_, (ih _).2⟩
          intro b hb
          exact detectFrom_start_ge pages n _ b (List.mem_of_mem_head? hb)
      · rw [if_neg hp]
        by_cases hs : hasSvedStart (pages.get ⟨i, h⟩)
        · rw [if_pos hs]
          constructor
          · intro seg hseg
            rcases List.mem_cons.mp hseg with hh | ht
            · rw [hh]
              exact Nat.lt_of_lt_of_le (Nat.lt_succ_self i)
                (scanSegEnd_ge pages pages.length (i + 1))
            · exact (ih _).1 seg ht
          · rw [List.chain'_cons']
            refine ⟨?_, (ih _).2⟩
            intro b hb
            exact detectFrom_start_ge pages n _ b (List.mem_of_mem_head? hb)
        · rw [if_neg hs]
          exact ih _
    · rw [dif_neg h]
      constructor
      · intro seg hseg; simp at hseg
      · simp

/-- Claim C4: segments produced by the segment detector are well formed
    (start before end) and pairwise non-overlapping in page order, and the
    8-page example with the policy heading on page 0 and disclosure headings
    on pages 2 and 5 yields exactly the three expected segments. -/
theorem c4_segments_ordered :
    (∀ pages : List (List Char),
      (∀ seg ∈ detect_segments pages, seg.1 < seg.2.1) ∧
      List.Chain' (fun a b : Nat × Nat × SegKind => a.2.1 ≤ b.1)
        (detect_segments pages)) ∧
    detect_segments c4pages =
      [(0, 2, SegKind.POLIS), (2, 5, SegKind.SVEDENIYA), (5, 8, SegKind.SVEDENIYA)] := by
  constructor
  · intro pages
    exact detectFrom_ordered pages pages.length 0
  · decide

set_option maxRecDepth 100000 in
/-- Claim C5 counterexample: a document whose Policy segment is found (the
    detector yields it) but whose policy text has no contract number
    returns the empty result: the required pydantic field aborts the parse,
    so no contract is returned, contradicting the claim for the
    contract-number field. -/
theorem c5_counterexample :
    detect_segments ([pageP].map normalize_page_text) =
      [(0, 1, SegKind.POLIS)] ∧
    parse_with_segments none (.ok [pageP]) = (none, ([], [])) := by decide

set_option maxRecDepth 100000 in
/-- Claim C8: evaluation of the code at the failing input of
    test_parser_plate.py: a disclosure text whose plate is written with
    Latin glyphs (A, P, H are the ASCII letters) produces no vehicle record
    at all, because both plate shapes only admit the Cyrillic letter class,
    while the test expects the canonical Latin plate A225PH797. -/
theorem c8_latin_plate_no_record :
    parse_svedeniya (("\nТС:\nГос. номер: A 225  PH  797\n").data) = none ∧
    parse_svedeniya (("\nТС:\nГос. номер: А 225  РН  797\n").data) =
      some { plate_cyr := ("А225РН797").data
             plate_lat := ("A225PH797").data
             contract_date := none } := by decide

set_option maxRecDepth 100000 in
/-- Claim C6 counterexample: a Policy segment text with two tax-id-shaped
    tokens and no role or ИНН labels anywhere leaves both tax ids None; no
    positional first-to-insurer second-to-insured fallback exists in the
    extractor. -/
theorem c6_counterexample :
    (parse_polis_header (("1234567890 0987654321").data)).insurer_inn = none ∧
    (parse_polis_header (("1234567890 0987654321").data)).insured_inn = none := by
  decide

set_option maxRecDepth 100000 in
/-- Claim C9 counterexample: the parser attribute
    contract_date_from_svedeniya persists across calls: parsing document B
    (a policy page with no date of its own) directly differs from parsing
    it after document A (whose disclosure page stated a conclusion date),
    because the stale date leaks into the second contract. -/
theorem c9_counterexample :
    (parse_with_segments
        ((parse_with_segments none (.ok [pagePolisRosx, pageSvedDate])).1)
        (.ok [pagePolisRosx])).2 ≠
      (parse_with_segments none (.ok [pagePolisRosx])).2 := by decide

/-- Claim C10: the public parse is total: an upstream extraction failure is
    caught and yields the empty result, and any internal error of the parse
    body (in this code the pydantic validation failure) is caught by the
    same except-clause and yields the empty result, indistinguishable from
    a segmentation failure. -/
theorem c10_total_interface :
    (∀ (st : Option (List Char)) (e : List Char),
      parse_with_segments st (.error e) = (st, ([], []))) ∧
    (∀ (st : Option (List Char)) (pages : List (List Char)),
      isRaised (parse_attempt st pages).2 = true →
      (parse_with_segments st (.ok pages)).2 = ([], [])) := by
  refine ⟨fun st e => rfl, ?_⟩
  intro st pages he
  unfold parse_with_segments
  rcases hpa : parse_attempt st pages with ⟨st2, r⟩
  rw [hpa] at he
  cases r with
  | ok v => exact absurd he (by simp [isRaised])
  | error e2 => simp only [hpa]

set_option maxRecDepth 100000 in
/-- Witness for C10 at concrete inputs: an extraction error, and a document
    whose contract construction raises. -/
theorem c10_total_interface_witness :
    parse_with_segments none (.error (("PDFReadError").data)) = (none, ([], [])) ∧
    (parse_with_segments none (.ok [pageP])).2 = ([], []) :=
  ⟨c10_total_interface.1 none (("PDFReadError").data),
   c10_total_interface.2 none [pageP] (by decide)⟩

/-- Helper: with no policy heading on any page, every detected segment is a
    disclosure segment. -/
theorem detectFrom_kind_sved (pages : List (List Char))
    (hnp : ∀ (i : Nat) (h : i < pages.length),
      hasPolisStart (pages.get ⟨i, h⟩) = false) :
    ∀ fuel i, ∀ seg ∈ detectFrom pages fuel i, seg.2.2 = SegKind.SVEDENIYA := by
  intro fuel
  induction fuel with
  | zero => intro i seg hseg; simp [detectFrom] at hseg
  | succ n ih =>
    intro i seg hseg
    unfold detectFrom at hseg
    by_cases h : i < pages.length
    · rw [dif_pos h] at hseg
      rw [if_neg (by rw [hnp i h]; exact Bool.false_ne_true)] at hseg
      by_cases hs : hasSvedStart (pages.get ⟨i, h⟩)
      · rw [if_pos hs] at hseg
        rcases List.mem_cons.mp hseg with hh | ht
        · rw [hh]
        · exact ih _ seg ht
      · rw [if_neg hs] at hseg
        exact ih _ seg hseg
    · rw [dif_neg h] at hseg
      simp at hseg

/-- Unfolding equation of the public parse on a successful extraction. -/
theorem parse_with_segments_ok (st : Option (List Char))
    (pages : List (List Char)) :
    parse_with_segments st (.ok pages) =
      (match parse_attempt st pages with
       | (st2, .ok r) => (st2, r)
       | (st2, .error _) => (st2, ([], []))) := rfl

/-- Claim C1: for every page sequence in which no (normalised) page matches
    the policy heading, the parse returns the empty result — no contract
    and no segments.  On this path the empty result is an ordinary return
    reached before contract construction, so no exception arises; the
    try-except totality is Claim C10. -/
theorem c1_no_policy_empty (st : Option (List Char)) (pages : List (List Char))
    (h : ∀ p ∈ pages, hasPolisStart (normalize_page_text p) = false) :
    (parse_with_segments st (.ok pages)).2 = ([], []) := by
  have hkind : ∀ seg ∈ detect_segments (pages.map normalize_page_text),
      seg.2.2 = SegKind.SVEDENIYA := by
    apply detectFrom_kind_sved
    intro i hi
    obtain ⟨p, hp, heq⟩ :=
      List.mem_map.mp (List.get_mem (pages.map normalize_page_text) i hi)
    rw [← heq]
    exact h p hp
  have hfilter : (detect_segments (pages.map normalize_page_text)).filter
      (fun s => s.2.2 = SegKind.POLIS) = [] := by
    rw [List.filter_eq_nil_iff]
    intro seg hseg
    rw [hkind seg hseg]
    simp
  have hpa : parse_attempt st pages = (st, Except.ok ([], [])) := by
    unfold parse_attempt
    by_cases hseg : detect_segments (pages.map normalize_page_text) = []
    · rw [if_pos hseg]
    · rw [if_neg hseg, hfilter]
      rfl
  rw [parse_with_segments_ok, hpa]

set_option maxRecDepth 100000 in
/-- Witness for C1 at a concrete disclosure-only document. -/
theorem c1_no_policy_empty_witness :
    (∀ p ∈ [pageS], hasPolisStart (normalize_page_text p) = false) ∧
    (parse_with_segments none (.ok [pageS])).2 = ([], []) :=
  ⟨by decide, c1_no_policy_empty none [pageS] (by decide)⟩

/-- Helper: the effective-date selection of parse_attempt simplifies to a
    plain null-test on the header date. -/
theorem effDate_eq (cd st2 : Option (List Char)) :
    (if cd = none && st2.isSome then st2 else cd) =
      if cd = none then st2 else cd := by
  cases cd <;> cases st2 <;> simp

/-- Claim C5 amended: when the Policy segment is found and the policy text
    yields a contract number, a contract is returned no matter which other
    header fields missed, and every optional attribute of the returned
    contract equals the header extractor's (possibly None) value for it —
    except the contract date, which falls back to the stored
    disclosure-segment date when the header date is None.  Only a
    contract-number miss aborts (see the counterexample). -/
theorem c5_amended_contract_returned (st : Option (List Char))
    (pages : List (List Char)) (ps pe : Nat) (k : SegKind) (num : List Char)
    (hd : HeaderData)
    (hpol : ((detect_segments (pages.map normalize_page_text)).filter
      (fun s => s.2.2 = SegKind.POLIS)).getLast? = some (ps, pe, k))
    (hhd : parse_polis_header
      (segText (pages.map normalize_page_text) ps pe) = hd)
    (hnum : hd.contract_number = some num) :
    ∃ st2 segs c, parse_with_segments st (.ok pages) = (st2, ([c], segs)) ∧
      c.contract_number = num ∧
      c.period_from = hd.period_from ∧
      c.period_to = hd.period_to ∧
      c.insurer = hd.insurer ∧
      c.insurer_inn = hd.insurer_inn ∧
      c.insured = hd.insured ∧
      c.insured_inn = hd.insured_inn ∧
      c.bonus = hd.bonus ∧
      c.contract_date =
        (if hd.contract_date = none then st2 else hd.contract_date) := by
  subst hhd
  have hne : detect_segments (pages.map normalize_page_text) ≠ [] := by
    intro h0
    rw [h0] at hpol
    simp at hpol
  rw [parse_with_segments_ok]
  unfold parse_attempt
  rw [if_neg hne, hpol]
  simp only [mkOSGOPContract, hnum]
  exact ⟨_, _, _, rfl, rfl, rfl, rfl, rfl, rfl, rfl, rfl, rfl, effDate_eq _ _⟩

set_option maxRecDepth 100000 in
/-- Witness for C5 amended at a concrete policy-only document whose only
    extracted header field is the contract number: every optional attribute
    of the returned contract is None. -/
theorem c5_amended_contract_returned_witness :
    ∃ st2 segs c,
      parse_with_segments none (.ok [pagePolisRosx]) = (st2, ([c], segs)) ∧
      c.contract_number = ("ROSX12345678").data ∧
      c.period_from = none ∧ c.period_to = none ∧ c.insurer = none ∧
      c.insurer_inn = none ∧ c.insured = none ∧ c.insured_inn = none ∧
      c.bonus = none ∧ c.contract_date = none := by
  obtain ⟨st2, segs, c, h1, h2, h3, h4, h5, h6, h7, h8, h9, h10⟩ :=
    c5_amended_contract_returned none [pagePolisRosx] 0 1 SegKind.POLIS
      (("ROSX12345678").data)
      (parse_polis_header (segText ([pagePolisRosx].map normalize_page_text) 0 1))
      (by decide) rfl (by decide)
  have hst2 : st2 = none := by
    have h := congrArg Prod.fst h1
    have h0 : (parse_with_segments none (.ok [pagePolisRosx])).fst = none := by
      decide
    rw [h0] at h
    exact h.symm
  refine ⟨st2, segs, c, h1, h2, ?_, ?_, ?_, ?_, ?_, ?_, ?_, ?_⟩
  · rw [h3]; decide
  · rw [h4]; decide
  · rw [h5]; decide
  · rw [h6]; decide
  · rw [h7]; decide
  · rw [h8]; decide
  · rw [h9]; decide
  · rw [h10, hst2]; decide

/-- Helper: case-insensitive containment is containment of a
    case-insensitive prefix at some suffix position. -/
theorem containsCI_iff (pat s : List Char) :
    containsCI pat s = true ↔ ∃ t, t <:+ s ∧ ciPref pat t = true := by
  induction s with
  | nil => simp [containsCI, List.suffix_nil]
  | cons c cs ih =>
    simp only [containsCI, Bool.or_eq_true, ih]
    constructor
    · rintro (h | ⟨t, ht, hp⟩)
      · exact ⟨c :: cs, List.suffix_refl _, h⟩
      · exact ⟨t, ht.trans (List.suffix_cons c cs), hp⟩
    · rintro ⟨t, ht, hp⟩
      rcases List.suffix_cons_iff.mp ht with rfl | ht2
      · exact Or.inl hp
      · exact Or.inr ⟨t, ht2, hp⟩

/-- Helper: a case-insensitive prefix at a suffix position of a
    label-free string is impossible. -/
theorem ciPref_false_of_not_contains (pat t s : List Char) (hsuf : t <:+ s)
    (h : containsCI pat s = false) : ciPref pat t = false := by
  cases hp : ciPref pat t with
  | false => rfl
  | true =>
    have := (containsCI_iff pat s).mpr ⟨t, hsuf, hp⟩
    rw [h] at this
    exact absurd this (by simp)

/-- Helper: containment in a suffix gives containment in the whole. -/
theorem containsCI_false_of_suffix (pat t s : List Char) (hsuf : t <:+ s)
    (h : containsCI pat s = false) : containsCI pat t = false := by
  cases hc : containsCI pat t with
  | false => rfl
  | true =>
    obtain ⟨u, hu, hp⟩ := (containsCI_iff pat t).mp hc
    have := (containsCI_iff pat s).mpr ⟨u, hu.trans hsuf, hp⟩
    rw [h] at this
    exact absurd this (by simp)

/-- Helper: a search whose anchored matcher fails at every suffix fails. -/
theorem searchSuf_eq_none {α : Type} (f : List Char → Option α) (s : List Char)
    (h : ∀ t, t <:+ s → f t = none) : searchSuf f s = none := by
  induction s with
  | nil =>
    unfold searchSuf
    exact h [] (List.suffix_refl _)
  | cons c cs ih =>
    unfold searchSuf
    rw [h (c :: cs) (List.suffix_refl _)]
    exact ih (fun t ht => h t (ht.trans (List.suffix_cons c cs)))

/-- Helper: the previous-character-threading search analogue. -/
theorem searchSufP_eq_none {α : Type}
    (f : Option Char → List Char → Option α) (s : List Char)
    (h : ∀ prev t, t <:+ s → f prev t = none) :
    ∀ prev, searchSufP f prev s = none := by
  induction s with
  | nil =>
    intro prev
    unfold searchSufP
    exact h prev [] (List.suffix_refl _)
  | cons c cs ih =>
    intro prev
    unfold searchSufP
    rw [h prev (c :: cs) (List.suffix_refl _)]
    exact ih (fun pr t ht => h pr t (ht.trans (List.suffix_cons c cs))) (some c)

/-- Claim C6 amended: with no ИНН, Страховщик or Страхователь label
    anywhere in the Policy segment text, both tax ids stay None: every rule
    of both tax-id chains is anchored on one of these labels, and no purely
    positional fallback exists. -/
theorem c6_no_positional_fallback (text : List Char)
    (hI : containsCI (("ИНН").data) text = false)
    (hV : containsCI (("Страховщик").data) text = false)
    (hT : containsCI (("Страхователь").data) text = false) :
    (parse_polis_header text).insurer_inn = none ∧
    (parse_polis_header text).insured_inn = none := by
  have hprimV : searchSuf (innPrimaryAt (("Страховщик").data)) text = none :=
    searchSuf_eq_none _ _ (fun t ht => by
      simp [innPrimaryAt, ciAfter, ciPref_false_of_not_contains _ t text ht hV])
  have hprimT : searchSuf (innPrimaryAt (("Страхователь").data)) text = none :=
    searchSuf_eq_none _ _ (fun t ht => by
      simp [innPrimaryAt, ciAfter, ciPref_false_of_not_contains _ t text ht hT])
  have hsecV : searchSuf (sectionAt (("Страховщик").data) insurerStops) text = none :=
    searchSuf_eq_none _ _ (fun t ht => by
      simp [sectionAt, ciPref_false_of_not_contains _ t text ht hV])
  have hsecT : searchSuf (sectionAt (("Страхователь").data) insuredStops) text = none :=
    searchSuf_eq_none _ _ (fun t ht => by
      simp [sectionAt, ciPref_false_of_not_contains _ t text ht hT])
  have hcolon : searchSuf innColonAt text = none :=
    searchSuf_eq_none _ _ (fun t ht => by
      simp [innColonAt, ciAfter, ciPref_false_of_not_contains _ t text ht hI])
  have hloose : searchSuf innLooseAt text = none :=
    searchSuf_eq_none _ _ (fun t ht => by
      simp [innLooseAt, ciAfter, ciPref_false_of_not_contains _ t text ht hI])
  have hbdV : searchSufP (bdTenThenLabelAt (("Страховщик").data)) none text = none := by
    apply searchSufP_eq_none
    intro prev t ht
    unfold bdTenThenLabelAt
    cases hbd : bdTenAt prev t with
    | none => rfl
    | some r =>
      rw [containsCI_false_of_suffix _ (t.drop 10) text
        ((List.drop_suffix 10 t).trans ht) hV]
      rfl
  have hbdT : searchSufP (bdTenThenLabelAt (("Страхователь").data)) none text = none := by
    apply searchSufP_eq_none
    intro prev t ht
    unfold bdTenThenLabelAt
    cases hbd : bdTenAt prev t with
    | none => rfl
    | some r =>
      rw [containsCI_false_of_suffix _ (t.drop 10) text
        ((List.drop_suffix 10 t).trans ht) hT]
      rfl
  have htenV : searchSuf (labelThenTenAt (("Страховщик").data)) text = none :=
    searchSuf_eq_none _ _ (fun t ht => by
      simp [labelThenTenAt, ciAfter, ciPref_false_of_not_contains _ t text ht hV])
  have htenT : searchSuf (labelThenTenAt (("Страхователь").data)) text = none :=
    searchSuf_eq_none _ _ (fun t ht => by
      simp [labelThenTenAt, ciAfter, ciPref_false_of_not_contains _ t text ht hT])
  have hcolT : searchSuf (labelThenInnColonAt (("Страхователь").data)) text = none :=
    searchSuf_eq_none _ _ (fun t ht => by
      simp [labelThenInnColonAt, ciAfter, ciPref_false_of_not_contains _ t text ht hT])
  constructor
  · simp only [parse_polis_header, hprimV, hsecV, insurerInnAlt, hcolon, hloose,
      hbdV, htenV]
  · simp only [parse_polis_header, hprimT, hsecT, insuredInnAlt, hcolT, htenT,
      hbdT]

/-- Witness for C6 amended at the two-token label-free text. -/
theorem c6_no_positional_fallback_witness :
    (parse_polis_header (("1234567890 0987654321").data)).insurer_inn = none ∧
    (parse_polis_header (("1234567890 0987654321").data)).insured_inn = none :=
  c6_no_positional_fallback (("1234567890 0987654321").data)
    (by decide) (by decide) (by decide)

set_option maxRecDepth 100000 in
/-- Claim C7 counterexample: a document whose only page carries the policy
    heading, a contract number and a plate-shaped substring: the detector
    yields the single combined Policy segment, but no VehicleRecord is
    produced from the combined text — the returned contract has an empty
    vehicle list. -/
theorem c7_counterexample :
    (parse_with_segments none (.ok [pagePolisPlate])).2.2 = [(0, 1)] ∧
    ((parse_with_segments none (.ok [pagePolisPlate])).2.1.map
      (fun c => c.vehicles)) = [[]] := by decide

/-- Helper: a successfully constructed contract carries exactly the
    vehicle list it was built from. -/
theorem mkOSGOPContract_vehicles (hd : HeaderData) (e : Option (List Char))
    (v : List VehicleInfo) (c : OSGOPContract)
    (h : mkOSGOPContract hd e v = some c) : c.vehicles = v := by
  unfold mkOSGOPContract at h
  cases hn : hd.contract_number with
  | none =>
    rw [hn] at h
    exact absurd h (by simp)
  | some num =>
    rw [hn] at h
    simp only [Option.some.injEq] at h
    rw [← h]

set_option maxRecDepth 100000 in
/-- Claim C7 amended: when the detector finds no disclosure segment, the
    combined Policy segment is still produced (concretely, the plate-bearing
    one-page document yields the single segment spanning to document end),
    but plates are never extracted from it: every contract returned for a
    document with no disclosure segments has an empty vehicle list. -/
theorem c7_no_disclosure_no_vehicles :
    detect_segments ([pagePolisPlate].map normalize_page_text) =
      [(0, 1, SegKind.POLIS)] ∧
    ∀ (st : Option (List Char)) (pages : List (List Char)),
      (detect_segments (pages.map normalize_page_text)).filter
        (fun s => s.2.2 = SegKind.SVEDENIYA) = [] →
      ∀ c ∈ (parse_with_segments st (.ok pages)).2.1, c.vehicles = [] := by
  refine ⟨by decide, ?_⟩
  intro st pages hsved c hc
  rw [parse_with_segments_ok] at hc
  unfold parse_attempt at hc
  by_cases hseg : detect_segments (pages.map normalize_page_text) = []
  · rw [if_pos hseg] at hc
    simp at hc
  · rw [if_neg hseg, hsved] at hc
    rcases hlast : ((detect_segments (pages.map normalize_page_text)).filter
        (fun s => s.2.2 = SegKind.POLIS)).getLast? with _ | ⟨ps, pe, k⟩
    · rw [hlast] at hc
      simp at hc
    · rw [hlast] at hc
      simp only [List.map_nil, List.filterMap_nil] at hc
      rcases hmk : mkOSGOPContract
          (parse_polis_header (segText (pages.map normalize_page_text) ps pe))
          (if (parse_polis_header (segText (pages.map normalize_page_text) ps pe)).contract_date
                = none && st.isSome then st
           else (parse_polis_header (segText (pages.map normalize_page_text) ps pe)).contract_date)
          [] with _ | con
      · rw [hmk] at hc
        simp at hc
      · rw [hmk] at hc
        simp only [List.mem_singleton] at hc
        rw [hc]
        exact mkOSGOPContract_vehicles _ _ _ _ hmk

/-- Claim C9 amended: parsing is a pure function of the input pages and the
    parser attribute contract_date_from_svedeniya (so two calls with equal
    stored state agree), and the stored state influences at most the
    returned contract_date field: segments, vehicle lists and every other
    field are identical across any two stored states.  The counterexample
    shows the contract_date itself does leak across calls. -/
theorem c9_state_affects_only_date (st1 st2 : Option (List Char))
    (pages : List (List Char)) :
    (parse_with_segments st1 (.ok pages)).2.2 =
      (parse_with_segments st2 (.ok pages)).2.2 ∧
    (parse_with_segments st1 (.ok pages)).2.1.map stripDate =
      (parse_with_segments st2 (.ok pages)).2.1.map stripDate := by
  rw [parse_with_segments_ok, parse_with_segments_ok]
  unfold parse_attempt
  by_cases hseg : detect_segments (pages.map normalize_page_text) = []
  · simp only [if_pos hseg]
    exact ⟨trivial, trivial⟩
  · simp only [if_neg hseg]
    rcases hlast : ((detect_segments (pages.map normalize_page_text)).filter
        (fun s => s.2.2 = SegKind.POLIS)).getLast? with _ | ⟨ps, pe, k⟩
    · simp only [hlast]
      exact ⟨trivial, trivial⟩
    · simp only [hlast]
      rcases hn : (parse_polis_header
          (segText (pages.map normalize_page_text) ps pe)).contract_number
          with _ | num
      · simp only [mkOSGOPContract, hn]
        exact ⟨trivial, trivial⟩
      · simp only [mkOSGOPContract, hn]
        exact ⟨by simp, by simp [stripDate]⟩

set_option maxRecDepth 100000 in
/-- Witness for C7 amended at the concrete policy-only document. -/
theorem c7_no_disclosure_no_vehicles_witness :
    (parse_with_segments none (.ok [pagePolisRosx])).2.1.all
      (fun c => c.vehicles.isEmpty) = true := by
  have h := c7_no_disclosure_no_vehicles.2 none [pagePolisRosx] (by decide)
  rw [List.all_eq_true]
  intro c hc
  simp [h c hc]



/- ============ idempotence: basic lemmas ============ -/

theorem pyUpper_ws_fixed (c : Char) (h : isPySpace c = true) : pyUpper c = c := by
  have hc : c.toNat = 32 ∨ c.toNat = 9 ∨ c.toNat = 10 ∨ c.toNat = 13 ∨
      c.toNat = 11 ∨ c.toNat = 12 ∨ c.toNat = 160 := by
    simpa [isPySpace, cp] using h
  have h1 : isLatLower c = false := by
    simp only [isLatLower, cp, decide_eq_false_iff_not]
    omega
  have h2 : ¬(1072 ≤ cp c ∧ cp c ≤ 1103) := by
    simp only [cp]; omega
  have h3 : ¬(cp c = 1105) := by
    simp only [cp]; omega
  simp [pyUpper, h1, h2, h3]

theorem no_ws_of_ciEq_pat (pat : List Char) (hp : patNoWS pat = true)
    (c p : Char) (hmem : p ∈ pat) (hci : pyUpper c = pyUpper p) :
    isPySpace c = false := by
  cases hw : isPySpace c with
  | false => rfl
  | true =>
    exfalso
    have h1 : pyUpper c = c := pyUpper_ws_fixed c hw
    have h2 : (!isPySpace (pyUpper p)) = true := by
      have := List.all_eq_true.mp hp p hmem
      simpa using this
    rw [← hci, h1, hw] at h2
    simp at h2

theorem ciEqS_mem (w pat : List Char) (h : ciEqS w pat) (c : Char)
    (hc : c ∈ w) : ∃ p ∈ pat, pyUpper c = pyUpper p := by
  have hm : pyUpper c ∈ upperStr pat := by
    rw [← h]
    exact List.mem_map_of_mem pyUpper hc
  obtain ⟨p, hp, he⟩ := List.mem_map.mp hm
  exact ⟨p, hp, he.symm⟩

/-- A string ci-equal to a patNoWS pattern has no whitespace characters. -/
theorem noWS_of_ciEqS (w pat : List Char) (hp : patNoWS pat = true)
    (h : ciEqS w pat) : ∀ c ∈ w, isPySpace c = false := by
  intro c hc
  obtain ⟨p, hpm, he⟩ := ciEqS_mem w pat h c hc
  exact no_ws_of_ciEq_pat pat hp c p hpm he

/-- ciPref agrees with ci-equality of the taken prefix. -/
theorem ciPref_iff_take (pat s : List Char) :
    ciPref pat s = true ↔
      pat.length ≤ s.length ∧ ciEqS (s.take pat.length) pat := by
  induction pat generalizing s with
  | nil => simp [ciPref, ciEqS, upperStr]
  | cons p ps ih =>
    cases s with
    | nil =>
      simp [ciPref, ciEqS, upperStr]
    | cons c cs =>
      simp only [ciPref, Bool.and_eq_true, ih cs, List.length_cons, List.take,
        ciEqS, upperStr, List.map_cons, List.cons.injEq]
      constructor
      · rintro ⟨h1, h2, h3⟩
        refine ⟨Nat.succ_le_succ h2, ?_, h3⟩
        have hq : pyUpper p = pyUpper c := by simpa [ciEqC] using h1
        exact hq.symm
      · rintro ⟨h1, h2, h3⟩
        refine ⟨?_, Nat.le_of_succ_le_succ h1, h3⟩
        simpa [ciEqC] using h2.symm

theorem OccCI_of_ciPref (pat t s : List Char) (hsuf : t <:+ s)
    (h : ciPref pat t = true) : OccCI pat s := by
  obtain ⟨hle, he⟩ := (ciPref_iff_take pat t).mp h
  exact ⟨t.take pat.length,
    (( List.take_prefix pat.length t).isInfix).trans hsuf.isInfix, he⟩

theorem ciPref_of_OccCI (pat s : List Char) (h : OccCI pat s) :
    ∃ t, t <:+ s ∧ ciPref pat t = true := by
  obtain ⟨w, hinf, he⟩ := h
  obtain ⟨u, v, huv⟩ := hinf
  have hlen : w.length = pat.length := by
    have h2 := congrArg List.length he
    simpa [ciEqS, upperStr] using h2
  refine ⟨w ++ v, ⟨u, by rw [← huv, List.append_assoc]⟩, ?_⟩
  rw [ciPref_iff_take]
  constructor
  · rw [List.length_append, ← hlen]
    exact Nat.le_add_right _ _
  · rw [← hlen, List.take_left]
    exact he

/-- The Prop-level occurrence notion agrees with the executable scan. -/
theorem OccCI_iff_containsCI (pat s : List Char) :
    OccCI pat s ↔ containsCI pat s = true := by
  rw [containsCI_iff]
  constructor
  · exact ciPref_of_OccCI pat s
  · rintro ⟨t, ht, hp⟩
    exact OccCI_of_ciPref pat t s ht hp

/-- Occurrences pass to any superstring. -/
theorem OccCI_mono {pat s t : List Char} (hst : s <:+: t) (h : OccCI pat s) :
    OccCI pat t := by
  obtain ⟨w, hw, he⟩ := h
  exact ⟨w, hw.trans hst, he⟩

/- ============ space-insertion relation ============ -/

theorem insChk_sound : ∀ x y, insChk x y = true → InsSp x y
  | [], [], _ => InsSp.nil
  | [], y :: ys, h => by
    simp only [insChk, Bool.and_eq_true, decide_eq_true_eq] at h
    obtain ⟨rfl, h2⟩ := h
    exact InsSp.add (insChk_sound [] ys h2)
  | x :: xs, y :: ys, h => by
    simp only [insChk, Bool.or_eq_true, Bool.and_eq_true, decide_eq_true_eq] at h
    rcases h with ⟨rfl, h2⟩ | ⟨rfl, h2⟩
    · exact InsSp.keep x (insChk_sound xs ys h2)
    · exact InsSp.add (insChk_sound (x :: xs) ys h2)

theorem InsSp.refl : ∀ x : List Char, InsSp x x
  | [] => InsSp.nil
  | c :: cs => InsSp.keep c (InsSp.refl cs)

theorem InsSp_append_left (w : List Char) {x y : List Char} (h : InsSp x y) :
    InsSp (w ++ x) (w ++ y) := by
  induction w with
  | nil => exact h
  | cons c cs ih => exact InsSp.keep c ih

/-- Inversion: a non-space head of the inserted string is a kept head. -/
theorem InsSp_inv_head {x y' : List Char} {c : Char} (h : InsSp x (c :: y'))
    (hc : c ≠ ' ') : ∃ x', x = c :: x' ∧ InsSp x' y' := by
  cases h with
  | keep _ h2 => exact ⟨_, rfl, h2⟩
  | add h2 => exact absurd rfl hc

/-- A space-free string is only insertion-related to itself. -/
theorem InsSp_no_space_eq : ∀ {x y : List Char}, InsSp x y →
    (∀ c ∈ y, c ≠ ' ') → x = y := by
  intro x y h
  induction h with
  | nil => intro; rfl
  | keep c h2 ih =>
    intro hy
    have := ih (fun d hd => hy d (List.mem_cons_of_mem c hd))
    rw [this]
  | add h2 ih =>
    intro hy
    exact absurd rfl (hy ' ' (List.mem_cons_self _ _))

/-- Characters of the inserted string are original characters or spaces. -/
theorem InsSp_mem {x y : List Char} (h : InsSp x y) :
    ∀ c ∈ y, c ∈ x ∨ c = ' ' := by
  induction h with
  | nil => intro c hc; cases hc
  | keep d h2 ih =>
    intro c hc
    rcases List.mem_cons.mp hc with rfl | hc2
    · exact Or.inl (List.mem_cons_self _ _)
    · rcases ih c hc2 with h3 | h3
      · exact Or.inl (List.mem_cons_of_mem d h3)
      · exact Or.inr h3
  | add h2 ih =>
    intro c hc
    rcases List.mem_cons.mp hc with rfl | hc2
    · exact Or.inr rfl
    · exact ih c hc2

theorem InsSp_trans : ∀ {x y z : List Char}, InsSp x y → InsSp y z → InsSp x z := by
  intro x y z h1 h2
  induction h2 generalizing x with
  | nil => exact h1
  | keep c h3 ih =>
    cases h1 with
    | keep _ h4 => exact InsSp.keep c (ih h4)
    | add h4 => exact InsSp.add (ih h4)
  | add h3 ih => exact InsSp.add (ih h1)

/-- Aligned-prefix reflection: a ci-prefix made of non-space-like characters
    reads through insertions verbatim. -/
theorem InsSp_ciPref_refl (pat : List Char) (hp : patNoWS pat = true) :
    ∀ {u v : List Char}, InsSp u v → ciPref pat v = true →
      v.take pat.length = u.take pat.length ∧
      InsSp (u.drop pat.length) (v.drop pat.length) := by
  induction pat with
  | nil =>
    intro u v h _
    simpa using h
  | cons p ps ih =>
    intro u v h hpref
    cases v with
    | nil => simp [ciPref] at hpref
    | cons b v' =>
      simp only [ciPref, Bool.and_eq_true] at hpref
      obtain ⟨h1, h2⟩ := hpref
      have hb : pyUpper p = pyUpper b := by simpa [ciEqC] using h1
      have hbs : b ≠ ' ' := by
        intro hbeq
        have := no_ws_of_ciEq_pat (p :: ps) hp b p (List.mem_cons_self _ _) hb.symm
        rw [hbeq] at this
        simp [isPySpace, cp] at this
      obtain ⟨x', rfl, h3⟩ := InsSp_inv_head h hbs
      have hp2 : patNoWS ps = true := by
        simp only [patNoWS, List.all_cons, Bool.and_eq_true] at hp
        exact hp.2
      obtain ⟨ht, hd⟩ := ih hp2 h3 h2
      refine ⟨?_, ?_⟩
      · simp only [List.length_cons, List.take, List.cons.injEq]
        exact ⟨trivial, ht⟩
      · simpa using hd

theorem pyUpper_space : pyUpper ' ' = ' ' := by decide

theorem isPySpace_space : isPySpace ' ' = true := by decide

theorem ciEqC_space_false {p : Char} (hp : isPySpace (pyUpper p) = false) :
    ciEqC p ' ' = false := by
  cases h : ciEqC p ' ' with
  | false => rfl
  | true =>
    exfalso
    have h2 : pyUpper p = pyUpper ' ' := by simpa [ciEqC] using h
    rw [h2, pyUpper_space] at hp
    rw [isPySpace_space] at hp
    cases hp

theorem patNoWS_head {p : Char} {ps : List Char} (hp : patNoWS (p :: ps) = true) :
    isPySpace (pyUpper p) = false := by
  simp only [patNoWS, List.all_cons, Bool.and_eq_true, Bool.not_eq_true'] at hp
  exact hp.1

theorem ciPref_of_InsSp_refl {pat u v : List Char} (hp : patNoWS pat = true)
    (h : InsSp u v) (hpref : ciPref pat v = true) : ciPref pat u = true := by
  obtain ⟨hte, _⟩ := InsSp_ciPref_refl pat hp h hpref
  obtain ⟨hle, he⟩ := (ciPref_iff_take pat v).mp hpref
  rw [ciPref_iff_take]
  constructor
  · have h1 : (v.take pat.length).length = pat.length := by
      simp [List.length_take, Nat.min_eq_left hle]
    rw [hte] at h1
    simp only [List.length_take] at h1
    omega
  · rw [← hte]
    exact he

theorem containsCI_nil_pat (s : List Char) : containsCI [] s = true := by
  cases s with
  | nil => rfl
  | cons c cs => simp [containsCI, ciPref]

/-- Occurrence reflection through space insertion. -/
theorem InsSp_containsCI_refl {pat x y : List Char} (hp : patNoWS pat = true)
    (h : InsSp x y) (hc : containsCI pat y = true) : containsCI pat x = true := by
  induction h with
  | nil => exact hc
  | keep c h2 ih =>
    simp only [containsCI, Bool.or_eq_true] at hc ⊢
    rcases hc with h3 | h3
    · exact Or.inl (ciPref_of_InsSp_refl hp (InsSp.keep c h2) h3)
    · exact Or.inr (ih h3)
  | add h2 ih =>
    cases pat with
    | nil => exact containsCI_nil_pat _
    | cons p ps =>
      simp only [containsCI, Bool.or_eq_true] at hc
      rcases hc with h3 | h3
      · simp only [ciPref, ciEqC_space_false (patNoWS_head hp), Bool.false_and] at h3
        cases h3
      · exact ih h3

theorem ciPref_extend {q t : List Char} (u : List Char)
    (h : ciPref q t = true) : ciPref q (t ++ u) = true := by
  induction q generalizing t with
  | nil => simp [ciPref]
  | cons a as ih =>
    cases t with
    | nil => simp [ciPref] at h
    | cons b bs =>
      simp only [List.cons_append, ciPref, Bool.and_eq_true] at h ⊢
      exact ⟨h.1, ih h.2⟩

/-- Space-free suffix reflection through space insertion. -/
theorem InsSp_suffix_refl {x y w : List Char} (h : InsSp x y)
    (hw : ∀ c ∈ w, c ≠ ' ') (hs : w <:+ y) : w <:+ x := by
  induction h with
  | nil => simpa using hs
  | keep c h2 ih =>
    rcases List.suffix_cons_iff.mp hs with rfl | h3
    · have hy : ∀ d ∈ _, d ≠ ' ' := fun d hd => hw d (List.mem_cons_of_mem c hd)
      rw [InsSp_no_space_eq h2 hy]
    · exact (ih h3).trans (List.suffix_cons c _)
  | add h2 ih =>
    rcases List.suffix_cons_iff.mp hs with rfl | h3
    · exact absurd rfl (hw ' ' (List.mem_cons_self _ _))
    · exact ih h3

theorem InsSp_all_spaces {y : List Char} (h : InsSp [] y) : ∀ c ∈ y, c = ' ' := by
  intro c hc
  rcases InsSp_mem h c hc with h2 | h2
  · cases h2
  · exact h2

theorem InsSp_followsOK {x y : List Char} (h : InsSp x y) (hf : FollowsOK x) :
    FollowsOK y := by
  rcases hf with rfl | ⟨x', rfl⟩
  · cases y with
    | nil => exact Or.inl rfl
    | cons c y' =>
      have : c = ' ' := InsSp_all_spaces h c (List.mem_cons_self _ _)
      exact Or.inr ⟨y', by rw [this]⟩
  · cases h with
    | keep _ h2 => exact Or.inr ⟨_, rfl⟩
    | add h2 => exact Or.inr ⟨_, rfl⟩

theorem LabelP_suffix {pat s t : List Char} (h : LabelP pat s) (hst : t <:+ s) :
    LabelP pat t := fun r hr hp => h r (hr.trans hst) hp

/-- LabelP preservation through space insertion. -/
theorem InsSp_LabelP {pat x y : List Char} (hp : patNoWS pat = true)
    (h : InsSp x y) (hl : LabelP pat x) : LabelP pat y := by
  induction h with
  | nil => exact hl
  | keep c h2 ih =>
    intro t ht hpref
    rcases List.suffix_cons_iff.mp ht with rfl | h3
    · obtain ⟨hte, hdr⟩ := InsSp_ciPref_refl pat hp (InsSp.keep c h2) hpref
      have hx := hl _ (List.suffix_refl _) (ciPref_of_InsSp_refl hp (InsSp.keep c h2) hpref)
      refine ⟨by rw [hte, hx.1], InsSp_followsOK hdr hx.2⟩
    · have hx' : LabelP pat _ := LabelP_suffix hl (List.suffix_cons c _)
      exact ih hx' t h3 hpref
  | add h2 ih =>
    intro t ht hpref
    rcases List.suffix_cons_iff.mp ht with rfl | h3
    · cases pat with
      | nil => exact ⟨rfl, Or.inr ⟨_, rfl⟩⟩
      | cons p ps =>
        simp only [ciPref, ciEqC_space_false (patNoWS_head hp), Bool.false_and] at hpref
        cases hpref
    · exact ih hl t h3 hpref

/- ============ collapse equations ============ -/

theorem collapseWSF_irrel : ∀ n f1 f2 s, s.length ≤ n → s.length ≤ f1 →
    s.length ≤ f2 → collapseWSF f1 s = collapseWSF f2 s := by
  intro n
  induction n with
  | zero =>
    intro f1 f2 s hs _ _
    have : s = [] := List.length_eq_zero.mp (Nat.le_zero.mp hs)
    subst this
    cases f1 <;> cases f2 <;> rfl
  | succ n ih =>
    intro f1 f2 s hs h1 h2
    cases s with
    | nil => cases f1 <;> cases f2 <;> rfl
    | cons c cs =>
      cases f1 with
      | zero => simp at h1
      | succ g1 =>
        cases f2 with
        | zero => simp at h2
        | succ g2 =>
          simp only [collapseWSF]
          cases hc : isPySpace c with
          | true =>
            simp only [eq_self_iff_true, if_true]
            have hd := (List.dropWhile_sublist (l := cs) isPySpace).length_le
            simp only [List.length_cons] at hs h1 h2
            rw [ih g1 g2 (cs.dropWhile isPySpace) (by omega) (by omega) (by omega)]
          | false =>
            simp only [Bool.false_eq_true, if_false]
            simp only [List.length_cons] at hs h1 h2
            rw [ih g1 g2 cs (by omega) (by omega) (by omega)]

theorem collapseWS_cons_ws {c : Char} (cs : List Char) (hc : isPySpace c = true) :
    collapseWS (c :: cs) = ' ' :: collapseWS (cs.dropWhile isPySpace) := by
  unfold collapseWS
  simp only [List.length_cons, collapseWSF, hc, eq_self_iff_true, if_true]
  have hd := (List.dropWhile_sublist (l := cs) isPySpace).length_le
  rw [collapseWSF_irrel (cs.length + 1) cs.length ((cs.dropWhile isPySpace).length)
    (cs.dropWhile isPySpace) (by omega) (by omega) (by omega)]

theorem collapseWS_cons_nonws {c : Char} (cs : List Char)
    (hc : isPySpace c = false) : collapseWS (c :: cs) = c :: collapseWS cs := by
  unfold collapseWS
  simp only [List.length_cons, collapseWSF, hc, Bool.false_eq_true, if_false]

theorem containsCI_mono_suffix {q t s : List Char} (hst : t <:+ s)
    (h : containsCI q t = true) : containsCI q s = true := by
  rw [containsCI_iff] at h ⊢
  obtain ⟨r, hr, hp⟩ := h
  exact ⟨r, hr.trans hst, hp⟩

theorem containsCI_mono_infix {q t s : List Char} (hst : t <:+: s)
    (h : containsCI q t = true) : containsCI q s = true := by
  rw [← OccCI_iff_containsCI] at h ⊢
  exact OccCI_mono hst h

theorem collapseWS_append_wordfree : ∀ (w z : List Char),
    (∀ c ∈ w, isPySpace c = false) → collapseWS (w ++ z) = w ++ collapseWS z := by
  intro w
  induction w with
  | nil => intro z _; rfl
  | cons c cs ih =>
    intro z hw
    rw [List.cons_append, collapseWS_cons_nonws _ (hw c (List.mem_cons_self _ _)),
      ih z (fun d hd => hw d (List.mem_cons_of_mem c hd))]
    rfl

/-- A ci-prefix with no space-like characters reflects through collapsing. -/
theorem ciPref_collapseWS : ∀ (q : List Char), patNoWS q = true → ∀ (s : List Char),
    ciPref q (collapseWS s) = true → ciPref q s = true := by
  intro q hq
  induction q with
  | nil => intro s _; rfl
  | cons a as ih =>
    intro s hp
    cases s with
    | nil => simp [collapseWS, collapseWSF, ciPref] at hp
    | cons c cs =>
      cases hc : isPySpace c with
      | true =>
        rw [collapseWS_cons_ws cs hc] at hp
        simp only [ciPref, ciEqC_space_false (patNoWS_head hq), Bool.false_and] at hp
        cases hp
      | false =>
        rw [collapseWS_cons_nonws cs hc] at hp
        simp only [ciPref, Bool.and_eq_true] at hp ⊢
        have hq2 : patNoWS as = true := by
          simp only [patNoWS, List.all_cons, Bool.and_eq_true] at hq
          exact hq.2
        exact ⟨hp.1, ih hq2 cs hp.2⟩

/-- Containment reflection through whitespace collapsing. -/
theorem containsCI_collapseWS_refl (q : List Char) (hq : patNoWS q = true) :
    ∀ n s, s.length ≤ n → containsCI q (collapseWS s) = true →
      containsCI q s = true := by
  intro n
  induction n with
  | zero =>
    intro s hs h
    have : s = [] := List.length_eq_zero.mp (Nat.le_zero.mp hs)
    subst this
    exact h
  | succ n ih =>
    intro s hs h
    cases q with
    | nil => exact containsCI_nil_pat s
    | cons a as =>
      cases s with
      | nil => exact h
      | cons c cs =>
        simp only [List.length_cons] at hs
        cases hc : isPySpace c with
        | true =>
          rw [collapseWS_cons_ws cs hc] at h
          simp only [containsCI, ciPref,
            ciEqC_space_false (patNoWS_head hq), Bool.false_and,
            Bool.false_or] at h
          have hd := (List.dropWhile_sublist (l := cs) isPySpace).length_le
          have h2 := ih (cs.dropWhile isPySpace) (by omega) h
          exact containsCI_mono_suffix
            (( List.dropWhile_suffix (l := cs) isPySpace).trans
              (List.suffix_cons c cs)) h2
        | false =>
          rw [collapseWS_cons_nonws cs hc] at h
          simp only [containsCI, Bool.or_eq_true] at h ⊢
          rcases h with h2 | h2
          · left
            simp only [ciPref, Bool.and_eq_true] at h2 ⊢
            have hq2 : patNoWS as = true := by
              simp only [patNoWS, List.all_cons, Bool.and_eq_true] at hq
              exact hq.2
            exact ⟨h2.1, ciPref_collapseWS as hq2 cs h2.2⟩
          · exact Or.inr (ih cs (by omega) h2)

/-- Plain-prefix reflection through collapsing for space-free strings. -/
theorem prefix_collapseWS : ∀ (w : List Char),
    (∀ c ∈ w, isPySpace c = false) → ∀ (s : List Char),
    w <+: collapseWS s → w <+: s := by
  intro w
  induction w with
  | nil => intro _ s _; exact List.nil_prefix
  | cons a as ih =>
    intro hw s hp
    cases s with
    | nil =>
      simp only [collapseWS, collapseWSF] at hp
      exact hp
    | cons c cs =>
      cases hc : isPySpace c with
      | true =>
        rw [collapseWS_cons_ws cs hc] at hp
        obtain ⟨rfl, -⟩ := List.cons_prefix_cons.mp hp
        exact absurd isPySpace_space (by simp [hw ' ' (List.mem_cons_self _ _)])
      | false =>
        rw [collapseWS_cons_nonws cs hc] at hp
        obtain ⟨rfl, h2⟩ := List.cons_prefix_cons.mp hp
        exact List.cons_prefix_cons.mpr
          ⟨rfl, ih (fun d hd => hw d (List.mem_cons_of_mem a hd)) cs h2⟩

/-- Space-free infix reflection through collapsing. -/
theorem infix_collapseWS : ∀ n (s w : List Char), s.length ≤ n →
    (∀ c ∈ w, isPySpace c = false) → w <:+: collapseWS s → w <:+: s := by
  intro n
  induction n with
  | zero =>
    intro s w hs _ h
    have : s = [] := List.length_eq_zero.mp (Nat.le_zero.mp hs)
    subst this
    exact h
  | succ n ih =>
    intro s w hs hw h
    cases s with
    | nil => exact h
    | cons c cs =>
      simp only [List.length_cons] at hs
      cases hc : isPySpace c with
      | true =>
        rw [collapseWS_cons_ws cs hc] at h
        rcases List.infix_cons_iff.mp h with h2 | h2
        · cases w with
          | nil => exact List.nil_infix
          | cons b bs =>
            obtain ⟨rfl, -⟩ := List.cons_prefix_cons.mp h2
            exact absurd isPySpace_space (by simp [hw ' ' (List.mem_cons_self _ _)])
        · have hd := (List.dropWhile_sublist (l := cs) isPySpace).length_le
          have h3 := ih (cs.dropWhile isPySpace) w (by omega) hw h2
          exact h3.trans (( List.dropWhile_suffix (l := cs) isPySpace).trans
            (List.suffix_cons c cs)).isInfix
      | false =>
        rw [collapseWS_cons_nonws cs hc] at h
        rcases List.infix_cons_iff.mp h with h2 | h2
        · cases w with
          | nil => exact List.nil_infix
          | cons b bs =>
            obtain ⟨rfl, h3⟩ := List.cons_prefix_cons.mp h2
            have h4 := prefix_collapseWS bs
              (fun d hd => hw d (List.mem_cons_of_mem b hd)) cs h3
            exact (List.cons_prefix_cons.mpr ⟨rfl, h4⟩).isInfix
        · exact (ih cs w (by omega) hw h2).trans (List.suffix_cons c cs).isInfix

/- ============ the specials map ============ -/

theorem replaceSpecials_eq_map (s : List Char) :
    replaceSpecials s = s.map spMap := rfl

theorem spMap_nonws {c : Char} (hc : isPySpace c = false) : spMap c = c := by
  unfold spMap
  have h1 : ¬(cp c = 160 ∨ cp c = 9) := by
    intro h
    rcases h with h | h <;> simp [isPySpace, h] at hc
  rw [if_neg (by simpa using h1)]

theorem spMap_space_cases (c : Char) : spMap c = c ∨ spMap c = ' ' := by
  unfold spMap
  by_cases h : (cp c = 160 || cp c = 9) = true
  · rw [if_pos h]; exact Or.inr rfl
  · rw [if_neg h]; exact Or.inl rfl

theorem ciPref_spMap_refl (q : List Char) (hq : patNoWS q = true) :
    ∀ s, ciPref q (s.map spMap) = true →
      ciPref q s = true ∧ (s.map spMap).take q.length = s.take q.length := by
  induction q with
  | nil => intro s _; exact ⟨rfl, by simp⟩
  | cons a as ih =>
    intro s hp
    cases s with
    | nil => simp [ciPref] at hp
    | cons c cs =>
      simp only [List.map_cons, ciPref, Bool.and_eq_true] at hp
      have hq2 : patNoWS as = true := by
        simp only [patNoWS, List.all_cons, Bool.and_eq_true] at hq
        exact hq.2
      have hcc : spMap c = c := by
        rcases spMap_space_cases c with h | h
        · exact h
        · rw [h] at hp
          rw [ciEqC_space_false (patNoWS_head hq)] at hp
          exact absurd hp.1 (by simp)
      obtain ⟨h1, h2⟩ := ih hq2 cs hp.2
      rw [hcc] at hp
      refine ⟨by simp [ciPref, hp.1, h1], ?_⟩
      simp only [List.map_cons, List.length_cons, List.take, List.cons.injEq]
      exact ⟨hcc, h2⟩

theorem containsCI_spMap_refl (q : List Char) (hq : patNoWS q = true) :
    ∀ s, containsCI q (s.map spMap) = true → containsCI q s = true := by
  intro s
  induction s with
  | nil => intro h; exact h
  | cons c cs ih =>
    intro h
    simp only [List.map_cons, containsCI, Bool.or_eq_true] at h ⊢
    rcases h with h | h
    · have h2 : ciPref q ((c :: cs).map spMap) = true := by
        simpa using h
      exact Or.inl (ciPref_spMap_refl q hq (c :: cs) h2).1
    · exact Or.inr (ih h)

theorem infix_spMap_refl (w : List Char) (hw : ∀ c ∈ w, isPySpace c = false) :
    ∀ s, w <:+: s.map spMap → w <:+: s := by
  have hpre : ∀ (v : List Char) s, (∀ c ∈ v, isPySpace c = false) →
      v <+: s.map spMap → v <+: s := by
    intro v
    induction v with
    | nil => intro s _ _; exact List.nil_prefix
    | cons b bs ih =>
      intro s hv hp
      cases s with
      | nil => simp at hp
      | cons c cs =>
        simp only [List.map_cons] at hp
        obtain ⟨hb, h2⟩ := List.cons_prefix_cons.mp hp
        have hcc : spMap c = c := by
          rcases spMap_space_cases c with h | h
          · exact h
          · rw [h] at hb
            rw [hb] at hv
            have := hv ' ' (List.mem_cons_self _ _)
            rw [isPySpace_space] at this
            cases this
        rw [hcc] at hb
        exact List.cons_prefix_cons.mpr
          ⟨hb, ih cs (fun d hd => hv d (List.mem_cons_of_mem b hd)) h2⟩
  intro s
  induction s with
  | nil => intro h; simpa using h
  | cons c cs ih =>
    intro h
    simp only [List.map_cons] at h
    rcases List.infix_cons_iff.mp h with h2 | h2
    · have h3 : w <+: (c :: cs).map spMap := by simpa using h2
      exact (hpre w (c :: cs) hw h3).isInfix
    · exact (ih h2).trans (List.suffix_cons c cs).isInfix

theorem suffix_of_map (f : Char → Char) {t s : List Char}
    (h : t <:+ List.map f s) : ∃ t', t' <:+ s ∧ t = List.map f t' := by
  obtain ⟨u, hu⟩ := h
  refine ⟨s.drop u.length, List.drop_suffix _ _, ?_⟩
  have h2 := congrArg (List.drop u.length) hu
  rw [List.drop_left, ← List.map_drop] at h2
  exact h2

theorem LabelP_spMap {q s : List Char} (hq : patNoWS q = true)
    (hl : LabelP q s) : LabelP q (s.map spMap) := by
  intro t ht hpref
  obtain ⟨t', ht', rfl⟩ := suffix_of_map spMap ht
  obtain ⟨h1, h2⟩ := ciPref_spMap_refl q hq t' hpref
  obtain ⟨h3, h4⟩ := hl t' ht' h1
  refine ⟨by rw [h2, h3], ?_⟩
  rw [← List.map_drop]
  rcases h4 with h5 | ⟨z', h5⟩
  · rw [h5]; exact Or.inl rfl
  · rw [h5]
    simp only [List.map_cons]
    have : spMap ' ' = ' ' := by decide
    rw [this]
    exact Or.inr ⟨_, rfl⟩

/- ============ strip lemmas ============ -/

theorem pyStripTrail_decomp (z : List Char) :
    z = pyStripTrail z ++ (z.reverse.takeWhile isPySpace).reverse ∧
    ∀ c ∈ (z.reverse.takeWhile isPySpace).reverse, isPySpace c = true := by
  constructor
  · have h1 : z.reverse.takeWhile isPySpace ++ z.reverse.dropWhile isPySpace =
        z.reverse := List.takeWhile_append_dropWhile isPySpace z.reverse
    have h2 := congrArg List.reverse h1
    rw [List.reverse_append, List.reverse_reverse] at h2
    exact h2.symm
  · intro c hc
    rw [List.mem_reverse] at hc
    exact List.mem_takeWhile_imp hc

theorem pyStrip_decomp (s : List Char) :
    ∃ u v, s = u ++ pyStrip s ++ v ∧ (∀ c ∈ u, isPySpace c = true) ∧
      ∀ c ∈ v, isPySpace c = true := by
  obtain ⟨h1, h2⟩ := pyStripTrail_decomp (s.dropWhile isPySpace)
  refine ⟨s.takeWhile isPySpace,
    ((s.dropWhile isPySpace).reverse.takeWhile isPySpace).reverse, ?_, ?_, h2⟩
  · have h3 : s.takeWhile isPySpace ++ s.dropWhile isPySpace = s :=
      List.takeWhile_append_dropWhile isPySpace s
    calc s = s.takeWhile isPySpace ++ s.dropWhile isPySpace := h3.symm
    _ = s.takeWhile isPySpace ++ (pyStripTrail (s.dropWhile isPySpace) ++
        ((s.dropWhile isPySpace).reverse.takeWhile isPySpace).reverse) := by
        rw [← h1]
    _ = _ := by rw [← List.append_assoc]; rfl
  · intro c hc
    exact List.mem_takeWhile_imp hc

theorem pyStrip_infix (s : List Char) : pyStrip s <:+: s := by
  obtain ⟨u, v, he, -, -⟩ := pyStrip_decomp s
  exact ⟨u, v, he.symm⟩

theorem LabelP_pyStripTrail {q z : List Char} (hl : LabelP q z) :
    LabelP q (pyStripTrail z) := by
  intro t ht hpref
  obtain ⟨hz, -⟩ := pyStripTrail_decomp z
  obtain ⟨u, hu⟩ := ht
  set v := (z.reverse.takeWhile isPySpace).reverse with hv
  have htv : (t ++ v) <:+ z := by
    refine ⟨u, ?_⟩
    rw [← List.append_assoc, hu, ← hz]
  have hpref2 : ciPref q (t ++ v) = true := ciPref_extend v hpref
  obtain ⟨h3, h4⟩ := hl (t ++ v) htv hpref2
  obtain ⟨hle, -⟩ := (ciPref_iff_take q t).mp hpref
  refine ⟨?_, ?_⟩
  · rw [List.take_append_of_le_length hle] at h3
    exact h3
  · rw [List.drop_append_of_le_length hle] at h4
    cases hd : t.drop q.length with
    | nil => exact Or.inl rfl
    | cons d z' =>
      rw [hd] at h4
      rcases h4 with h5 | ⟨z2, h5⟩
      · simp at h5
      · simp only [List.cons_append, List.cons.injEq] at h5
        exact Or.inr ⟨z', by rw [h5.1]⟩

theorem LabelP_pyStrip {q s : List Char} (hl : LabelP q s) :
    LabelP q (pyStrip s) := by
  have h1 : LabelP q (s.dropWhile isPySpace) :=
    LabelP_suffix hl (List.dropWhile_suffix isPySpace)
  exact LabelP_pyStripTrail h1

/- ============ collapse LabelP ============ -/

theorem patNoWS_no_ws {q : List Char} (hq : patNoWS q = true) :
    ∀ c ∈ q, isPySpace c = false := by
  intro c hc
  cases hw : isPySpace c with
  | false => rfl
  | true =>
    exfalso
    have h1 := List.all_eq_true.mp hq c hc
    rw [pyUpper_ws_fixed c hw, hw] at h1
    simp at h1

theorem LabelP_collapseWS {q : List Char} (hq : patNoWS q = true)
    (hq0 : q ≠ []) : ∀ n s, s.length ≤ n → LabelP q s →
      LabelP q (collapseWS s) := by
  intro n
  induction n with
  | zero =>
    intro s hs _
    have : s = [] := List.length_eq_zero.mp (Nat.le_zero.mp hs)
    subst this
    intro t ht hpref
    have ht2 : t = [] := by
      have h0 : collapseWS ([] : List Char) = [] := rfl
      rw [h0] at ht
      exact List.suffix_nil.mp ht
    subst ht2
    cases q with
    | nil => exact absurd rfl hq0
    | cons a as => simp [ciPref] at hpref
  | succ n ih =>
    intro s hs hl
    cases s with
    | nil =>
      intro t ht hpref
      have ht2 : t = [] := by
        have h0 : collapseWS ([] : List Char) = [] := rfl
        rw [h0] at ht
        exact List.suffix_nil.mp ht
      subst ht2
      cases q with
      | nil => exact absurd rfl hq0
      | cons a as => simp [ciPref] at hpref
    | cons c cs =>
      simp only [List.length_cons] at hs
      cases hc : isPySpace c with
      | true =>
        rw [collapseWS_cons_ws cs hc]
        intro t ht hpref
        rcases List.suffix_cons_iff.mp ht with rfl | h2
        · cases q with
          | nil => exact absurd rfl hq0
          | cons a as =>
            rw [show ciPref (a :: as) (' ' :: collapseWS (cs.dropWhile isPySpace)) =
              (ciEqC a ' ' && ciPref as (collapseWS (cs.dropWhile isPySpace)))
              from rfl, ciEqC_space_false (patNoWS_head hq)] at hpref
            simp at hpref
        · have hd := (List.dropWhile_sublist (l := cs) isPySpace).length_le
          have hl2 : LabelP q (cs.dropWhile isPySpace) :=
            LabelP_suffix hl (( List.dropWhile_suffix (l := cs) isPySpace).trans
              (List.suffix_cons c cs))
          exact ih (cs.dropWhile isPySpace) (by omega) hl2 t h2 hpref
      | false =>
        rw [collapseWS_cons_nonws cs hc]
        intro t ht hpref
        rcases List.suffix_cons_iff.mp ht with rfl | h2
        · have hp2 : ciPref q (c :: cs) = true := by
            have : c :: collapseWS cs = collapseWS (c :: cs) :=
              (collapseWS_cons_nonws cs hc).symm
            rw [this] at hpref
            exact ciPref_collapseWS q hq (c :: cs) hpref
          obtain ⟨h3, h4⟩ := hl (c :: cs) (List.suffix_refl _) hp2
          obtain ⟨hle, -⟩ := (ciPref_iff_take q (c :: cs)).mp hp2
          have hdec : c :: cs = q ++ (c :: cs).drop q.length := by
            conv_lhs => rw [← List.take_append_drop q.length (c :: cs)]
            rw [h3]
          have hcol : collapseWS (c :: cs) =
              q ++ collapseWS ((c :: cs).drop q.length) := by
            conv_lhs => rw [hdec]
            exact collapseWS_append_wordfree q _ (patNoWS_no_ws hq)
          rw [collapseWS_cons_nonws cs hc] at hcol
          refine ⟨?_, ?_⟩
          · rw [hcol, List.take_left]
          · rw [hcol, List.drop_left]
            rcases h4 with h5 | ⟨z', h5⟩
            · rw [h5]
              exact Or.inl rfl
            · rw [h5, collapseWS_cons_ws _ isPySpace_space]
              exact Or.inr ⟨_, rfl⟩
        · have hl2 : LabelP q cs := LabelP_suffix hl (List.suffix_cons c cs)
          exact ih cs (by omega) hl2 t h2 hpref

/- ============ words machinery ============ -/

theorem wordsOf_nil : wordsOf [] = [] := by rw [wordsOf]

theorem wordsOf_cons_ws {c : Char} (cs : List Char) (hc : isPySpace c = true) :
    wordsOf (c :: cs) = wordsOf cs := by
  rw [wordsOf, if_pos hc]

theorem wordsOf_cons_nonws {c : Char} (cs : List Char)
    (hc : isPySpace c = false) :
    wordsOf (c :: cs) = (c :: cs.takeWhile (fun d => !isPySpace d)) ::
      wordsOf (cs.dropWhile (fun d => !isPySpace d)) := by
  rw [wordsOf, if_neg (by simp [hc])]

theorem dropWhile_all_false {p : Char → Bool} : ∀ {l : List Char},
    (∀ c ∈ l, p c = false) → l.dropWhile p = l := by
  intro l h
  cases l with
  | nil => rfl
  | cons a l' =>
    exact List.dropWhile_cons_of_neg (by simp [h a (List.mem_cons_self _ _)])

theorem dropWhile_all_true {p : Char → Bool} : ∀ (l₁ l₂ : List Char),
    (∀ c ∈ l₁, p c = true) → (l₁ ++ l₂).dropWhile p = l₂.dropWhile p := by
  intro l₁
  induction l₁ with
  | nil => intro l₂ _; rfl
  | cons a l' ih =>
    intro l₂ h
    rw [List.cons_append, List.dropWhile_cons_of_pos (h a (List.mem_cons_self _ _))]
    exact ih l₂ (fun c hc => h c (List.mem_cons_of_mem a hc))

theorem takeWhile_word_append {p : Char → Bool} : ∀ (u z : List Char),
    (∀ c ∈ u, p c = true) → (z = [] ∨ ∃ r z', z = r :: z' ∧ p r = false) →
    (u ++ z).takeWhile p = u ∧ (u ++ z).dropWhile p = z := by
  intro u
  induction u with
  | nil =>
    intro z _ hz
    rcases hz with rfl | ⟨r, z', rfl, hr⟩
    · exact ⟨rfl, rfl⟩
    · simp only [List.nil_append]
      exact ⟨List.takeWhile_cons_of_neg (by simp [hr]),
        List.dropWhile_cons_of_neg (by simp [hr])⟩
  | cons a u' ih =>
    intro z hu hz
    obtain ⟨h1, h2⟩ := ih z (fun c hc => hu c (List.mem_cons_of_mem a hc)) hz
    rw [List.cons_append,
      List.takeWhile_cons_of_pos (hu a (List.mem_cons_self _ _)),
      List.dropWhile_cons_of_pos (hu a (List.mem_cons_self _ _)), h1, h2]
    exact ⟨rfl, rfl⟩

theorem wordsOf_dropWhile_ws : ∀ (s : List Char),
    wordsOf (s.dropWhile isPySpace) = wordsOf s := by
  intro s
  induction s with
  | nil => rfl
  | cons c cs ih =>
    cases hc : isPySpace c with
    | true => rw [List.dropWhile_cons_of_pos hc, ih, wordsOf_cons_ws cs hc]
    | false => rw [List.dropWhile_cons_of_neg (by simp [hc])]

theorem wordsOf_members : ∀ n (s : List Char), s.length ≤ n →
    ∀ w ∈ wordsOf s, w ≠ [] ∧ ∀ c ∈ w, isPySpace c = false := by
  intro n
  induction n with
  | zero =>
    intro s hs w hw
    have : s = [] := List.length_eq_zero.mp (Nat.le_zero.mp hs)
    subst this
    rw [wordsOf_nil] at hw
    cases hw
  | succ n ih =>
    intro s hs w hw
    cases s with
    | nil =>
      rw [wordsOf_nil] at hw
      cases hw
    | cons c cs =>
      simp only [List.length_cons] at hs
      cases hc : isPySpace c with
      | true =>
        rw [wordsOf_cons_ws cs hc] at hw
        exact ih cs (by omega) w hw
      | false =>
        rw [wordsOf_cons_nonws cs hc] at hw
        rcases List.mem_cons.mp hw with rfl | hw2
        · refine ⟨by simp, ?_⟩
          intro d hd
          rcases List.mem_cons.mp hd with rfl | hd2
          · exact hc
          · have := List.mem_takeWhile_imp hd2
            simpa using this
        · have hlen := (List.dropWhile_sublist
            (l := cs) (fun d => !isPySpace d)).length_le
          exact ih (cs.dropWhile (fun d => !isPySpace d)) (by omega) w hw2

theorem unwordsSp_cons (w : List Char) (l : List (List Char)) :
    unwordsSp (w :: l) = w ++ (if l = [] then [] else ' ' :: unwordsSp l) := by
  cases l with
  | nil => simp [unwordsSp]
  | cons u us => simp [unwordsSp]

theorem unwordsSp_ne_nil {w : List Char} (l : List (List Char)) (hw : w ≠ []) :
    unwordsSp (w :: l) ≠ [] := by
  cases l with
  | nil => simpa [unwordsSp]
  | cons u us => simp [unwordsSp]

theorem wordsOf_word_append (w z : List Char)
    (hw : ∀ c ∈ w, isPySpace c = false) (hw0 : w ≠ [])
    (hz : z = [] ∨ ∃ r z', z = r :: z' ∧ isPySpace r = true) :
    wordsOf (w ++ z) = w :: wordsOf z := by
  cases w with
  | nil => exact absurd rfl hw0
  | cons a u =>
    have hz' : z = [] ∨ ∃ r z', z = r :: z' ∧ (fun d => !isPySpace d) r = false := by
      rcases hz with rfl | ⟨r, z', rfl, hr⟩
      · exact Or.inl rfl
      · exact Or.inr ⟨r, z', rfl, by simp [hr]⟩
    obtain ⟨h1, h2⟩ := takeWhile_word_append (p := fun d => !isPySpace d) u z
      (fun c hc => by simp [hw c (List.mem_cons_of_mem a hc)]) hz'
    rw [List.cons_append, wordsOf_cons_nonws _ (hw a (List.mem_cons_self _ _)),
      h1, h2]

/- ============ trailing strip lemmas ============ -/

theorem pyStripTrail_nil_of_allws {z : List Char}
    (h : ∀ c ∈ z, isPySpace c = true) : pyStripTrail z = [] := by
  unfold pyStripTrail
  have h2 : z.reverse.dropWhile isPySpace = [] :=
    List.dropWhile_eq_nil_iff.mpr (by intro x hx; exact h x (List.mem_reverse.mp hx))
  rw [h2]
  rfl

theorem pyStripTrail_allws_of_nil {z : List Char} (h : pyStripTrail z = []) :
    ∀ c ∈ z, isPySpace c = true := by
  unfold pyStripTrail at h
  have h2 : z.reverse.dropWhile isPySpace = [] := by
    have := congrArg List.reverse h
    simpa using this
  intro c hc
  exact List.dropWhile_eq_nil_iff.mp h2 c (List.mem_reverse.mpr hc)

theorem pyStripTrail_append_ne_nil {v : List Char} (u : List Char)
    (hv : pyStripTrail v ≠ []) :
    pyStripTrail (u ++ v) = u ++ pyStripTrail v := by
  have hd : v.reverse.dropWhile isPySpace ≠ [] := by
    intro h
    apply hv
    unfold pyStripTrail
    rw [h]
    rfl
  unfold pyStripTrail
  rw [List.reverse_append, List.dropWhile_append,
    if_neg (by simpa [List.isEmpty_iff] using hd), List.reverse_append,
    List.reverse_reverse]

theorem pyStripTrail_append_allws {v : List Char} (u : List Char)
    (hv : ∀ c ∈ v, isPySpace c = true) :
    pyStripTrail (u ++ v) = pyStripTrail u := by
  unfold pyStripTrail
  rw [List.reverse_append,
    dropWhile_all_true v.reverse u.reverse
      (fun c hc => hv c (List.mem_reverse.mp hc))]

theorem pyStripTrail_wordfree {w : List Char}
    (hw : ∀ c ∈ w, isPySpace c = false) : pyStripTrail w = w := by
  unfold pyStripTrail
  rw [dropWhile_all_false (fun c hc => hw c (List.mem_reverse.mp hc)),
    List.reverse_reverse]

theorem pyStrip_cons_ws {c : Char} (z : List Char) (hc : isPySpace c = true) :
    pyStrip (c :: z) = pyStrip z := by
  unfold pyStrip
  rw [List.dropWhile_cons_of_pos hc]

theorem pyStrip_eq_trail {s : List Char}
    (h : s = [] ∨ ∃ c z, s = c :: z ∧ isPySpace c = false) :
    pyStrip s = pyStripTrail s := by
  rcases h with rfl | ⟨c, z, rfl, hc⟩
  · rfl
  · unfold pyStrip pyStripTrail
    rw [List.dropWhile_cons_of_neg (by simp [hc])]

theorem pyStrip_wordfree {w : List Char}
    (hw : ∀ c ∈ w, isPySpace c = false) : pyStrip w = w := by
  unfold pyStrip
  rw [dropWhile_all_false hw,
    dropWhile_all_false (fun c hc => hw c (List.mem_reverse.mp hc)),
    List.reverse_reverse]

/-- The collapse of a string whose head is no whitespace, or which is empty,
    is empty or keeps that non-whitespace head. -/
theorem collapseWS_head_nonws {s : List Char}
    (h : s = [] ∨ ∃ c z, s = c :: z ∧ isPySpace c = false) :
    collapseWS s = [] ∨ ∃ c z, collapseWS s = c :: z ∧ isPySpace c = false := by
  rcases h with rfl | ⟨c, z, rfl, hc⟩
  · exact Or.inl rfl
  · rw [collapseWS_cons_nonws z hc]
    exact Or.inr ⟨c, collapseWS z, rfl, hc⟩

/-- The head of the result of dropWhile fails the predicate. -/
theorem dropWhile_head_cases (p : Char → Bool) (l : List Char) :
    l.dropWhile p = [] ∨ ∃ r z, l.dropWhile p = r :: z ∧ p r = false := by
  induction l with
  | nil => exact Or.inl rfl
  | cons a l' ih =>
    cases ha : p a with
    | true => rw [List.dropWhile_cons_of_pos ha]; exact ih
    | false =>
      rw [List.dropWhile_cons_of_neg (by simp [ha])]
      exact Or.inr ⟨a, l', rfl, ha⟩

/-- Stripping the collapse of a string joins its words with single spaces. -/
theorem strip_collapse_words : ∀ n (s : List Char), s.length ≤ n →
    pyStrip (collapseWS s) = unwordsSp (wordsOf s) := by
  intro n
  induction n with
  | zero =>
    intro s hs
    have : s = [] := List.length_eq_zero.mp (Nat.le_zero.mp hs)
    subst this
    rw [wordsOf_nil]
    rfl
  | succ n ih =>
    intro s hs
    cases s with
    | nil =>
      rw [wordsOf_nil]
      rfl
    | cons c cs =>
      simp only [List.length_cons] at hs
      cases hc : isPySpace c with
      | true =>
        rw [collapseWS_cons_ws cs hc, wordsOf_cons_ws cs hc,
          pyStrip_cons_ws _ isPySpace_space]
        have hd := (List.dropWhile_sublist (l := cs) isPySpace).length_le
        rw [ih (cs.dropWhile isPySpace) (by omega), wordsOf_dropWhile_ws]
      | false =>
        have hsplit : cs.takeWhile (fun d => !isPySpace d) ++
            cs.dropWhile (fun d => !isPySpace d) = cs :=
          List.takeWhile_append_dropWhile (fun d => !isPySpace d) cs
        have hwordfree : ∀ d ∈ c :: cs.takeWhile (fun d => !isPySpace d),
            isPySpace d = false := by
          intro d hd
          rcases List.mem_cons.mp hd with rfl | hd2
          · exact hc
          · simpa using List.mem_takeWhile_imp hd2
        have hcs : c :: cs = (c :: cs.takeWhile (fun d => !isPySpace d)) ++
            cs.dropWhile (fun d => !isPySpace d) := by
          rw [List.cons_append, hsplit]
        have hcol : collapseWS (c :: cs) =
            (c :: cs.takeWhile (fun d => !isPySpace d)) ++
              collapseWS (cs.dropWhile (fun d => !isPySpace d)) := by
          conv_lhs => rw [hcs]
          exact collapseWS_append_wordfree _ _ hwordfree
        rcases dropWhile_head_cases (fun d => !isPySpace d) cs with
          hre | ⟨r, rs, hre, hr⟩
        · rw [hcol, hre, show collapseWS [] = [] from rfl, List.append_nil,
            pyStrip_wordfree hwordfree, wordsOf_cons_nonws cs hc, hre,
            wordsOf_nil]
          rfl
        · have hrws : isPySpace r = true := by simpa using hr
          have hlenrest : (cs.dropWhile (fun d => !isPySpace d)).length ≤ n := by
            have := (List.dropWhile_sublist
              (l := cs) (fun d => !isPySpace d)).length_le
            omega
          have hIH := ih (cs.dropWhile (fun d => !isPySpace d)) hlenrest
          rw [hre, collapseWS_cons_ws rs hrws] at hIH
          have hZhead : collapseWS (rs.dropWhile isPySpace) = [] ∨
              ∃ a z', collapseWS (rs.dropWhile isPySpace) = a :: z' ∧
                isPySpace a = false := by
            exact collapseWS_head_nonws (by
              rcases dropWhile_head_cases isPySpace rs with h | ⟨a, z', h, ha⟩
              · exact Or.inl h
              · exact Or.inr ⟨a, z', h, ha⟩)
          rw [pyStrip_cons_ws _ isPySpace_space, pyStrip_eq_trail hZhead] at hIH
          rw [hcol, hre, collapseWS_cons_ws rs hrws,
            wordsOf_cons_nonws cs hc, hre]
          show pyStrip ((c :: cs.takeWhile (fun d => !isPySpace d)) ++
              ' ' :: collapseWS (rs.dropWhile isPySpace)) =
            unwordsSp ((c :: cs.takeWhile (fun d => !isPySpace d)) ::
              wordsOf (r :: rs))
          rw [pyStrip_eq_trail (Or.inr ⟨c,
            cs.takeWhile (fun d => !isPySpace d) ++
              ' ' :: collapseWS (rs.dropWhile isPySpace),
            List.cons_append c _ _, hc⟩)]
          cases hwr : wordsOf (r :: rs) with
          | nil =>
            rw [hwr] at hIH
            have hZws : ∀ d ∈ ' ' :: collapseWS (rs.dropWhile isPySpace),
                isPySpace d = true := by
              intro d hd
              rcases List.mem_cons.mp hd with rfl | hd2
              · exact isPySpace_space
              · exact pyStripTrail_allws_of_nil
                  (by simpa [unwordsSp] using hIH) d hd2
            show pyStripTrail ((c :: cs.takeWhile (fun d => !isPySpace d)) ++
                ' ' :: collapseWS (rs.dropWhile isPySpace)) =
              unwordsSp [c :: cs.takeWhile (fun d => !isPySpace d)]
            rw [pyStripTrail_append_allws _ hZws, pyStripTrail_wordfree hwordfree]
            rfl
          | cons w1 restw =>
            have hw1 : w1 ≠ [] := by
              have hmem := wordsOf_members (r :: rs).length (r :: rs) le_rfl w1
                (by rw [hwr]; exact List.mem_cons_self _ _)
              exact hmem.1
            have hR : pyStripTrail (collapseWS (rs.dropWhile isPySpace)) ≠ [] := by
              rw [hIH, hwr]
              exact unwordsSp_ne_nil restw hw1
            have hZne : pyStripTrail (' ' :: collapseWS (rs.dropWhile isPySpace)) =
                ' ' :: pyStripTrail (collapseWS (rs.dropWhile isPySpace)) := by
              have h5 := pyStripTrail_append_ne_nil [' '] hR
              simpa using h5
            show pyStripTrail ((c :: cs.takeWhile (fun d => !isPySpace d)) ++
                ' ' :: collapseWS (rs.dropWhile isPySpace)) =
              unwordsSp ((c :: cs.takeWhile (fun d => !isPySpace d)) ::
                w1 :: restw)
            rw [pyStripTrail_append_ne_nil _ (by rw [hZne]; simp), hZne, hIH, hwr]
            rfl

/- ============ identity on whitespace-normal strings ============ -/

theorem collapseWS_id : ∀ (s : List Char),
    (∀ c ∈ s, isPySpace c = true → c = ' ') → ¬([' ', ' '] <:+: s) →
    collapseWS s = s := by
  intro s
  induction s with
  | nil => intro _ _; rfl
  | cons c cs ih =>
    intro h1 h2
    have hcs1 : ∀ c ∈ cs, isPySpace c = true → c = ' ' :=
      fun d hd => h1 d (List.mem_cons_of_mem c hd)
    have hcs2 : ¬([' ', ' '] <:+: cs) := by
      intro h
      exact h2 (h.trans (List.suffix_cons c cs).isInfix)
    cases hc : isPySpace c with
    | false => rw [collapseWS_cons_nonws cs hc, ih hcs1 hcs2]
    | true =>
      have hcsp : c = ' ' := h1 c (List.mem_cons_self _ _) hc
      subst hcsp
      cases cs with
      | nil => rfl
      | cons d ds =>
        have hd : isPySpace d = false := by
          cases hdw : isPySpace d with
          | false => rfl
          | true =>
            exfalso
            have : d = ' ' := h1 d (List.mem_cons_of_mem _
              (List.mem_cons_self _ _)) hdw
            subst this
            exact h2 ⟨[], ds, rfl⟩
        rw [collapseWS_cons_ws _ hc, List.dropWhile_cons_of_neg (by simp [hd]),
          ih hcs1 hcs2]

theorem pyStrip_id (s : List Char) (h1 : ∀ c ∈ s, isPySpace c = true → c = ' ')
    (h2 : s.head? ≠ some ' ') (h3 : s.getLast? ≠ some ' ') : pyStrip s = s := by
  cases s with
  | nil => rfl
  | cons c cs =>
    have hc : isPySpace c = false := by
      cases hcw : isPySpace c with
      | false => rfl
      | true =>
        exfalso
        exact h2 (by rw [h1 c (List.mem_cons_self _ _) hcw]; rfl)
    unfold pyStrip
    rw [List.dropWhile_cons_of_neg (by simp [hc])]
    have hlast : ∀ r ∈ ((c :: cs).reverse.head?.toList), isPySpace r = false := by
      intro r hr
      rw [List.head?_reverse] at hr
      cases hgl : (c :: cs).getLast? with
      | none => rw [hgl] at hr; cases hr
      | some d =>
        rw [hgl] at hr
        rcases List.mem_singleton.mp (by simpa using hr) with rfl
        cases hdw : isPySpace r with
        | false => rfl
        | true =>
          exfalso
          apply h3
          rw [hgl]
          have hmem : r ∈ c :: cs := List.mem_of_getLast?_eq_some hgl
          rw [h1 r hmem hdw]
    cases hrev : (c :: cs).reverse with
    | nil => simp at hrev
    | cons r rest =>
      have hrns : isPySpace r = false := by
        apply hlast
        rw [hrev]
        simp
      rw [List.dropWhile_cons_of_neg (by simp [hrns]), ← hrev,
        List.reverse_reverse]

/- ============ whitespace normality of the pipeline output ============ -/

theorem collapseWS_mem_ws : ∀ n (s : List Char), s.length ≤ n →
    ∀ c ∈ collapseWS s, isPySpace c = true → c = ' ' := by
  intro n
  induction n with
  | zero =>
    intro s hs c hc _
    rw [List.length_eq_zero.mp (Nat.le_zero.mp hs)] at hc
    cases hc
  | succ n ih =>
    intro s hs c hc hw
    cases s with
    | nil => cases hc
    | cons a as =>
      simp only [List.length_cons] at hs
      cases ha : isPySpace a with
      | true =>
        rw [collapseWS_cons_ws as ha] at hc
        rcases List.mem_cons.mp hc with rfl | hc2
        · rfl
        · have hd := (List.dropWhile_sublist (l := as) isPySpace).length_le
          exact ih (as.dropWhile isPySpace) (by omega) c hc2 hw
      | false =>
        rw [collapseWS_cons_nonws as ha] at hc
        rcases List.mem_cons.mp hc with rfl | hc2
        · rw [ha] at hw; cases hw
        · exact ih as (by omega) c hc2 hw

theorem collapseWS_no_double : ∀ n (s : List Char), s.length ≤ n →
    ¬([' ', ' '] <:+: collapseWS s) := by
  intro n
  induction n with
  | zero =>
    intro s hs h
    rw [List.length_eq_zero.mp (Nat.le_zero.mp hs)] at h
    have := h.length_le
    simp [collapseWS, collapseWSF] at this
  | succ n ih =>
    intro s hs h
    cases s with
    | nil =>
      have := h.length_le
      simp [collapseWS, collapseWSF] at this
    | cons a as =>
      simp only [List.length_cons] at hs
      cases ha : isPySpace a with
      | true =>
        rw [collapseWS_cons_ws as ha] at h
        rcases List.infix_cons_iff.mp h with h2 | h2
        · obtain ⟨-, h3⟩ := List.cons_prefix_cons.mp h2
          rcases collapseWS_head_nonws (s := as.dropWhile isPySpace)
            (by
              rcases dropWhile_head_cases isPySpace as with h4 | ⟨r, z, h4, hr⟩
              · exact Or.inl h4
              · exact Or.inr ⟨r, z, h4, hr⟩) with h4 | ⟨b, z, h4, hb⟩
          · rw [h4] at h3
            have := h3.length_le
            simp at this
          · rw [h4] at h3
            obtain ⟨h5, -⟩ := List.cons_prefix_cons.mp h3
            rw [← h5, isPySpace_space] at hb
            cases hb
        · have hd := (List.dropWhile_sublist (l := as) isPySpace).length_le
          exact ih (as.dropWhile isPySpace) (by omega) h2
      | false =>
        rw [collapseWS_cons_nonws as ha] at h
        rcases List.infix_cons_iff.mp h with h2 | h2
        · obtain ⟨h3, -⟩ := List.cons_prefix_cons.mp h2
          rw [← h3, isPySpace_space] at ha
          cases ha
        · exact ih as (by omega) h2

theorem head_nonws_of_append {T v : List Char} {c : Char}
    (hT : T.head? = some c) : (T ++ v).head? = some c := by
  cases T with
  | nil => cases hT
  | cons a T' =>
    simpa using hT

theorem pyStrip_head_nonws (s : List Char) :
    ∀ c, (pyStrip s).head? = some c → isPySpace c = false := by
  intro c hc
  rcases dropWhile_head_cases isPySpace s with h | ⟨r, z, h, hr⟩
  · rw [show pyStrip s = pyStripTrail (s.dropWhile isPySpace) from rfl, h] at hc
    cases hc
  · rw [show pyStrip s = pyStripTrail (s.dropWhile isPySpace) from rfl] at hc
    obtain ⟨hdec, -⟩ := pyStripTrail_decomp (s.dropWhile isPySpace)
    cases hT : pyStripTrail (s.dropWhile isPySpace) with
    | nil => rw [hT] at hc; cases hc
    | cons b T' =>
      rw [hT] at hc hdec
      rw [h] at hdec
      obtain rfl : c = b := by
        simpa using hc.symm
      have : r = c := by
        have := congrArg List.head? hdec
        simpa using this
      rw [← this]
      exact hr

theorem pyStrip_last_nonws (s : List Char) :
    ∀ c, (pyStrip s).getLast? = some c → isPySpace c = false := by
  intro c hc
  rw [← List.head?_reverse] at hc
  rw [show pyStrip s = pyStripTrail (s.dropWhile isPySpace) from rfl] at hc
  unfold pyStripTrail at hc
  rw [List.reverse_reverse] at hc
  rcases dropWhile_head_cases isPySpace (s.dropWhile isPySpace).reverse with
    h | ⟨r, z, h, hr⟩
  · rw [h] at hc; cases hc
  · rw [h] at hc
    obtain rfl : c = r := by simpa using hc.symm
    exact hr

/- ============ upperStr prefix algebra ============ -/

theorem ciPref_iff_upper (q s : List Char) :
    ciPref q s = true ↔ upperStr q <+: upperStr s := by
  rw [ciPref_iff_take]
  constructor
  · rintro ⟨hle, he⟩
    refine ⟨upperStr (s.drop q.length), ?_⟩
    have he' : upperStr (s.take q.length) = upperStr q := he
    rw [← he']
    unfold upperStr
    rw [← List.map_append, List.take_append_drop]
  · rintro ⟨v, hv⟩
    have hlen : q.length ≤ s.length := by
      have := congrArg List.length hv
      simp only [List.length_append, upperStr, List.length_map] at this
      omega
    refine ⟨hlen, ?_⟩
    have h2 := congrArg (List.take q.length) hv
    have h3 : (upperStr q ++ v).take q.length = upperStr q := by
      have h5 : (upperStr q).length = q.length := by simp [upperStr]
      rw [← h5, List.take_left]
    rw [h3] at h2
    show ciEqS (s.take q.length) q
    have hgoal : upperStr (s.take q.length) = upperStr q := by
      rw [h2]
      unfold upperStr
      rw [← List.map_take]
    exact hgoal

theorem upperStr_append (u v : List Char) :
    upperStr (u ++ v) = upperStr u ++ upperStr v := by
  unfold upperStr
  exact List.map_append pyUpper u v

theorem upperStr_length (u : List Char) : (upperStr u).length = u.length := by
  simp [upperStr]

/-- Transitivity of ciPref through a full ci-equality. -/
theorem ciPref_trans_ciEqS {q pat s : List Char} (h1 : ciPref q pat = true)
    (h2 : ciEqS (s.take pat.length) pat) :
    ciPref q s = true := by
  rw [ciPref_iff_upper] at h1 ⊢
  have h4 : upperStr pat <+: upperStr s := by
    refine ⟨upperStr (s.drop pat.length), ?_⟩
    have h2' : upperStr (s.take pat.length) = upperStr pat := h2
    rw [← h2']
    unfold upperStr
    rw [← List.map_append, List.take_append_drop]
  exact h1.trans h4

theorem ciPref_append_left {q u v : List Char} (h : ciPref q (u ++ v) = true)
    (hle : q.length ≤ u.length) : ciPref q u = true := by
  rw [ciPref_iff_take] at h ⊢
  obtain ⟨h1, h2⟩ := h
  rw [List.take_append_of_le_length hle] at h2
  exact ⟨hle, h2⟩

theorem ciPref_take_eqS {q s : List Char} (h : ciPref q s = true) :
    ciEqS (s.take q.length) q := ((ciPref_iff_take q s).mp h).2

theorem patNoWS_suffix {q : List Char} (hq : patNoWS q = true) (n : Nat) :
    patNoWS (q.drop n) = true := by
  rw [patNoWS, List.all_eq_true]
  intro c hc
  exact List.all_eq_true.mp hq c ((List.drop_subset n q) hc)

theorem patNoWS_take {q : List Char} (hq : patNoWS q = true) (n : Nat) :
    patNoWS (q.take n) = true := by
  rw [patNoWS, List.all_eq_true]
  intro c hc
  exact List.all_eq_true.mp hq c ((List.take_subset n q) hc)

/-- A pattern with no space-like characters has no space in its upper image. -/
theorem patNoWS_no_space_upper {q : List Char} (hq : patNoWS q = true) :
    ' ' ∉ upperStr q := by
  intro hmem
  obtain ⟨c, hc, he⟩ := List.mem_map.mp hmem
  have := List.all_eq_true.mp hq c hc
  rw [he] at this
  rw [isPySpace_space] at this
  cases this

theorem InsSp_ne_mem_space : ∀ {x y : List Char}, InsSp x y → y ≠ x →
    ' ' ∈ y := by
  intro x y h
  induction h with
  | nil => intro h2; exact absurd rfl h2
  | keep c h2 ih =>
    intro h3
    exact List.mem_cons_of_mem c (ih (fun he => h3 (by rw [he])))
  | add h2 ih =>
    intro h3
    exact List.mem_cons_self _ _

/-- If the whole replacement is ci-covered by a space-free string, there
    were no insertions. -/
theorem rep_eq_pat_of_covered {pat rep q : List Char} (hins : InsSp pat rep)
    (hq : patNoWS q = true) (hcov : upperStr rep <+: upperStr q) :
    rep = pat := by
  by_cases h : rep = pat
  · exact h
  · exfalso
    have hsp : ' ' ∈ rep := InsSp_ne_mem_space hins (fun he => h he)
    have : ' ' ∈ upperStr rep := by
      have := List.mem_map_of_mem pyUpper hsp
      rwa [pyUpper_space] at this
    exact patNoWS_no_space_upper hq (hcov.subset this)

/- ============ ciReplaceF lemmas ============ -/

theorem take_eq_of_prefix_append {l u v : List Char} (h : l <+: u ++ v)
    (hle : u.length ≤ l.length) : l.take u.length = u := by
  obtain ⟨w, hw⟩ := h
  have h2 := congrArg (List.take u.length) hw
  rw [List.take_append_of_le_length hle, List.take_left] at h2
  exact h2

theorem drop_prefix_of_prefix_append {l u v : List Char} (h : l <+: u ++ v)
    (hle : u.length ≤ l.length) : l.drop u.length <+: v := by
  obtain ⟨w, hw⟩ := h
  have h2 := congrArg (List.drop u.length) hw
  rw [List.drop_append_of_le_length hle, List.drop_left] at h2
  exact ⟨w, h2⟩

theorem ciReplaceF_irrel (pat rep : List Char) (hp0 : pat ≠ []) :
    ∀ n f1 f2 s, s.length ≤ n → s.length ≤ f1 → s.length ≤ f2 →
      ciReplaceF pat rep f1 s = ciReplaceF pat rep f2 s := by
  intro n
  induction n with
  | zero =>
    intro f1 f2 s hs _ _
    have : s = [] := List.length_eq_zero.mp (Nat.le_zero.mp hs)
    subst this
    cases f1 <;> cases f2 <;> rfl
  | succ n ih =>
    intro f1 f2 s hs h1 h2
    cases s with
    | nil => cases f1 <;> cases f2 <;> rfl
    | cons c cs =>
      cases f1 with
      | zero => simp at h1
      | succ g1 =>
        cases f2 with
        | zero => simp at h2
        | succ g2 =>
          simp only [List.length_cons] at hs h1 h2
          simp only [ciReplaceF]
          by_cases hm : ciPref pat (c :: cs) = true
          · rw [if_pos hm, if_pos hm]
            have hlp : 1 ≤ pat.length := by
              cases pat with
              | nil => exact absurd rfl hp0
              | cons p ps => simp
            have hlen : ((c :: cs).drop pat.length).length ≤ cs.length := by
              simp only [List.length_drop, List.length_cons]
              omega
            rw [ih g1 g2 ((c :: cs).drop pat.length) (by omega) (by omega)
              (by omega)]
          · rw [if_neg hm, if_neg hm]
            rw [ih g1 g2 cs (by omega) (by omega) (by omega)]

theorem ciReplace_cons_match {pat rep : List Char} (hp0 : pat ≠ [])
    {c : Char} {cs : List Char} (hm : ciPref pat (c :: cs) = true) :
    ciReplace pat rep (c :: cs) =
      rep ++ ciReplace pat rep ((c :: cs).drop pat.length) := by
  unfold ciReplace
  simp only [List.length_cons, ciReplaceF, if_pos hm]
  have hlp : 1 ≤ pat.length := by
    cases pat with
    | nil => exact absurd rfl hp0
    | cons p ps => simp
  have hlen : ((c :: cs).drop pat.length).length ≤ cs.length := by
    simp only [List.length_drop, List.length_cons]
    omega
  rw [ciReplaceF_irrel pat rep hp0 (cs.length + 1) cs.length
    ((c :: cs).drop pat.length).length ((c :: cs).drop pat.length)
    (by omega) (by omega) (by omega)]

theorem ciReplace_cons_nomatch {pat rep : List Char} {c : Char}
    {cs : List Char} (hm : ciPref pat (c :: cs) = false) :
    ciReplace pat rep (c :: cs) = c :: ciReplace pat rep cs := by
  unfold ciReplace
  simp only [List.length_cons, ciReplaceF]
  rw [if_neg (show ¬ciPref pat (c :: cs) = true by
    rw [hm]; exact Bool.false_ne_true)]

/-- Reflection of space-free ci-prefixes through a literal substitution. -/
theorem ciReplaceF_ciPref_refl (pat rep : List Char) (hp0 : pat ≠ [])
    (hins : InsSp pat rep) :
    ∀ fuel s, s.length ≤ fuel → ∀ q, patNoWS q = true →
      ciPref q (ciReplaceF pat rep fuel s) = true → ciPref q s = true := by
  intro fuel
  induction fuel with
  | zero => intro s _ q _ h; exact h
  | succ fuel ih =>
    intro s hs q hq h
    cases s with
    | nil => exact h
    | cons c cs =>
      simp only [List.length_cons] at hs
      have hlp : 1 ≤ pat.length := by
        cases pat with
        | nil => exact absurd rfl hp0
        | cons p ps => simp
      by_cases hm : ciPref pat (c :: cs) = true
      · rw [show ciReplaceF pat rep (fuel + 1) (c :: cs) =
            rep ++ ciReplaceF pat rep fuel ((c :: cs).drop pat.length) by
          simp only [ciReplaceF, if_pos hm]] at h
        have hrest : ((c :: cs).drop pat.length).length ≤ fuel := by
          simp only [List.length_drop, List.length_cons]
          omega
        by_cases hlen : q.length ≤ rep.length
        · have h1 : ciPref q rep = true := ciPref_append_left h hlen
          have h2 : ciPref q pat = true := ciPref_of_InsSp_refl hq hins h1
          exact ciPref_trans_ciEqS h2 (ciPref_take_eqS hm)
        · push_neg at hlen
          rw [ciPref_iff_upper, upperStr_append] at h
          have hcov : upperStr rep <+: upperStr q := by
            apply List.prefix_of_prefix_length_le
              (( List.prefix_append (upperStr rep)
                (upperStr (ciReplaceF pat rep fuel ((c :: cs).drop pat.length)))))
              h
            rw [upperStr_length, upperStr_length]
            omega
          have hrp : rep = pat := rep_eq_pat_of_covered hins hq hcov
          subst hrp
          have hlen2 : rep.length ≤ q.length := by omega
          have hlenU : (upperStr rep).length ≤ (upperStr q).length := by
            rw [upperStr_length, upperStr_length]
            exact hlen2
          have htake : (upperStr q).take (upperStr rep).length = upperStr rep :=
            take_eq_of_prefix_append h hlenU
          have hdrop : (upperStr q).drop (upperStr rep).length <+:
              upperStr (ciReplaceF rep rep fuel ((c :: cs).drop rep.length)) :=
            drop_prefix_of_prefix_append h hlenU
          have hqd : ciPref (q.drop rep.length)
              (ciReplaceF rep rep fuel ((c :: cs).drop rep.length)) = true := by
            rw [ciPref_iff_upper]
            have he : upperStr (q.drop rep.length) =
                (upperStr q).drop (upperStr rep).length := by
              unfold upperStr
              rw [List.length_map, ← List.map_drop]
            rw [he]
            exact hdrop
          have h5 : ciPref (q.drop rep.length) ((c :: cs).drop rep.length) = true :=
            ih ((c :: cs).drop rep.length) hrest (q.drop rep.length)
              (patNoWS_suffix hq rep.length) hqd
          rw [ciPref_iff_upper]
          have hqsplit : upperStr q = upperStr rep ++
              upperStr (q.drop rep.length) := by
            have h6 : upperStr (q.take rep.length) =
                (upperStr q).take (upperStr rep).length := by
              unfold upperStr
              rw [List.length_map, ← List.map_take]
            conv_lhs => rw [← List.take_append_drop rep.length q]
            rw [upperStr_append, h6, htake]
          have hmU : upperStr ((c :: cs).take rep.length) = upperStr rep :=
            ciPref_take_eqS hm
          have hsplit : upperStr (c :: cs) = upperStr rep ++
              upperStr ((c :: cs).drop rep.length) := by
            conv_lhs => rw [← List.take_append_drop rep.length (c :: cs)]
            rw [upperStr_append, hmU]
          rw [hqsplit, hsplit]
          obtain ⟨w, hw⟩ := (ciPref_iff_upper _ _).mp h5
          exact ⟨w, by rw [List.append_assoc, hw]⟩
      · rw [show ciReplaceF pat rep (fuel + 1) (c :: cs) =
            c :: ciReplaceF pat rep fuel cs by
          simp only [ciReplaceF, if_neg hm]] at h
        cases q with
        | nil => rfl
        | cons a as =>
          simp only [ciPref, Bool.and_eq_true] at h ⊢
          have hq2 : patNoWS as = true := by
            simp only [patNoWS, List.all_cons, Bool.and_eq_true] at hq
            exact hq.2
          exact ⟨h.1, ih cs (by omega) as hq2 h.2⟩

/-- Substitution is the identity when the pattern does not occur. -/
theorem ciReplaceF_id (pat rep : List Char) :
    ∀ fuel s, containsCI pat s = false → ciReplaceF pat rep fuel s = s := by
  intro fuel
  induction fuel with
  | zero => intro s _; rfl
  | succ fuel ih =>
    intro s hno
    cases s with
    | nil => rfl
    | cons c cs =>
      simp only [containsCI, Bool.or_eq_false_iff] at hno
      simp only [ciReplaceF]
      rw [if_neg (show ¬ciPref pat (c :: cs) = true by
        rw [hno.1]; exact Bool.false_ne_true)]
      rw [ih cs hno.2]

theorem suffix_append_cases {t u v : List Char} (h : t <:+ u ++ v) :
    t <:+ v ∨ ∃ u', u' <:+ u ∧ u' ≠ [] ∧ t = u' ++ v := by
  induction u with
  | nil => exact Or.inl (by simpa using h)
  | cons a u₂ ih =>
    rw [List.cons_append] at h
    rcases List.suffix_cons_iff.mp h with rfl | h2
    · exact Or.inr ⟨a :: u₂, List.suffix_refl _, by simp, by rw [List.cons_append]⟩
    · rcases ih h2 with h3 | ⟨u', h4, h5, h6⟩
      · exact Or.inl h3
      · exact Or.inr ⟨u', h4.trans (List.suffix_cons a u₂), h5, h6⟩

/-- A LabelP input makes the trailing-space substitution a pure insertion. -/
theorem ciReplace_InsSp (pat : List Char) (hp0 : pat ≠ []) :
    ∀ fuel s, s.length ≤ fuel → LabelP pat s →
      InsSp s (ciReplaceF pat (pat ++ [' ']) fuel s) := by
  intro fuel
  induction fuel with
  | zero =>
    intro s hs _
    have : s = [] := List.length_eq_zero.mp (Nat.le_zero.mp hs)
    subst this
    exact InsSp.nil
  | succ fuel ih =>
    intro s hs hl
    cases s with
    | nil => exact InsSp.nil
    | cons c cs =>
      simp only [List.length_cons] at hs
      have hlp : 1 ≤ pat.length := by
        cases pat with
        | nil => exact absurd rfl hp0
        | cons p ps => simp
      by_cases hm : ciPref pat (c :: cs) = true
      · simp only [ciReplaceF, if_pos hm]
        obtain ⟨htake, -⟩ := hl (c :: cs) (List.suffix_refl _) hm
        have hdec : c :: cs = pat ++ (c :: cs).drop pat.length := by
          conv_lhs => rw [← List.take_append_drop pat.length (c :: cs)]
          rw [htake]
        have hrest : ((c :: cs).drop pat.length).length ≤ fuel := by
          simp only [List.length_drop, List.length_cons]
          omega
        have hlrest : LabelP pat ((c :: cs).drop pat.length) :=
          LabelP_suffix hl (List.drop_suffix _ _)
        have h2 := ih ((c :: cs).drop pat.length) hrest hlrest
        conv_lhs => rw [hdec]
        rw [List.append_assoc]
        exact InsSp_append_left pat (InsSp.add h2)
      · simp only [ciReplaceF, if_neg hm]
        exact InsSp.keep c (ih cs (by omega) (LabelP_suffix hl
          (List.suffix_cons c cs)))

theorem upperStr_take (l : List Char) (n : Nat) :
    upperStr (l.take n) = (upperStr l).take n := by
  unfold upperStr
  rw [← List.map_take]

theorem upperStr_drop (l : List Char) (n : Nat) :
    upperStr (l.drop n) = (upperStr l).drop n := by
  unfold upperStr
  rw [← List.map_drop]

theorem ne_space_of_not_ws {c : Char} (h : isPySpace c = false) : c ≠ ' ' := by
  intro h2
  rw [h2, isPySpace_space] at h
  cases h

theorem containsCI_append_cases {q u v : List Char}
    (h : containsCI q (u ++ v) = true) :
    containsCI q v = true ∨
      ∃ u', u' <:+ u ∧ u' ≠ [] ∧ ciPref q (u' ++ v) = true := by
  rw [containsCI_iff] at h
  obtain ⟨t, ht, hp⟩ := h
  rcases suffix_append_cases ht with h2 | ⟨u', h3, h4, rfl⟩
  · exact Or.inl ((containsCI_iff q v).mpr ⟨t, h2, hp⟩)
  · exact Or.inr ⟨u', h3, h4, hp⟩

theorem containsCI_self_of_ciPref {q t : List Char} (h : ciPref q t = true) :
    containsCI q t = true :=
  (containsCI_iff q t).mpr ⟨t, List.suffix_refl _, h⟩

/-- Occurrence reflection through a literal substitution whose replacement
    is the pattern with inserted spaces and does not itself contain the
    searched string. -/
theorem ciReplaceF_contains_refl (pat rep : List Char) (hp0 : pat ≠ [])
    (hins : InsSp pat rep) (q : List Char) (hq : patNoWS q = true)
    (hqrep : containsCI q rep = false) :
    ∀ fuel s, s.length ≤ fuel →
      containsCI q (ciReplaceF pat rep fuel s) = true →
      containsCI q s = true := by
  intro fuel
  induction fuel with
  | zero =>
    intro s hs h
    have : s = [] := List.length_eq_zero.mp (Nat.le_zero.mp hs)
    subst this
    exact h
  | succ fuel ih =>
    intro s hs h
    cases s with
    | nil => exact h
    | cons c cs =>
      simp only [List.length_cons] at hs
      have hlp : 1 ≤ pat.length := by
        cases pat with
        | nil => exact absurd rfl hp0
        | cons p ps => simp
      by_cases hm : ciPref pat (c :: cs) = true
      · rw [show ciReplaceF pat rep (fuel + 1) (c :: cs) =
            rep ++ ciReplaceF pat rep fuel ((c :: cs).drop pat.length) by
          simp only [ciReplaceF, if_pos hm]] at h
        have hrest : ((c :: cs).drop pat.length).length ≤ fuel := by
          simp only [List.length_drop, List.length_cons]
          omega
        rcases containsCI_append_cases h with h2 | ⟨u', hu1, hu2, hu3⟩
        · exact containsCI_mono_suffix (List.drop_suffix pat.length (c :: cs))
            (ih ((c :: cs).drop pat.length) hrest h2)
        · by_cases hlen : q.length ≤ u'.length
          · exfalso
            have h3 : ciPref q u' = true := ciPref_append_left hu3 hlen
            have h4 := containsCI_mono_suffix hu1 (containsCI_self_of_ciPref h3)
            rw [hqrep] at h4
            cases h4
          · push_neg at hlen
            rw [ciPref_iff_upper, upperStr_append] at hu3
            have hlenU : (upperStr u').length ≤ (upperStr q).length := by
              rw [upperStr_length, upperStr_length]
              omega
            have htakeU : (upperStr q).take (upperStr u').length = upperStr u' :=
              take_eq_of_prefix_append hu3 hlenU
            have hdropU : (upperStr q).drop (upperStr u').length <+:
                upperStr (ciReplaceF pat rep fuel ((c :: cs).drop pat.length)) :=
              drop_prefix_of_prefix_append hu3 hlenU
            have hciu : ciEqS u' (q.take u'.length) := by
              show upperStr u' = upperStr (q.take u'.length)
              rw [upperStr_take, ← htakeU, upperStr_length]
            have hu'ws : ∀ d ∈ u', isPySpace d = false :=
              noWS_of_ciEqS u' (q.take u'.length) (patNoWS_take hq u'.length) hciu
            have hu'pat : u' <:+ pat :=
              InsSp_suffix_refl hins
                (fun d hd => ne_space_of_not_ws (hu'ws d hd)) hu1
            have hqd : ciPref (q.drop u'.length)
                (ciReplaceF pat rep fuel ((c :: cs).drop pat.length)) = true := by
              rw [ciPref_iff_upper, upperStr_drop]
              rw [upperStr_length] at hdropU
              exact hdropU
            have h5 : ciPref (q.drop u'.length) ((c :: cs).drop pat.length) =
                true :=
              ciReplaceF_ciPref_refl pat rep hp0 hins fuel
                ((c :: cs).drop pat.length) hrest (q.drop u'.length)
                (patNoWS_suffix hq u'.length) hqd
            rw [← OccCI_iff_containsCI]
            obtain ⟨x, hx⟩ := hu'pat
            have hmtake : ciEqS ((c :: cs).take pat.length) pat :=
              ciPref_take_eqS hm
            have hxlen : x.length + u'.length = pat.length := by
              have := congrArg List.length hx
              simpa using this
            refine ⟨((c :: cs).take pat.length).drop x.length ++
              ((c :: cs).drop pat.length).take (q.length - u'.length), ?_, ?_⟩
            · refine ⟨((c :: cs).take pat.length).take x.length,
                ((c :: cs).drop pat.length).drop (q.length - u'.length), ?_⟩
              rw [List.append_assoc, List.append_assoc,
                List.take_append_drop, ← List.append_assoc,
                List.take_append_drop, List.take_append_drop]
            · show upperStr _ = upperStr q
              rw [upperStr_append]
              have he1 : upperStr (((c :: cs).take pat.length).drop x.length) =
                  upperStr (q.take u'.length) := by
                rw [upperStr_drop]
                have hm' : upperStr ((c :: cs).take pat.length) = upperStr pat :=
                  hmtake
                rw [hm']
                rw [← upperStr_drop]
                have hpdrop : pat.drop x.length = u' := by
                  rw [← hx, List.drop_left]
                rw [hpdrop]
                exact hciu
              have he2 : upperStr (((c :: cs).drop pat.length).take
                  (q.length - u'.length)) = upperStr (q.drop u'.length) := by
                have h6 : ciEqS (((c :: cs).drop pat.length).take
                    (q.drop u'.length).length) (q.drop u'.length) :=
                  ciPref_take_eqS h5
                have h7 : (q.drop u'.length).length = q.length - u'.length := by
                  simp
                rw [h7] at h6
                exact h6
              rw [he1, he2, ← upperStr_append, List.take_append_drop]
      · rw [show ciReplaceF pat rep (fuel + 1) (c :: cs) =
            c :: ciReplaceF pat rep fuel cs by
          simp only [ciReplaceF, if_neg hm]] at h
        simp only [containsCI, Bool.or_eq_true] at h ⊢
        rcases h with h2 | h2
        · exact Or.inl (ciReplaceF_ciPref_refl pat rep hp0 hins (fuel + 1)
            (c :: cs) (by simp; omega) q hq (by
              rw [show ciReplaceF pat rep (fuel + 1) (c :: cs) =
                  c :: ciReplaceF pat rep fuel cs by
                simp only [ciReplaceF, if_neg hm]]
              exact h2))
        · exact Or.inr (ih cs (by omega) h2)

theorem ciReplaceF_nil (pat rep : List Char) (fuel : Nat) :
    ciReplaceF pat rep fuel [] = [] := by
  cases fuel <;> rfl

theorem borderFreeCI_spec {pat : List Char} (hb : borderFreeCI pat = true)
    {L : Nat} (hL1 : L ≠ 0) (hL2 : L < pat.length) :
    upperStr (pat.take L) ≠ upperStr (pat.drop (pat.length - L)) := by
  have h := List.all_eq_true.mp hb L (List.mem_range.mpr hL2)
  simp only [Bool.or_eq_true, decide_eq_true_eq, Bool.not_eq_true',
    decide_eq_false_iff_not] at h
  rcases h with h | h
  · exact absurd h hL1
  · exact h

theorem LabelP_nil {pat : List Char} (hp0 : pat ≠ []) : LabelP pat [] := by
  intro t ht hpref
  rw [List.suffix_nil.mp ht] at hpref
  cases pat with
  | nil => exact absurd rfl hp0
  | cons p ps => simp [ciPref] at hpref

theorem InsSp_append_space : ∀ (x : List Char), InsSp x (x ++ [' ']) := by
  intro x
  induction x with
  | nil => exact InsSp.add InsSp.nil
  | cons c cs ih => exact InsSp.keep c ih

/-- After eliminating a border-free pattern nothing matches it any more. -/
theorem ciReplaceF_elim (pat rep : List Char) (hp0 : pat ≠ [])
    (hins : InsSp pat rep) (hq : patNoWS pat = true)
    (hrep : containsCI pat rep = false) (hb : borderFreeCI pat = true) :
    ∀ fuel s, s.length ≤ fuel →
      containsCI pat (ciReplaceF pat rep fuel s) = false := by
  intro fuel
  induction fuel with
  | zero =>
    intro s hs
    have : s = [] := List.length_eq_zero.mp (Nat.le_zero.mp hs)
    subst this
    cases pat with
    | nil => exact absurd rfl hp0
    | cons p ps => rfl
  | succ fuel ih =>
    intro s hs
    cases s with
    | nil =>
      cases pat with
      | nil => exact absurd rfl hp0
      | cons p ps => rfl
    | cons c cs =>
      simp only [List.length_cons] at hs
      have hlp : 1 ≤ pat.length := by
        cases pat with
        | nil => exact absurd rfl hp0
        | cons p ps => simp
      by_cases hm : ciPref pat (c :: cs) = true
      · rw [show ciReplaceF pat rep (fuel + 1) (c :: cs) =
            rep ++ ciReplaceF pat rep fuel ((c :: cs).drop pat.length) by
          simp only [ciReplaceF, if_pos hm]]
        have hrest : ((c :: cs).drop pat.length).length ≤ fuel := by
          simp only [List.length_drop, List.length_cons]
          omega
        cases hcon : containsCI pat (rep ++
            ciReplaceF pat rep fuel ((c :: cs).drop pat.length)) with
        | false => rfl
        | true =>
          exfalso
          rcases containsCI_append_cases hcon with h2 | ⟨u', hu1, hu2, hu3⟩
          · rw [ih ((c :: cs).drop pat.length) hrest] at h2
            cases h2
          · by_cases hlen : pat.length ≤ u'.length
            · have h3 : ciPref pat u' = true := ciPref_append_left hu3 hlen
              have h4 := containsCI_mono_suffix hu1
                (containsCI_self_of_ciPref h3)
              rw [hrep] at h4
              cases h4
            · push_neg at hlen
              rw [ciPref_iff_upper, upperStr_append] at hu3
              have hlenU : (upperStr u').length ≤ (upperStr pat).length := by
                rw [upperStr_length, upperStr_length]
                omega
              have htakeU : (upperStr pat).take (upperStr u').length =
                  upperStr u' := take_eq_of_prefix_append hu3 hlenU
              have hciu : ciEqS u' (pat.take u'.length) := by
                show upperStr u' = upperStr (pat.take u'.length)
                rw [upperStr_take, ← htakeU, upperStr_length]
              have hu'ws : ∀ d ∈ u', isPySpace d = false :=
                noWS_of_ciEqS u' (pat.take u'.length)
                  (patNoWS_take hq u'.length) hciu
              have hu'pat : u' <:+ pat :=
                InsSp_suffix_refl hins
                  (fun d hd => ne_space_of_not_ws (hu'ws d hd)) hu1
              obtain ⟨x, hx⟩ := hu'pat
              have hxlen : x.length + u'.length = pat.length := by
                have := congrArg List.length hx
                simpa using this
              have hL0 : u'.length ≠ 0 := by
                intro h5
                exact hu2 (List.length_eq_zero.mp h5)
              apply borderFreeCI_spec hb hL0 hlen
              have hpdrop : pat.drop (pat.length - u'.length) = u' := by
                have h6 : pat.length - u'.length = x.length := by omega
                rw [h6, ← hx, List.drop_left]
              rw [hpdrop]
              exact Eq.symm hciu
      · rw [show ciReplaceF pat rep (fuel + 1) (c :: cs) =
            c :: ciReplaceF pat rep fuel cs by
          simp only [ciReplaceF, if_neg hm]]
        simp only [containsCI, Bool.or_eq_false_iff]
        constructor
        · cases hpc : ciPref pat (c :: ciReplaceF pat rep fuel cs) with
          | false => rfl
          | true =>
            exfalso
            have h2 := ciReplaceF_ciPref_refl pat rep hp0 hins (fuel + 1)
              (c :: cs) (by simp only [List.length_cons]; omega) pat hq (by
                rw [show ciReplaceF pat rep (fuel + 1) (c :: cs) =
                    c :: ciReplaceF pat rep fuel cs by
                  simp only [ciReplaceF, if_neg hm]]
                exact hpc)
            exact hm h2
        · exact ih cs (by omega)

/-- The trailing-space substitution leaves every occurrence of its own
    pattern canonical and followed by a space or the end. -/
theorem ciReplaceF_LabelP_self (pat : List Char) (hp0 : pat ≠ [])
    (hq : patNoWS pat = true) :
    ∀ fuel s, s.length ≤ fuel →
      LabelP pat (ciReplaceF pat (pat ++ [' ']) fuel s) := by
  intro fuel
  induction fuel with
  | zero =>
    intro s hs
    have : s = [] := List.length_eq_zero.mp (Nat.le_zero.mp hs)
    subst this
    exact LabelP_nil hp0
  | succ fuel ih =>
    intro s hs
    cases s with
    | nil =>
      rw [ciReplaceF_nil]
      exact LabelP_nil hp0
    | cons c cs =>
      simp only [List.length_cons] at hs
      have hlp : 1 ≤ pat.length := by
        cases pat with
        | nil => exact absurd rfl hp0
        | cons p ps => simp
      by_cases hm : ciPref pat (c :: cs) = true
      · rw [show ciReplaceF pat (pat ++ [' ']) (fuel + 1) (c :: cs) =
            (pat ++ [' ']) ++ ciReplaceF pat (pat ++ [' ']) fuel
              ((c :: cs).drop pat.length) by
          simp only [ciReplaceF, if_pos hm]]
        rw [List.append_assoc]
        have hrest : ((c :: cs).drop pat.length).length ≤ fuel := by
          simp only [List.length_drop, List.length_cons]
          omega
        have hT := ih ((c :: cs).drop pat.length) hrest
        intro t ht hpref
        rcases suffix_append_cases ht with h2 | ⟨u', hu1, hu2, rfl⟩
        · rcases List.suffix_cons_iff.mp (by simpa using h2) with rfl | h3
          · exfalso
            cases pat with
            | nil => exact absurd rfl hp0
            | cons p ps =>
              simp only [ciPref, ciEqC_space_false (patNoWS_head hq),
                Bool.false_and] at hpref
              exact Bool.false_ne_true hpref
          · exact hT t h3 hpref
        · by_cases hfull : u'.length = pat.length
          · have hu'eq : u' = pat := List.IsSuffix.eq_of_length hu1 hfull
            subst hu'eq
            constructor
            · rw [List.take_append_of_le_length le_rfl, List.take_length]
            · rw [List.drop_append_of_le_length le_rfl, List.drop_length]
              exact Or.inr ⟨_, rfl⟩
          · exfalso
            have hlen : u'.length < pat.length := by
              have := hu1.length_le
              omega
            rw [ciPref_iff_upper] at hpref
            have hP : upperStr pat <+:
                (upperStr u' ++ [' ']) ++ upperStr (ciReplaceF pat
                  (pat ++ [' ']) fuel ((c :: cs).drop pat.length)) := by
              have he : upperStr (u' ++ ' ' :: ciReplaceF pat (pat ++ [' '])
                  fuel ((c :: cs).drop pat.length)) =
                  (upperStr u' ++ [' ']) ++ upperStr (ciReplaceF pat
                    (pat ++ [' ']) fuel ((c :: cs).drop pat.length)) := by
                simp [upperStr, pyUpper_space, List.append_assoc]
              rw [← he]
              exact hpref
            have hlenU : (upperStr u' ++ [' ']).length ≤
                (upperStr pat).length := by
              simp only [List.length_append, upperStr_length,
                List.length_singleton]
              omega
            have htakeU := take_eq_of_prefix_append hP hlenU
            have hsp : ' ' ∈ upperStr pat := by
              have h6 : ' ' ∈ (upperStr pat).take
                  (upperStr u' ++ [' ']).length := by
                rw [htakeU]
                exact List.mem_append_right _ (List.mem_singleton.mpr rfl)
              exact (List.take_subset _ _) h6
            exact patNoWS_no_space_upper hq hsp
      · rw [show ciReplaceF pat (pat ++ [' ']) (fuel + 1) (c :: cs) =
            c :: ciReplaceF pat (pat ++ [' ']) fuel cs by
          simp only [ciReplaceF, if_neg hm]]
        intro t ht hpref
        rcases List.suffix_cons_iff.mp ht with rfl | h3
        · exfalso
          have h2 := ciReplaceF_ciPref_refl pat (pat ++ [' ']) hp0
            (InsSp_append_space pat) (fuel + 1) (c :: cs)
            (by simp only [List.length_cons]; omega) pat hq (by
              rw [show ciReplaceF pat (pat ++ [' ']) (fuel + 1) (c :: cs) =
                  c :: ciReplaceF pat (pat ++ [' ']) fuel cs by
                simp only [ciReplaceF, if_neg hm]]
              exact hpref)
          exact hm h2
        · exact ih cs (by omega) t h3 hpref

theorem noOvl_spec {q pat : List Char} (h : noOvl q pat = true) {k : Nat}
    (h1 : k ≠ 0) (h2 : k < q.length) :
    ciPref (q.drop k) pat = false ∧ ciPref pat (q.drop k) = false := by
  have h3 := List.all_eq_true.mp h k (List.mem_range.mpr h2)
  simp only [Bool.or_eq_true, decide_eq_true_eq, Bool.not_eq_true',
    Bool.or_eq_false_iff] at h3
  rcases h3 with h4 | h4
  · exact absurd h4 h1
  · exact h4

theorem space_mem_suffix : ∀ (v u' : List Char), u' <:+ v ++ [' '] →
    u' ≠ [] → ' ' ∈ u' := by
  intro v
  induction v with
  | nil =>
    intro u' h hne
    rcases List.suffix_cons_iff.mp h with rfl | h2
    · exact List.mem_cons_self _ _
    · exact absurd (List.suffix_nil.mp h2) hne
  | cons a v' ih =>
    intro u' h hne
    rcases List.suffix_cons_iff.mp (by simpa using h) with rfl | h2
    · refine List.mem_cons_of_mem a ?_
      exact List.mem_append_right v' (List.mem_singleton.mpr rfl)
    · exact ih u' h2 hne

/-- Copy lemma: positions with no match are copied verbatim. -/
theorem ciReplaceF_copy (pat rep : List Char) :
    ∀ n fuel t, t.length ≤ fuel → n ≤ t.length →
      (∀ k, k < n → ciPref pat (t.drop k) = false) →
      ∃ fuel₂, (t.drop n).length ≤ fuel₂ ∧
        ciReplaceF pat rep fuel t =
          t.take n ++ ciReplaceF pat rep fuel₂ (t.drop n) := by
  intro n
  induction n with
  | zero =>
    intro fuel t hf _ _
    exact ⟨fuel, by simpa using hf, by simp⟩
  | succ n ih =>
    intro fuel t hf hn hk
    cases t with
    | nil => simp at hn
    | cons c cs =>
      cases fuel with
      | zero => simp at hf
      | succ fuel =>
        have h0 := hk 0 (Nat.succ_pos n)
        rw [List.drop_zero] at h0
        rw [show ciReplaceF pat rep (fuel + 1) (c :: cs) =
            c :: ciReplaceF pat rep fuel cs by
          simp only [ciReplaceF]
          rw [if_neg (show ¬ciPref pat (c :: cs) = true by
            rw [h0]; exact Bool.false_ne_true)]]
        simp only [List.length_cons] at hf hn
        obtain ⟨fuel₂, hf2, heq⟩ := ih fuel cs (by omega) (by omega)
          (fun k hk2 => hk (k + 1) (by omega))
        refine ⟨fuel₂, by simpa using hf2, ?_⟩
        rw [heq]
        rfl

/-- A canonical label survives an unrelated trailing-space substitution. -/
theorem ciReplaceF_LabelP_presv (pat rep q : List Char) (hp0 : pat ≠ [])
    (hq0 : q ≠ []) (hins : InsSp pat rep) (hqw : patNoWS q = true)
    (hpw : patNoWS pat = true) (rep' : List Char) (hrepend : rep = rep' ++ [' '])
    (hqrep : containsCI q rep = false) (hov : noOvl q pat = true) :
    ∀ fuel s, s.length ≤ fuel → LabelP q s →
      LabelP q (ciReplaceF pat rep fuel s) := by
  intro fuel
  induction fuel with
  | zero =>
    intro s hs _
    have : s = [] := List.length_eq_zero.mp (Nat.le_zero.mp hs)
    subst this
    exact LabelP_nil hq0
  | succ fuel ih =>
    intro s hs hl
    cases s with
    | nil =>
      rw [ciReplaceF_nil]
      exact LabelP_nil hq0
    | cons c cs =>
      simp only [List.length_cons] at hs
      have hlp : 1 ≤ pat.length := by
        cases pat with
        | nil => exact absurd rfl hp0
        | cons p ps => simp
      by_cases hm : ciPref pat (c :: cs) = true
      · rw [show ciReplaceF pat rep (fuel + 1) (c :: cs) =
            rep ++ ciReplaceF pat rep fuel ((c :: cs).drop pat.length) by
          simp only [ciReplaceF, if_pos hm]]
        have hrest : ((c :: cs).drop pat.length).length ≤ fuel := by
          simp only [List.length_drop, List.length_cons]
          omega
        have hT := ih ((c :: cs).drop pat.length) hrest
          (LabelP_suffix hl (List.drop_suffix _ _))
        intro t ht hpref
        rcases suffix_append_cases ht with h2 | ⟨u', hu1, hu2, rfl⟩
        · exact hT t h2 hpref
        · exfalso
          by_cases hlen : q.length ≤ u'.length
          · have h3 : ciPref q u' = true := ciPref_append_left hpref hlen
            have h4 := containsCI_mono_suffix hu1
              (containsCI_self_of_ciPref h3)
            rw [hqrep] at h4
            cases h4
          · push_neg at hlen
            rw [ciPref_iff_upper, upperStr_append] at hpref
            have hlenU : (upperStr u').length ≤ (upperStr q).length := by
              rw [upperStr_length, upperStr_length]
              omega
            have htakeU : (upperStr q).take (upperStr u').length =
                upperStr u' := take_eq_of_prefix_append hpref hlenU
            have hciu : ciEqS u' (q.take u'.length) := by
              show upperStr u' = upperStr (q.take u'.length)
              rw [upperStr_take, ← htakeU, upperStr_length]
            have hu'ws : ∀ d ∈ u', isPySpace d = false :=
              noWS_of_ciEqS u' (q.take u'.length)
                (patNoWS_take hqw u'.length) hciu
            have hsp : ' ' ∈ u' := by
              apply space_mem_suffix rep' u'
              · rw [← hrepend]
                exact hu1
              · exact hu2
            have := hu'ws ' ' hsp
            rw [isPySpace_space] at this
            cases this
      · rw [show ciReplaceF pat rep (fuel + 1) (c :: cs) =
            c :: ciReplaceF pat rep fuel cs by
          simp only [ciReplaceF, if_neg hm]]
        intro t ht hpref
        rcases List.suffix_cons_iff.mp ht with rfl | h3
        · have hqs : ciPref q (c :: cs) = true := by
            apply ciReplaceF_ciPref_refl pat rep hp0 hins (fuel + 1) (c :: cs)
              (by simp only [List.length_cons]; omega) q hqw
            rw [show ciReplaceF pat rep (fuel + 1) (c :: cs) =
                c :: ciReplaceF pat rep fuel cs by
              simp only [ciReplaceF, if_neg hm]]
            exact hpref
          obtain ⟨htake, hfol⟩ := hl (c :: cs) (List.suffix_refl _) hqs
          have hqle : q.length ≤ (c :: cs).length :=
            ((ciPref_iff_take q (c :: cs)).mp hqs).1
          have hdec : c :: cs = q ++ (c :: cs).drop q.length := by
            conv_lhs => rw [← List.take_append_drop q.length (c :: cs)]
            rw [htake]
          rcases hfol with hnil | ⟨z, hz⟩
          · -- the label ends the string
            have hlen : (c :: cs).length = q.length := by
              have := congrArg List.length hdec
              rw [List.length_append, hnil] at this
              simpa using this
            have hcopy := ciReplaceF_copy pat rep q.length (fuel + 1) (c :: cs)
              (by simp only [List.length_cons]; omega) hqle
              (fun k hk => by
                rcases Nat.eq_zero_or_pos k with rfl | hkpos
                · rw [List.drop_zero]
                  cases hmc : ciPref pat (c :: cs) with
                  | false => rfl
                  | true => exact absurd hmc hm
                · have hke : (c :: cs).drop k = q.drop k := by
                    conv_lhs => rw [hdec]
                    rw [List.drop_append_of_le_length (by omega), hnil,
                      List.append_nil]
                  rw [hke]
                  exact (noOvl_spec hov (by omega) hk).2)
            obtain ⟨fuel₂, -, heq⟩ := hcopy
            rw [show ciReplaceF pat rep (fuel + 1) (c :: cs) =
                c :: ciReplaceF pat rep fuel cs by
              simp only [ciReplaceF, if_neg hm]] at heq
            rw [heq, hnil, ciReplaceF_nil, List.append_nil, htake]
            exact ⟨by simp, Or.inl (by simp)⟩
          · -- the label is followed by a space
            have hzlen : q.length + 1 ≤ (c :: cs).length := by
              have := congrArg List.length hdec
              rw [List.length_append, hz] at this
              simp only [List.length_cons] at this ⊢
              omega
            have hcopy := ciReplaceF_copy pat rep (q.length + 1) (fuel + 1)
              (c :: cs) (by simp only [List.length_cons]; omega) hzlen
              (fun k hk => by
                rcases Nat.eq_zero_or_pos k with rfl | hkpos
                · rw [List.drop_zero]
                  cases hmc : ciPref pat (c :: cs) with
                  | false => rfl
                  | true => exact absurd hmc hm
                · by_cases hkq : k < q.length
                  · have hke : (c :: cs).drop k =
                        q.drop k ++ (c :: cs).drop q.length := by
                      conv_lhs => rw [hdec]
                      rw [List.drop_append_of_le_length (by omega)]
                    rw [hke]
                    cases hmc : ciPref pat (q.drop k ++
                        (c :: cs).drop q.length) with
                    | false => rfl
                    | true =>
                      exfalso
                      by_cases hpl : pat.length ≤ q.length - k
                      · have h5 : ciPref pat (q.drop k) = true :=
                          ciPref_append_left hmc (by
                            simp only [List.length_drop]
                            omega)
                        rw [(noOvl_spec hov (by omega) hkq).2] at h5
                        cases h5
                      · push_neg at hpl
                        rw [ciPref_iff_upper, upperStr_append] at hmc
                        have hlenU : (upperStr (q.drop k)).length ≤
                            (upperStr pat).length := by
                          simp only [upperStr_length, List.length_drop]
                          omega
                        have htU := take_eq_of_prefix_append hmc hlenU
                        have h6 : ciPref (q.drop k) pat = true := by
                          rw [ciPref_iff_upper]
                          rw [← htU]
                          have h7 : (upperStr (q.drop k)).length ≤
                              (upperStr pat).length := hlenU
                          exact List.take_prefix _ _
                        rw [(noOvl_spec hov (by omega) hkq).1] at h6
                        cases h6
                  · have hkeq : k = q.length := by omega
                    have hke : (c :: cs).drop k = ' ' :: z := by
                      rw [hkeq]
                      exact hz
                    rw [hke]
                    cases pat with
                    | nil => exact absurd rfl hp0
                    | cons p ps =>
                      simp only [ciPref,
                        ciEqC_space_false (patNoWS_head hpw), Bool.false_and])
            obtain ⟨fuel₂, -, heq⟩ := hcopy
            rw [show ciReplaceF pat rep (fuel + 1) (c :: cs) =
                c :: ciReplaceF pat rep fuel cs by
              simp only [ciReplaceF, if_neg hm]] at heq
            have htk : (c :: cs).take (q.length + 1) = q ++ [' '] := by
              conv_lhs => rw [hdec]
              rw [List.take_append_eq_append_take]
              have h8 : (List.take (q.length + 1) q) = q :=
                List.take_of_length_le (by omega)
              rw [h8, hz]
              have h9 : q.length + 1 - q.length = 1 := by omega
              rw [h9]
              rfl
            rw [heq, htk, List.append_assoc]
            refine ⟨?_, Or.inr
              ⟨ciReplaceF pat rep fuel₂ ((c :: cs).drop (q.length + 1)), ?_⟩⟩
            · rw [List.take_append_of_le_length (by omega),
                List.take_of_length_le le_rfl]
            · rw [List.drop_append_of_le_length (by omega),
                List.drop_of_length_le le_rfl]
              rfl
        · exact ih cs (by omega) (LabelP_suffix hl (List.suffix_cons c cs))
            t h3 hpref

theorem words_cons_congr (c : Char) {X Y : List Char}
    (hw : wordsOf X = wordsOf Y) (hh : X.head? = Y.head?) :
    wordsOf (c :: X) = wordsOf (c :: Y) := by
  cases hc : isPySpace c with
  | true => rw [wordsOf_cons_ws X hc, wordsOf_cons_ws Y hc, hw]
  | false =>
    rw [wordsOf_cons_nonws X hc, wordsOf_cons_nonws Y hc]
    cases X with
    | nil =>
      cases Y with
      | nil => rfl
      | cons b Y' => cases hh
    | cons a X' =>
      cases Y with
      | nil => cases hh
      | cons b Y' =>
        have hab : a = b := by simpa using hh
        subst hab
        cases ha : isPySpace a with
        | true =>
          rw [List.takeWhile_cons_of_neg (by simp [ha]),
            List.takeWhile_cons_of_neg (by simp [ha]),
            List.dropWhile_cons_of_neg (by simp [ha]),
            List.dropWhile_cons_of_neg (by simp [ha])]
          rw [hw]
        | false =>
          rw [wordsOf_cons_nonws X' ha, wordsOf_cons_nonws Y' ha] at hw
          obtain ⟨h1, h2⟩ := List.cons_eq_cons.mp hw
          have h3 : X'.takeWhile (fun d => !isPySpace d) =
              Y'.takeWhile (fun d => !isPySpace d) := by
            have := congrArg (List.drop 1) h1
            simpa using this
          rw [List.takeWhile_cons_of_pos (by simp [ha]),
            List.takeWhile_cons_of_pos (by simp [ha]),
            List.dropWhile_cons_of_pos (by simp [ha]),
            List.dropWhile_cons_of_pos (by simp [ha]), h3, h2]

/-- The trailing-space substitution preserves the word decomposition. -/
theorem ciReplaceF_words (pat : List Char) (hp0 : pat ≠ [])
    (hpw : patNoWS pat = true) :
    ∀ fuel s, s.length ≤ fuel → LabelP pat s →
      wordsOf (ciReplaceF pat (pat ++ [' ']) fuel s) = wordsOf s ∧
      (ciReplaceF pat (pat ++ [' ']) fuel s).head? = s.head? := by
  intro fuel
  induction fuel with
  | zero =>
    intro s hs _
    have : s = [] := List.length_eq_zero.mp (Nat.le_zero.mp hs)
    subst this
    exact ⟨rfl, rfl⟩
  | succ fuel ih =>
    intro s hs hl
    cases s with
    | nil => exact ⟨by rw [ciReplaceF_nil], by rw [ciReplaceF_nil]⟩
    | cons c cs =>
      simp only [List.length_cons] at hs
      have hlp : 1 ≤ pat.length := by
        cases pat with
        | nil => exact absurd rfl hp0
        | cons p ps => simp
      by_cases hm : ciPref pat (c :: cs) = true
      · rw [show ciReplaceF pat (pat ++ [' ']) (fuel + 1) (c :: cs) =
            (pat ++ [' ']) ++ ciReplaceF pat (pat ++ [' ']) fuel
              ((c :: cs).drop pat.length) by
          simp only [ciReplaceF, if_pos hm]]
        obtain ⟨htake, hfol⟩ := hl (c :: cs) (List.suffix_refl _) hm
        have hqle : pat.length ≤ (c :: cs).length :=
          ((ciPref_iff_take pat (c :: cs)).mp hm).1
        have hdec : c :: cs = pat ++ (c :: cs).drop pat.length := by
          conv_lhs => rw [← List.take_append_drop pat.length (c :: cs)]
          rw [htake]
        have hrest : ((c :: cs).drop pat.length).length ≤ fuel := by
          simp only [List.length_drop, List.length_cons]
          omega
        obtain ⟨hwT, hhT⟩ := ih ((c :: cs).drop pat.length) hrest
          (LabelP_suffix hl (List.drop_suffix _ _))
        have hpatws : ∀ d ∈ pat, isPySpace d = false := patNoWS_no_ws hpw
        constructor
        · rw [List.append_assoc]
          show wordsOf (pat ++ ' ' :: ciReplaceF pat (pat ++ [' ']) fuel
            ((c :: cs).drop pat.length)) = wordsOf (c :: cs)
          rw [wordsOf_word_append pat
            (' ' :: ciReplaceF pat (pat ++ [' ']) fuel
              ((c :: cs).drop pat.length)) hpatws hp0
            (Or.inr ⟨' ', _, rfl, isPySpace_space⟩)]
          rw [wordsOf_cons_ws _ isPySpace_space, hwT]
          conv_rhs => rw [hdec]
          rcases hfol with hnil | ⟨z, hz⟩
          · rw [hnil, wordsOf_nil]
            rw [wordsOf_word_append pat [] hpatws hp0 (Or.inl rfl)]
            rw [wordsOf_nil]
          · rw [wordsOf_word_append pat ((c :: cs).drop pat.length) hpatws hp0
              (Or.inr ⟨' ', z, hz, isPySpace_space⟩)]
        · cases pat with
          | nil => exact absurd rfl hp0
          | cons p ps =>
            have : c = p := by
              have := congrArg List.head? hdec
              simpa using this
            rw [this]
            rfl
      · rw [show ciReplaceF pat (pat ++ [' ']) (fuel + 1) (c :: cs) =
            c :: ciReplaceF pat (pat ++ [' ']) fuel cs by
          simp only [ciReplaceF, if_neg hm]]
        obtain ⟨hw2, hh2⟩ := ih cs (by omega)
          (LabelP_suffix hl (List.suffix_cons c cs))
        exact ⟨words_cons_congr c hw2 hh2, by rfl⟩

/- ============ character class facts ============ -/

theorem isDigitC_not_ws {c : Char} (h : isDigitC c = true) :
    isPySpace c = false := by
  simp only [isDigitC, decide_eq_true_eq] at h
  simp only [isPySpace, decide_eq_false_iff_not]
  omega

theorem isCyrUpper_not_ws {c : Char} (h : isCyrUpper c = true) :
    isPySpace c = false := by
  simp only [isCyrUpper, decide_eq_true_eq] at h
  simp only [isPySpace, decide_eq_false_iff_not]
  omega

theorem isCyrLower_not_ws {c : Char} (h : isCyrLower c = true) :
    isPySpace c = false := by
  simp only [isCyrLower, decide_eq_true_eq] at h
  simp only [isPySpace, decide_eq_false_iff_not]
  omega

theorem isCyrUpper_not_digit {c : Char} (h : isCyrUpper c = true) :
    isDigitC c = false := by
  simp only [isCyrUpper, decide_eq_true_eq] at h
  simp only [isDigitC, decide_eq_false_iff_not]
  omega

theorem isCyrUpper_not_lower {c : Char} (h : isCyrUpper c = true) :
    isCyrLower c = false := by
  simp only [isCyrUpper, decide_eq_true_eq] at h
  simp only [isCyrLower, decide_eq_false_iff_not]
  omega

theorem isDigitC_not_upper {c : Char} (h : isDigitC c = true) :
    isCyrUpper c = false := by
  simp only [isDigitC, decide_eq_true_eq] at h
  simp only [isCyrUpper, decide_eq_false_iff_not]
  omega

theorem space_not_upper : isCyrUpper ' ' = false := by decide

theorem space_not_lower : isCyrLower ' ' = false := by decide

theorem space_not_digit : isDigitC ' ' = false := by decide

/- ============ prefix and infix decomposition ============ -/

theorem prefix_append_cases {w u v : List Char} (h : w <+: u ++ v) :
    w <+: u ∨ ∃ w2, w2 <+: v ∧ w = u ++ w2 := by
  by_cases hlen : w.length ≤ u.length
  · left
    obtain ⟨t, ht⟩ := h
    have h2 := congrArg (List.take w.length) ht
    rw [List.take_append_of_le_length le_rfl, List.take_length,
      List.take_append_of_le_length hlen] at h2
    rw [h2]
    exact List.take_prefix _ _
  · push_neg at hlen
    right
    refine ⟨w.drop u.length, ?_, ?_⟩
    · obtain ⟨t, ht⟩ := h
      have h2 := congrArg (List.drop u.length) ht
      rw [List.drop_append_of_le_length (by omega), List.drop_left] at h2
      exact ⟨t, h2⟩
    · obtain ⟨t, ht⟩ := h
      have h2 := congrArg (List.take u.length) ht
      rw [List.take_append_of_le_length (by omega), List.take_left] at h2
      conv_lhs => rw [← List.take_append_drop u.length w]
      rw [h2]

theorem infix_append_cases {w u v : List Char} (h : w <:+: u ++ v) :
    w <:+: u ∨ w <:+: v ∨
      ∃ w1 w2, w = w1 ++ w2 ∧ w1 ≠ [] ∧ w2 ≠ [] ∧ w1 <:+ u ∧ w2 <+: v := by
  obtain ⟨t, ht, hw⟩ := List.infix_iff_prefix_suffix.mp h
  rcases suffix_append_cases hw with h2 | ⟨u', hu1, hu2, rfl⟩
  · exact Or.inr (Or.inl (ht.isInfix.trans h2.isInfix))
  · rcases prefix_append_cases ht with h3 | ⟨w2, h4, rfl⟩
    · exact Or.inl (h3.isInfix.trans hu1.isInfix)
    · by_cases hu'nil : u' = []
      · subst hu'nil
        exact Or.inr (Or.inl (by simpa using h4.isInfix))
      · by_cases hw2nil : w2 = []
        · subst hw2nil
          rw [List.append_nil]
          exact Or.inl hu1.isInfix
        · exact Or.inr (Or.inr ⟨u', w2, rfl, hu'nil, hw2nil, hu1, h4⟩)

theorem quad_split_cases {w1 w2 : List Char} {a b c d : Char}
    (h : w1 ++ w2 = [a, b, c, d]) (h1 : w1 ≠ []) (h2 : w2 ≠ []) :
    (w1 = [a] ∧ w2 = [b, c, d]) ∨ (w1 = [a, b] ∧ w2 = [c, d]) ∨
      (w1 = [a, b, c] ∧ w2 = [d]) := by
  cases w1 with
  | nil => exact absurd rfl h1
  | cons x1 r1 =>
    cases r1 with
    | nil =>
      simp only [List.cons_append, List.nil_append, List.cons.injEq] at h
      exact Or.inl ⟨by rw [h.1], h.2⟩
    | cons x2 r2 =>
      cases r2 with
      | nil =>
        simp only [List.cons_append, List.nil_append, List.cons.injEq] at h
        exact Or.inr (Or.inl ⟨by rw [h.1, h.2.1], h.2.2⟩)
      | cons x3 r3 =>
        cases r3 with
        | nil =>
          simp only [List.cons_append, List.nil_append, List.cons.injEq] at h
          exact Or.inr (Or.inr ⟨by rw [h.1, h.2.1, h.2.2.1], h.2.2.2⟩)
        | cons x4 r4 =>
          cases r4 with
          | nil =>
            simp only [List.cons_append, List.nil_append, List.cons.injEq] at h
            exact absurd h.2.2.2.2 h2
          | cons x5 r5 =>
            have h4 := congrArg List.length h
            simp only [List.length_append, List.length_cons,
              List.length_nil] at h4
            have h3 := List.length_pos.mpr h2
            omega

/- ============ insertion reflections for verbatim patterns ============ -/

theorem InsSp_prefix_refl : ∀ {x y w : List Char}, InsSp x y →
    (∀ c ∈ w, c ≠ ' ') → w <+: y → w <+: x := by
  intro x y w h
  induction h generalizing w with
  | nil =>
    intro _ hw
    rw [List.prefix_nil.mp hw]
  | keep c h2 ih =>
    intro hw hp
    cases w with
    | nil => exact List.nil_prefix
    | cons b w₂ =>
      obtain ⟨rfl, h3⟩ := List.cons_prefix_cons.mp hp
      exact List.cons_prefix_cons.mpr
        ⟨rfl, ih (fun d hd => hw d (List.mem_cons_of_mem b hd)) h3⟩
  | add h2 ih =>
    intro hw hp
    cases w with
    | nil => exact List.nil_prefix
    | cons b w₂ =>
      obtain ⟨rfl, -⟩ := List.cons_prefix_cons.mp hp
      exact absurd rfl (hw ' ' (List.mem_cons_self _ _))

theorem InsSp_infix_refl : ∀ {x y w : List Char}, InsSp x y →
    (∀ c ∈ w, c ≠ ' ') → w <:+: y → w <:+: x := by
  intro x y w h
  induction h generalizing w with
  | nil =>
    intro _ hw
    rw [List.infix_nil.mp hw]
  | keep c h2 ih =>
    intro hw hp
    rcases List.infix_cons_iff.mp hp with h3 | h3
    · cases w with
      | nil => exact List.nil_infix
      | cons b w₂ =>
        obtain ⟨rfl, h4⟩ := List.cons_prefix_cons.mp h3
        have h5 := InsSp_prefix_refl h2
          (fun d hd => hw d (List.mem_cons_of_mem b hd)) h4
        exact (List.cons_prefix_cons.mpr ⟨rfl, h5⟩).isInfix
    · exact (ih hw h3).trans (List.suffix_cons c _).isInfix
  | add h2 ih =>
    intro hw hp
    rcases List.infix_cons_iff.mp hp with h3 | h3
    · cases w with
      | nil => exact List.nil_infix
      | cons b w₂ =>
        obtain ⟨rfl, -⟩ := List.cons_prefix_cons.mp h3
        exact absurd rfl (hw ' ' (List.mem_cons_self _ _))
    · exact ih hw h3

/- ============ splitLU lemmas ============ -/

theorem InsSp_splitLU : ∀ n (s : List Char), s.length ≤ n →
    InsSp s (splitLU s) := by
  intro n
  induction n with
  | zero =>
    intro s hs
    rw [List.length_eq_zero.mp (Nat.le_zero.mp hs)]
    exact InsSp.nil
  | succ n ih =>
    intro s hs
    match s with
    | [] => exact InsSp.nil
    | [c] => exact InsSp.refl [c]
    | a :: b :: rest =>
      simp only [List.length_cons] at hs
      by_cases hm : (isCyrLower a && isCyrUpper b) = true
      · rw [show splitLU (a :: b :: rest) = a :: ' ' :: b :: splitLU rest by
          rw [splitLU, if_pos hm]]
        exact InsSp.keep a (InsSp.add (InsSp.keep b (ih rest (by omega))))
      · rw [show splitLU (a :: b :: rest) = a :: splitLU (b :: rest) by
          rw [splitLU, if_neg hm]]
        exact InsSp.keep a (ih (b :: rest)
          (by simp only [List.length_cons]; omega))

theorem splitLU_head : ∀ (s : List Char), (splitLU s).head? = s.head? := by
  intro s
  match s with
  | [] => rfl
  | [c] => rfl
  | a :: b :: rest =>
    by_cases hm : (isCyrLower a && isCyrUpper b) = true
    · rw [show splitLU (a :: b :: rest) = a :: ' ' :: b :: splitLU rest by
        rw [splitLU, if_pos hm]]
      rfl
    · rw [show splitLU (a :: b :: rest) = a :: splitLU (b :: rest) by
        rw [splitLU, if_neg hm]]
      rfl

theorem splitLU_no_LU : ∀ n (s : List Char), s.length ≤ n →
    ¬HasLU (splitLU s) := by
  intro n
  induction n with
  | zero =>
    intro s hs h
    rw [List.length_eq_zero.mp (Nat.le_zero.mp hs)] at h
    obtain ⟨a, b, -, -, hinf⟩ := h
    have := hinf.length_le
    simp [splitLU] at this
  | succ n ih =>
    intro s hs h
    match s with
    | [] =>
      obtain ⟨a, b, -, -, hinf⟩ := h
      have := hinf.length_le
      simp [splitLU] at this
    | [c] =>
      obtain ⟨a, b, -, -, hinf⟩ := h
      have := hinf.length_le
      simp [splitLU] at this
    | a :: b :: rest =>
      simp only [List.length_cons] at hs
      by_cases hm : (isCyrLower a && isCyrUpper b) = true
      · rw [show splitLU (a :: b :: rest) = a :: ' ' :: b :: splitLU rest by
          rw [splitLU, if_pos hm]] at h
        simp only [Bool.and_eq_true] at hm
        obtain ⟨x, y, hx, hy, hinf⟩ := h
        rcases List.infix_cons_iff.mp hinf with h2 | h2
        · obtain ⟨rfl, h3⟩ := List.cons_prefix_cons.mp h2
          obtain ⟨rfl, -⟩ := List.cons_prefix_cons.mp h3
          rw [space_not_upper] at hy
          cases hy
        · rcases List.infix_cons_iff.mp h2 with h3 | h3
          · obtain ⟨rfl, -⟩ := List.cons_prefix_cons.mp h3
            rw [space_not_lower] at hx
            cases hx
          · rcases List.infix_cons_iff.mp h3 with h4 | h4
            · obtain ⟨rfl, -⟩ := List.cons_prefix_cons.mp h4
              rw [isCyrUpper_not_lower hm.2] at hx
              cases hx
            · exact ih rest (by omega) ⟨x, y, hx, hy, h4⟩
      · rw [show splitLU (a :: b :: rest) = a :: splitLU (b :: rest) by
          rw [splitLU, if_neg hm]] at h
        obtain ⟨x, y, hx, hy, hinf⟩ := h
        rcases List.infix_cons_iff.mp hinf with h2 | h2
        · obtain ⟨hxa, h3⟩ := List.cons_prefix_cons.mp h2
          cases hb : splitLU (b :: rest) with
          | nil =>
            rw [hb] at h3
            have := h3.length_le
            simp at this
          | cons z zs =>
            rw [hb] at h3
            obtain ⟨hyz, -⟩ := List.cons_prefix_cons.mp h3
            have hzb : (splitLU (b :: rest)).head? = some b :=
              splitLU_head (b :: rest)
            rw [hb] at hzb
            have hzb2 : z = b := by simpa using hzb
            apply hm
            rw [← hxa, ← hzb2, ← hyz, hx, hy]
            rfl
        · exact ih (b :: rest) (by simp only [List.length_cons]; omega)
            ⟨x, y, hx, hy, h2⟩

theorem splitLU_id : ∀ n (s : List Char), s.length ≤ n → ¬HasLU s →
    splitLU s = s := by
  intro n
  induction n with
  | zero =>
    intro s hs _
    rw [List.length_eq_zero.mp (Nat.le_zero.mp hs)]
    rfl
  | succ n ih =>
    intro s hs hno
    match s with
    | [] => rfl
    | [c] => rfl
    | a :: b :: rest =>
      simp only [List.length_cons] at hs
      by_cases hm : (isCyrLower a && isCyrUpper b) = true
      · exfalso
        simp only [Bool.and_eq_true] at hm
        exact hno ⟨a, b, hm.1, hm.2, ⟨[], rest, rfl⟩⟩
      · rw [show splitLU (a :: b :: rest) = a :: splitLU (b :: rest) by
          rw [splitLU, if_neg hm]]
        rw [ih (b :: rest) (by simp only [List.length_cons]; omega) (fun h2 => by
          obtain ⟨x, y, hx, hy, hinf⟩ := h2
          exact hno ⟨x, y, hx, hy,
            hinf.trans (List.suffix_cons a (b :: rest)).isInfix⟩)]

/- ============ splitDA and splitDB equations ============ -/

theorem splitDA_nil (fuel : Nat) (prev : Bool) : splitDA fuel prev [] = [] := by
  cases fuel <;> rfl

theorem splitDA_nondigit (fuel : Nat) (prev : Bool) {c : Char} (cs : List Char)
    (hc : isDigitC c = false) :
    splitDA (fuel + 1) prev (c :: cs) = c :: splitDA fuel false cs := by
  simp only [splitDA]
  rw [if_neg (show ¬isDigitC c = true by rw [hc]; exact Bool.false_ne_true)]

theorem splitDA_digit_prev (fuel : Nat) {c : Char} (cs : List Char)
    (hc : isDigitC c = true) :
    splitDA (fuel + 1) true (c :: cs) = c :: splitDA fuel true cs := by
  simp only [splitDA]
  rw [if_pos hc]
  rfl

theorem splitDA_run_nil (fuel : Nat) {c : Char} (cs : List Char)
    (hc : isDigitC c = true) (hdw : (c :: cs).dropWhile isDigitC = []) :
    splitDA (fuel + 1) false (c :: cs) = (c :: cs).takeWhile isDigitC := by
  simp only [splitDA]
  rw [if_pos hc]
  simp only [Bool.false_eq_true, if_false, hdw]

theorem splitDA_run_split (fuel : Nat) {c d : Char} (cs ds : List Char)
    (hc : isDigitC c = true) (hdw : (c :: cs).dropWhile isDigitC = d :: ds)
    (hcond : (3 ≤ ((c :: cs).takeWhile isDigitC).length && isCyrUpper d)
      = true) :
    splitDA (fuel + 1) false (c :: cs) =
      (c :: cs).takeWhile isDigitC ++ ' ' :: d :: splitDA fuel false ds := by
  simp only [splitDA]
  rw [if_pos hc]
  simp only [Bool.false_eq_true, if_false, hdw]
  rw [if_pos hcond]

theorem splitDA_run_nosplit (fuel : Nat) {c d : Char} (cs ds : List Char)
    (hc : isDigitC c = true) (hdw : (c :: cs).dropWhile isDigitC = d :: ds)
    (hcond : (3 ≤ ((c :: cs).takeWhile isDigitC).length && isCyrUpper d)
      = false) :
    splitDA (fuel + 1) false (c :: cs) =
      (c :: cs).takeWhile isDigitC ++ splitDA fuel true (d :: ds) := by
  simp only [splitDA]
  rw [if_pos hc]
  simp only [Bool.false_eq_true, if_false, hdw]
  rw [if_neg (show ¬(3 ≤ ((c :: cs).takeWhile isDigitC).length &&
    isCyrUpper d) = true by rw [hcond]; exact Bool.false_ne_true)]

theorem splitDB_nil (fuel : Nat) : splitDB fuel [] = [] := by
  cases fuel <;> rfl

theorem splitDB_match (fuel : Nat) {c : Char} (cs : List Char)
    (hcond : (isCyrUpper c && 3 ≤ (cs.takeWhile isDigitC).length) = true) :
    splitDB (fuel + 1) (c :: cs) = c :: ' ' ::
      (cs.takeWhile isDigitC ++ splitDB fuel (cs.dropWhile isDigitC)) := by
  simp only [splitDB]
  rw [if_pos hcond]

theorem splitDB_nomatch (fuel : Nat) {c : Char} (cs : List Char)
    (hcond : (isCyrUpper c && 3 ≤ (cs.takeWhile isDigitC).length) = false) :
    splitDB (fuel + 1) (c :: cs) = c :: splitDB fuel cs := by
  simp only [splitDB]
  rw [if_neg (show ¬(isCyrUpper c && 3 ≤ (cs.takeWhile isDigitC).length)
    = true by rw [hcond]; exact Bool.false_ne_true)]

theorem takeWhile_digit_head {c : Char} (cs : List Char)
    (hc : isDigitC c = true) :
    (c :: cs).takeWhile isDigitC = c :: cs.takeWhile isDigitC :=
  List.takeWhile_cons_of_pos hc

theorem InsSp_splitDA : ∀ fuel (prev : Bool) (s : List Char),
    InsSp s (splitDA fuel prev s) := by
  intro fuel
  induction fuel with
  | zero => intro prev s; exact InsSp.refl s
  | succ fuel ih =>
    intro prev s
    cases s with
    | nil => rw [splitDA_nil]; exact InsSp.nil
    | cons c cs =>
      cases hc : isDigitC c with
      | false =>
        rw [splitDA_nondigit fuel prev cs hc]
        exact InsSp.keep c (ih false cs)
      | true =>
        cases prev with
        | true =>
          rw [splitDA_digit_prev fuel cs hc]
          exact InsSp.keep c (ih true cs)
        | false =>
          rcases dropWhile_head_cases isDigitC (c :: cs) with hdw | ⟨d, ds, hdw, hd⟩
          · rw [splitDA_run_nil fuel cs hc hdw]
            conv_lhs => rw [← List.takeWhile_append_dropWhile isDigitC (c :: cs)]
            rw [hdw, List.append_nil]
            exact InsSp.refl _
          · cases hcond : (3 ≤ ((c :: cs).takeWhile isDigitC).length &&
                isCyrUpper d) with
            | true =>
              rw [splitDA_run_split fuel cs ds hc hdw hcond]
              conv_lhs =>
                rw [← List.takeWhile_append_dropWhile isDigitC (c :: cs)]
              rw [hdw]
              exact InsSp_append_left _ (InsSp.add (InsSp.keep d (ih false ds)))
            | false =>
              rw [splitDA_run_nosplit fuel cs ds hc hdw hcond]
              conv_lhs =>
                rw [← List.takeWhile_append_dropWhile isDigitC (c :: cs)]
              rw [hdw]
              exact InsSp_append_left _ (ih true (d :: ds))

theorem InsSp_splitDB : ∀ fuel (s : List Char), InsSp s (splitDB fuel s) := by
  intro fuel
  induction fuel with
  | zero => intro s; exact InsSp.refl s
  | succ fuel ih =>
    intro s
    cases s with
    | nil => rw [splitDB_nil]; exact InsSp.nil
    | cons c cs =>
      cases hcond : (isCyrUpper c && 3 ≤ (cs.takeWhile isDigitC).length) with
      | true =>
        rw [splitDB_match fuel cs hcond]
        refine InsSp.keep c (InsSp.add ?_)
        conv_lhs => rw [← List.takeWhile_append_dropWhile isDigitC cs]
        exact InsSp_append_left _ (ih (cs.dropWhile isDigitC))
      | false =>
        rw [splitDB_nomatch fuel cs hcond]
        exact InsSp.keep c (ih cs)

theorem splitDA_head : ∀ fuel (prev : Bool) (s : List Char),
    (splitDA fuel prev s).head? = s.head? := by
  intro fuel
  induction fuel with
  | zero => intro prev s; rfl
  | succ fuel ih =>
    intro prev s
    cases s with
    | nil => rw [splitDA_nil]
    | cons c cs =>
      cases hc : isDigitC c with
      | false => rw [splitDA_nondigit fuel prev cs hc]; rfl
      | true =>
        cases prev with
        | true => rw [splitDA_digit_prev fuel cs hc]; rfl
        | false =>
          rcases dropWhile_head_cases isDigitC (c :: cs) with hdw | ⟨d, ds, hdw, hd⟩
          · rw [splitDA_run_nil fuel cs hc hdw, takeWhile_digit_head cs hc]
            rfl
          · cases hcond : (3 ≤ ((c :: cs).takeWhile isDigitC).length &&
                isCyrUpper d) with
            | true =>
              rw [splitDA_run_split fuel cs ds hc hdw hcond,
                takeWhile_digit_head cs hc]
              rfl
            | false =>
              rw [splitDA_run_nosplit fuel cs ds hc hdw hcond,
                takeWhile_digit_head cs hc]
              rfl

theorem digit_prefix_le_takeWhile : ∀ (ds cs : List Char),
    (∀ d ∈ ds, isDigitC d = true) → ds <+: cs →
    ds.length ≤ (cs.takeWhile isDigitC).length := by
  intro ds
  induction ds with
  | nil => intro cs _ _; simp
  | cons e es ih =>
    intro cs hall hp
    cases cs with
    | nil => simp at hp
    | cons c cs' =>
      obtain ⟨rfl, h2⟩ := List.cons_prefix_cons.mp hp
      rw [List.takeWhile_cons_of_pos (hall e (List.mem_cons_self _ _))]
      simp only [List.length_cons, Nat.succ_le_succ_iff]
      exact ih cs' (fun d hd => hall d (List.mem_cons_of_mem e hd)) h2

theorem splitDB_digit_prefix : ∀ fuel (cs ds : List Char),
    (∀ d ∈ ds, isDigitC d = true) → ds <+: splitDB fuel cs → ds <+: cs := by
  intro fuel
  induction fuel with
  | zero => intro cs ds _ h; exact h
  | succ fuel ih =>
    intro cs ds hall h
    cases cs with
    | nil => rw [splitDB_nil] at h; exact h
    | cons c cs' =>
      cases hcond : (isCyrUpper c && 3 ≤ (cs'.takeWhile isDigitC).length) with
      | true =>
        rw [splitDB_match fuel cs' hcond] at h
        cases ds with
        | nil => exact List.nil_prefix
        | cons e es =>
          obtain ⟨hec, -⟩ := List.cons_prefix_cons.mp h
          have hup : isCyrUpper c = true := by
            simp only [Bool.and_eq_true] at hcond
            exact hcond.1
          have hd := hall e (List.mem_cons_self _ _)
          rw [hec, isCyrUpper_not_digit hup] at hd
          exact absurd hd Bool.false_ne_true
      | false =>
        rw [splitDB_nomatch fuel cs' hcond] at h
        cases ds with
        | nil => exact List.nil_prefix
        | cons e es =>
          obtain ⟨rfl, h2⟩ := List.cons_prefix_cons.mp h
          exact List.cons_prefix_cons.mpr
            ⟨rfl, ih cs' es (fun d hd => hall d (List.mem_cons_of_mem e hd)) h2⟩

/-- The second digit split leaves no letter-then-three-digits pattern. -/
theorem splitDB_no_UDDD : ∀ fuel (s : List Char), s.length ≤ fuel →
    ¬HasUDDD (splitDB fuel s) := by
  intro fuel
  induction fuel with
  | zero =>
    intro s hs h
    rw [List.length_eq_zero.mp (Nat.le_zero.mp hs)] at h
    obtain ⟨u, d1, d2, d3, -, -, -, -, hinf⟩ := h
    have := hinf.length_le
    simp [splitDB_nil] at this
  | succ fuel ih =>
    intro s hs h
    cases s with
    | nil =>
      obtain ⟨u, d1, d2, d3, -, -, -, -, hinf⟩ := h
      rw [splitDB_nil] at hinf
      have := hinf.length_le
      simp at this
    | cons c cs =>
      simp only [List.length_cons] at hs
      cases hcond : (isCyrUpper c && 3 ≤ (cs.takeWhile isDigitC).length) with
      | true =>
        rw [splitDB_match fuel cs hcond] at h
        obtain ⟨u, d1, d2, d3, hu, h1, h2, h3, hinf⟩ := h
        rcases List.infix_cons_iff.mp hinf with h4 | h4
        · obtain ⟨rfl, h5⟩ := List.cons_prefix_cons.mp h4
          obtain ⟨he, -⟩ := List.cons_prefix_cons.mp h5
          rw [he, space_not_digit] at h1
          cases h1
        · rcases List.infix_cons_iff.mp h4 with h5 | h5
          · obtain ⟨rfl, -⟩ := List.cons_prefix_cons.mp h5
            rw [space_not_upper] at hu
            cases hu
          · rcases infix_append_cases h5 with h6 | h6 | h6
            · have hmem : u ∈ cs.takeWhile isDigitC :=
                h6.subset (List.mem_cons_self _ _)
              have := List.mem_takeWhile_imp hmem
              rw [isCyrUpper_not_digit hu] at this
              cases this
            · have hd := (List.dropWhile_sublist (l := cs) isDigitC).length_le
              exact ih (cs.dropWhile isDigitC) (by omega)
                ⟨u, d1, d2, d3, hu, h1, h2, h3, h6⟩
            · obtain ⟨w1, w2, heq, hw1, hw2, hs1, -⟩ := h6
              have humem : u ∈ w1 := by
                cases w1 with
                | nil => exact absurd rfl hw1
                | cons x r =>
                  have hxu : u = x := by
                    have h7 := congrArg List.head? heq
                    simpa using h7
                  rw [hxu]
                  exact List.mem_cons_self _ _
              have hmem2 : u ∈ cs.takeWhile isDigitC := hs1.subset humem
              have := List.mem_takeWhile_imp hmem2
              rw [isCyrUpper_not_digit hu] at this
              cases this
      | false =>
        rw [splitDB_nomatch fuel cs hcond] at h
        obtain ⟨u, d1, d2, d3, hu, h1, h2, h3, hinf⟩ := h
        rcases List.infix_cons_iff.mp hinf with h4 | h4
        · obtain ⟨rfl, h5⟩ := List.cons_prefix_cons.mp h4
          have hds : [d1, d2, d3] <+: cs := by
            apply splitDB_digit_prefix fuel cs [d1, d2, d3]
            · intro d hd
              rcases List.mem_cons.mp hd with rfl | hd
              · exact h1
              rcases List.mem_cons.mp hd with rfl | hd
              · exact h2
              rcases List.mem_cons.mp hd with rfl | hd
              · exact h3
              · cases hd
            · exact h5
          have hlen3 : 3 ≤ (cs.takeWhile isDigitC).length := by
            have := digit_prefix_le_takeWhile [d1, d2, d3] cs (by
              intro d hd
              rcases List.mem_cons.mp hd with rfl | hd
              · exact h1
              rcases List.mem_cons.mp hd with rfl | hd
              · exact h2
              rcases List.mem_cons.mp hd with rfl | hd
              · exact h3
              · cases hd) hds
            simpa using this
          rw [hu] at hcond
          simp only [Bool.true_and] at hcond
          rw [decide_eq_false_iff_not] at hcond
          exact hcond hlen3
        · exact ih cs (by omega) ⟨u, d1, d2, d3, hu, h1, h2, h3, h4⟩

/-- The second digit split is the identity when nothing matches. -/
theorem splitDB_id : ∀ fuel (s : List Char), ¬HasUDDD s →
    splitDB fuel s = s := by
  intro fuel
  induction fuel with
  | zero => intro s _; rfl
  | succ fuel ih =>
    intro s hno
    cases s with
    | nil => exact splitDB_nil _
    | cons c cs =>
      cases hcond : (isCyrUpper c && 3 ≤ (cs.takeWhile isDigitC).length) with
      | true =>
        exfalso
        simp only [Bool.and_eq_true, decide_eq_true_eq] at hcond
        obtain ⟨hup, hlen⟩ := hcond
        obtain ⟨e1, e2, e3, he⟩ := List.length_eq_three.mp
          (show ((cs.takeWhile isDigitC).take 3).length = 3 by
            rw [List.length_take]
            omega)
        have hall : ∀ d ∈ (cs.takeWhile isDigitC).take 3, isDigitC d = true :=
          fun d hd => List.mem_takeWhile_imp ((List.take_subset _ _) hd)
        apply hno
        refine ⟨c, e1, e2, e3, hup, ?_, ?_, ?_, ?_⟩
        · exact hall e1 (by rw [he]; simp)
        · exact hall e2 (by rw [he]; simp)
        · exact hall e3 (by rw [he]; simp)
        · have hpre : [e1, e2, e3] <+: cs := by
            rw [← he]
            exact (( List.take_prefix 3 (cs.takeWhile isDigitC)).trans
              (List.takeWhile_prefix isDigitC))
          obtain ⟨t, ht⟩ := hpre
          exact ⟨[], t, by rw [← ht]; rfl⟩
      | false =>
        rw [splitDB_nomatch fuel cs hcond]
        rw [ih cs (fun h2 => by
          obtain ⟨u, d1, d2, d3, hu, h1, h2b, h3, hinf⟩ := h2
          exact hno ⟨u, d1, d2, d3, hu, h1, h2b, h3,
            hinf.trans (List.suffix_cons c cs).isInfix⟩)]

/-- The first digit split leaves no three-digits-then-letter pattern. -/
theorem splitDA_no_DDDU : ∀ fuel (prev : Bool) (s : List Char), s.length ≤ fuel →
    (prev = true → ∀ d, s.head? = some d → isDigitC d = false) →
    ¬HasDDDU (splitDA fuel prev s) := by
  intro fuel
  induction fuel with
  | zero =>
    intro prev s hs _ h
    rw [List.length_eq_zero.mp (Nat.le_zero.mp hs)] at h
    obtain ⟨d1, d2, d3, u, -, -, -, -, hinf⟩ := h
    have := hinf.length_le
    simp [splitDA_nil] at this
  | succ fuel ih =>
    intro prev s hs hinv h
    cases s with
    | nil =>
      obtain ⟨d1, d2, d3, u, -, -, -, -, hinf⟩ := h
      rw [splitDA_nil] at hinf
      have := hinf.length_le
      simp at this
    | cons c cs =>
      simp only [List.length_cons] at hs
      cases hc : isDigitC c with
      | false =>
        rw [splitDA_nondigit fuel prev cs hc] at h
        obtain ⟨d1, d2, d3, u, h1, h2, h3, hu, hinf⟩ := h
        rcases List.infix_cons_iff.mp hinf with h4 | h4
        · obtain ⟨he, -⟩ := List.cons_prefix_cons.mp h4
          rw [he, hc] at h1
          cases h1
        · exact ih false cs (by omega)
            (fun hf => absurd hf Bool.false_ne_true)
            ⟨d1, d2, d3, u, h1, h2, h3, hu, h4⟩
      | true =>
        cases prev with
        | true =>
          have := hinv rfl c rfl
          rw [hc] at this
          cases this
        | false =>
          rcases dropWhile_head_cases isDigitC (c :: cs) with
            hdw | ⟨d, ds, hdw, hd⟩
          · rw [splitDA_run_nil fuel cs hc hdw] at h
            obtain ⟨d1, d2, d3, u, -, -, -, hu, hinf⟩ := h
            have hmem : u ∈ (c :: cs).takeWhile isDigitC :=
              hinf.subset (by simp)
            have := List.mem_takeWhile_imp hmem
            rw [isCyrUpper_not_digit hu] at this
            cases this
          · have hrunlen : 1 ≤ ((c :: cs).takeWhile isDigitC).length := by
              rw [takeWhile_digit_head cs hc]
              simp
            have hslen : (c :: cs).length =
                ((c :: cs).takeWhile isDigitC).length + (d :: ds).length := by
              conv_lhs =>
                rw [← List.takeWhile_append_dropWhile isDigitC (c :: cs)]
              rw [hdw, List.length_append]
            simp only [List.length_cons] at hslen
            cases hcond : (3 ≤ ((c :: cs).takeWhile isDigitC).length &&
                isCyrUpper d) with
            | true =>
              rw [splitDA_run_split fuel cs ds hc hdw hcond] at h
              obtain ⟨d1, d2, d3, u, h1, h2, h3, hu, hinf⟩ := h
              have hdu : isCyrUpper d = true := by
                simp only [Bool.and_eq_true] at hcond
                exact hcond.2
              rcases infix_append_cases hinf with h4 | h4 | h4
              · have hmem : u ∈ (c :: cs).takeWhile isDigitC :=
                  h4.subset (by simp)
                have := List.mem_takeWhile_imp hmem
                rw [isCyrUpper_not_digit hu] at this
                cases this
              · rcases List.infix_cons_iff.mp h4 with h5 | h5
                · obtain ⟨he, -⟩ := List.cons_prefix_cons.mp h5
                  rw [he, space_not_digit] at h1
                  cases h1
                · rcases List.infix_cons_iff.mp h5 with h6 | h6
                  · obtain ⟨he, -⟩ := List.cons_prefix_cons.mp h6
                    rw [he, isCyrUpper_not_digit hdu] at h1
                    cases h1
                  · exact ih false ds (by omega)
                      (fun hf => absurd hf Bool.false_ne_true)
                      ⟨d1, d2, d3, u, h1, h2, h3, hu, h6⟩
              · obtain ⟨w1, w2, heq, hw1, hw2, hs1, hp2⟩ := h4
                have hspmem : ' ' ∈ w2 := by
                  cases w2 with
                  | nil => exact absurd rfl hw2
                  | cons x r =>
                    obtain ⟨he, -⟩ := List.cons_prefix_cons.mp hp2
                    rw [he]
                    exact List.mem_cons_self _ _
                have hspq : ' ' ∈ [d1, d2, d3, u] := by
                  rw [heq]
                  exact List.mem_append_right w1 hspmem
                rcases List.mem_cons.mp hspq with he | he
                · rw [← he, space_not_digit] at h1; cases h1
                rcases List.mem_cons.mp he with he2 | he2
                · rw [← he2, space_not_digit] at h2; cases h2
                rcases List.mem_cons.mp he2 with he3 | he3
                · rw [← he3, space_not_digit] at h3; cases h3
                rcases List.mem_cons.mp he3 with he4 | he4
                · rw [← he4, space_not_upper] at hu; cases hu
                · cases he4
            | false =>
              rw [splitDA_run_nosplit fuel cs ds hc hdw hcond] at h
              obtain ⟨d1, d2, d3, u, h1, h2, h3, hu, hinf⟩ := h
              rcases infix_append_cases hinf with h4 | h4 | h4
              · have hmem : u ∈ (c :: cs).takeWhile isDigitC :=
                  h4.subset (by simp)
                have := List.mem_takeWhile_imp hmem
                rw [isCyrUpper_not_digit hu] at this
                cases this
              · exact ih true (d :: ds) (by simp only [List.length_cons]; omega)
                  (fun _ e hed => by
                    have h8 : d = e := by simpa using hed
                    rw [← h8]
                    exact hd)
                  ⟨d1, d2, d3, u, h1, h2, h3, hu, h4⟩
              · obtain ⟨w1, w2, heq, hw1, hw2, hs1, hp2⟩ := h4
                have hw2head : ∃ r, w2 = d :: r := by
                  cases hT : splitDA fuel true (d :: ds) with
                  | nil =>
                    rw [hT] at hp2
                    rw [List.prefix_nil.mp hp2] at hw2
                    exact absurd rfl hw2
                  | cons x T' =>
                    have hxd : some x = some d := by
                      have h9 := splitDA_head fuel true (d :: ds)
                      rw [hT] at h9
                      simpa using h9
                    cases w2 with
                    | nil => exact absurd rfl hw2
                    | cons y r =>
                      rw [hT] at hp2
                      obtain ⟨he, -⟩ := List.cons_prefix_cons.mp hp2
                      refine ⟨r, ?_⟩
                      rw [he]
                      simpa using hxd
                obtain ⟨r, rfl⟩ := hw2head
                rcases quad_split_cases heq.symm hw1 hw2 with
                  ⟨-, hw2e⟩ | ⟨-, hw2e⟩ | ⟨hw1e, hw2e⟩
                · obtain ⟨he, -⟩ := List.cons_eq_cons.mp hw2e.symm
                  rw [he] at h2
                  rw [show isDigitC d = false by
                    cases hdd : isDigitC d with
                    | false => rfl
                    | true => rw [hdd] at hd; cases hd] at h2
                  cases h2
                · obtain ⟨he, -⟩ := List.cons_eq_cons.mp hw2e.symm
                  rw [he] at h3
                  rw [show isDigitC d = false by
                    cases hdd : isDigitC d with
                    | false => rfl
                    | true => rw [hdd] at hd; cases hd] at h3
                  cases h3
                · obtain ⟨he, -⟩ := List.cons_eq_cons.mp hw2e.symm
                  have hdupper : isCyrUpper d = true := by
                    rw [← he]
                    exact hu
                  have hrun3 : 3 ≤ ((c :: cs).takeWhile isDigitC).length := by
                    have h9 := hs1.length_le
                    rw [hw1e] at h9
                    simpa using h9
                  rw [hdupper] at hcond
                  simp only [Bool.and_true] at hcond
                  rw [decide_eq_false_iff_not] at hcond
                  exact hcond hrun3

/-- The first digit split is the identity when nothing matches. -/
theorem splitDA_id : ∀ fuel (prev : Bool) (s : List Char), ¬HasDDDU s →
    splitDA fuel prev s = s := by
  intro fuel
  induction fuel with
  | zero => intro prev s _; rfl
  | succ fuel ih =>
    intro prev s hno
    cases s with
    | nil => exact splitDA_nil _ _
    | cons c cs =>
      have hmono : ¬HasDDDU cs := by
        intro h2
        obtain ⟨d1, d2, d3, u, h1, h2b, h3, hu, hinf⟩ := h2
        exact hno ⟨d1, d2, d3, u, h1, h2b, h3, hu,
          hinf.trans (List.suffix_cons c cs).isInfix⟩
      cases hc : isDigitC c with
      | false =>
        rw [splitDA_nondigit fuel prev cs hc, ih false cs hmono]
      | true =>
        cases prev with
        | true => rw [splitDA_digit_prev fuel cs hc, ih true cs hmono]
        | false =>
          rcases dropWhile_head_cases isDigitC (c :: cs) with
            hdw | ⟨d, ds, hdw, hd⟩
          · rw [splitDA_run_nil fuel cs hc hdw]
            conv_rhs =>
              rw [← List.takeWhile_append_dropWhile isDigitC (c :: cs)]
            rw [hdw, List.append_nil]
          · cases hcond : (3 ≤ ((c :: cs).takeWhile isDigitC).length &&
                isCyrUpper d) with
            | true =>
              exfalso
              simp only [Bool.and_eq_true, decide_eq_true_eq] at hcond
              obtain ⟨hlen3, hup⟩ := hcond
              obtain ⟨e1, e2, e3, he⟩ := List.length_eq_three.mp
                (show (((c :: cs).takeWhile isDigitC).drop
                    (((c :: cs).takeWhile isDigitC).length - 3)).length = 3 by
                  rw [List.length_drop]
                  omega)
              have hall : ∀ x ∈ ((c :: cs).takeWhile isDigitC).drop
                  (((c :: cs).takeWhile isDigitC).length - 3),
                  isDigitC x = true :=
                fun x hx => List.mem_takeWhile_imp ((List.drop_subset _ _) hx)
              apply hno
              refine ⟨e1, e2, e3, d, ?_, ?_, ?_, hup, ?_⟩
              · exact hall e1 (by rw [he]; simp)
              · exact hall e2 (by rw [he]; simp)
              · exact hall e3 (by rw [he]; simp)
              · refine ⟨((c :: cs).takeWhile isDigitC).take
                  (((c :: cs).takeWhile isDigitC).length - 3), ds, ?_⟩
                conv_rhs =>
                  rw [← List.takeWhile_append_dropWhile isDigitC (c :: cs)]
                rw [hdw]
                conv_rhs =>
                  rw [← List.take_append_drop
                    (((c :: cs).takeWhile isDigitC).length - 3)
                    ((c :: cs).takeWhile isDigitC)]
                rw [he]
                rw [List.append_assoc, List.append_assoc]
                rfl
            | false =>
              rw [splitDA_run_nosplit fuel cs ds hc hdw hcond]
              have hdsno : ¬HasDDDU (d :: ds) := by
                intro h2
                obtain ⟨d1, d2, d3, u, h1, h2b, h3, hu, hinf⟩ := h2
                refine hno ⟨d1, d2, d3, u, h1, h2b, h3, hu, ?_⟩
                refine hinf.trans ?_
                refine List.IsSuffix.isInfix ?_
                refine ⟨(c :: cs).takeWhile isDigitC, ?_⟩
                rw [← hdw, List.takeWhile_append_dropWhile]
              rw [ih true (d :: ds) hdsno, ← hdw,
                List.takeWhile_append_dropWhile]

/- ============ assembly helpers ============ -/

theorem applySubs_append : ∀ (l1 l2 : List (List Char × List Char))
    (s : List Char), applySubs (l1 ++ l2) s = applySubs l2 (applySubs l1 s) := by
  intro l1
  induction l1 with
  | nil => intro l2 s; rfl
  | cons pr l1' ih =>
    intro l2 s
    cases pr with
    | mk p r => exact ih l2 (ciReplace p r s)

theorem map_id_of_mem {f : Char → Char} : ∀ (l : List Char),
    (∀ c ∈ l, f c = c) → l.map f = l := by
  intro l
  induction l with
  | nil => intro _; rfl
  | cons c cs ih =>
    intro h
    rw [List.map_cons, h c (List.mem_cons_self _ _),
      ih (fun d hd => h d (List.mem_cons_of_mem c hd))]

theorem contains_travel {q pat rep : List Char} (z : List Char)
    (hq : patNoWS q = true) (hp0 : pat ≠ []) (hins : insChk pat rep = true)
    (hqrep : containsCI q rep = false) (hz : containsCI q z = false) :
    containsCI q (ciReplace pat rep z) = false := by
  cases hcon : containsCI q (ciReplace pat rep z) with
  | false => rfl
  | true =>
    exfalso
    have := ciReplaceF_contains_refl pat rep hp0 (insChk_sound pat rep hins)
      q hq hqrep z.length z le_rfl hcon
    rw [hz] at this
    cases this

theorem applySubs_contains_travel (q : List Char) (hq : patNoWS q = true) :
    ∀ (subs : List (List Char × List Char)) (s : List Char),
      (∀ pr ∈ subs, pr.1 ≠ [] ∧ insChk pr.1 pr.2 = true ∧
        containsCI q pr.2 = false) →
      containsCI q s = false → containsCI q (applySubs subs s) = false := by
  intro subs
  induction subs with
  | nil => intro s _ h; exact h
  | cons pr rest ih =>
    intro s hall h
    cases pr with
    | mk p r =>
      have hpr := hall (p, r) (List.mem_cons_self _ _)
      exact ih (ciReplace p r s)
        (fun pr2 h2 => hall pr2 (List.mem_cons_of_mem _ h2))
        (contains_travel s hq hpr.1 hpr.2.1 hpr.2.2 h)

theorem contains_elim {pat rep : List Char} (z : List Char) (hp0 : pat ≠ [])
    (hins : insChk pat rep = true) (hpw : patNoWS pat = true)
    (hrep : containsCI pat rep = false) (hb : borderFreeCI pat = true) :
    containsCI pat (ciReplace pat rep z) = false :=
  ciReplaceF_elim pat rep hp0 (insChk_sound pat rep hins) hpw hrep hb
    z.length z le_rfl

theorem contains_split_travel {q t : List Char} (x : List Char)
    (hins : InsSp x t) (hq : patNoWS q = true)
    (hx : containsCI q x = false) : containsCI q t = false := by
  cases hcon : containsCI q t with
  | false => rfl
  | true =>
    exfalso
    have := InsSp_containsCI_refl hq hins hcon
    rw [hx] at this
    cases this

theorem contains_spMap_travel {q : List Char} (s : List Char)
    (hq : patNoWS q = true) (hs : containsCI q s = false) :
    containsCI q (s.map spMap) = false := by
  cases hcon : containsCI q (s.map spMap) with
  | false => rfl
  | true =>
    exfalso
    have := containsCI_spMap_refl q hq s hcon
    rw [hs] at this
    cases this

theorem contains_collapse_travel {q : List Char} (s : List Char)
    (hq : patNoWS q = true) (hs : containsCI q s = false) :
    containsCI q (collapseWS s) = false := by
  cases hcon : containsCI q (collapseWS s) with
  | false => rfl
  | true =>
    exfalso
    have := containsCI_collapseWS_refl q hq s.length s le_rfl hcon
    rw [hs] at this
    cases this

theorem contains_strip_travel {q : List Char} (s : List Char)
    (hs : containsCI q s = false) : containsCI q (pyStrip s) = false := by
  cases hcon : containsCI q (pyStrip s) with
  | false => rfl
  | true =>
    exfalso
    have := containsCI_mono_infix ( pyStrip_infix s) hcon
    rw [hs] at this
    cases this

theorem pairLU_no_ws {a b : Char} (ha : isCyrLower a = true)
    (hb : isCyrUpper b = true) : ∀ c ∈ [a, b], isPySpace c = false := by
  intro c hc
  rcases List.mem_cons.mp hc with rfl | hc2
  · exact isCyrLower_not_ws ha
  · rcases List.mem_cons.mp hc2 with rfl | hc3
    · exact isCyrUpper_not_ws hb
    · cases hc3

theorem quadDDDU_no_ws {d1 d2 d3 u : Char} (h1 : isDigitC d1 = true)
    (h2 : isDigitC d2 = true) (h3 : isDigitC d3 = true)
    (hu : isCyrUpper u = true) : ∀ c ∈ [d1, d2, d3, u], isPySpace c = false := by
  intro c hc
  rcases List.mem_cons.mp hc with rfl | hc
  · exact isDigitC_not_ws h1
  rcases List.mem_cons.mp hc with rfl | hc
  · exact isDigitC_not_ws h2
  rcases List.mem_cons.mp hc with rfl | hc
  · exact isDigitC_not_ws h3
  rcases List.mem_cons.mp hc with rfl | hc
  · exact isCyrUpper_not_ws hu
  · cases hc

theorem quadUDDD_no_ws {u d1 d2 d3 : Char} (hu : isCyrUpper u = true)
    (h1 : isDigitC d1 = true) (h2 : isDigitC d2 = true)
    (h3 : isDigitC d3 = true) : ∀ c ∈ [u, d1, d2, d3], isPySpace c = false := by
  intro c hc
  rcases List.mem_cons.mp hc with rfl | hc
  · exact isCyrUpper_not_ws hu
  rcases List.mem_cons.mp hc with rfl | hc
  · exact isDigitC_not_ws h1
  rcases List.mem_cons.mp hc with rfl | hc
  · exact isDigitC_not_ws h2
  rcases List.mem_cons.mp hc with rfl | hc
  · exact isDigitC_not_ws h3
  · cases hc

theorem hasLU_split_travel {x t : List Char} (hins : InsSp x t)
    (hx : ¬HasLU x) : ¬HasLU t := by
  rintro ⟨a, b, ha, hb, hinf⟩
  exact hx ⟨a, b, ha, hb, InsSp_infix_refl hins
    (fun c hc => ne_space_of_not_ws (pairLU_no_ws ha hb c hc)) hinf⟩

theorem hasDDDU_split_travel {x t : List Char} (hins : InsSp x t)
    (hx : ¬HasDDDU x) : ¬HasDDDU t := by
  rintro ⟨d1, d2, d3, u, h1, h2, h3, hu, hinf⟩
  exact hx ⟨d1, d2, d3, u, h1, h2, h3, hu, InsSp_infix_refl hins
    (fun c hc => ne_space_of_not_ws (quadDDDU_no_ws h1 h2 h3 hu c hc)) hinf⟩

theorem hasLU_spMap_travel {s : List Char} (hx : ¬HasLU s) :
    ¬HasLU (s.map spMap) := by
  rintro ⟨a, b, ha, hb, hinf⟩
  exact hx ⟨a, b, ha, hb, infix_spMap_refl [a, b] (pairLU_no_ws ha hb) s hinf⟩

theorem hasDDDU_spMap_travel {s : List Char} (hx : ¬HasDDDU s) :
    ¬HasDDDU (s.map spMap) := by
  rintro ⟨d1, d2, d3, u, h1, h2, h3, hu, hinf⟩
  exact hx ⟨d1, d2, d3, u, h1, h2, h3, hu,
    infix_spMap_refl [d1, d2, d3, u] (quadDDDU_no_ws h1 h2 h3 hu) s hinf⟩

theorem hasUDDD_spMap_travel {s : List Char} (hx : ¬HasUDDD s) :
    ¬HasUDDD (s.map spMap) := by
  rintro ⟨u, d1, d2, d3, hu, h1, h2, h3, hinf⟩
  exact hx ⟨u, d1, d2, d3, hu, h1, h2, h3,
    infix_spMap_refl [u, d1, d2, d3] (quadUDDD_no_ws hu h1 h2 h3) s hinf⟩

theorem hasLU_collapse_travel {s : List Char} (hx : ¬HasLU s) :
    ¬HasLU (collapseWS s) := by
  rintro ⟨a, b, ha, hb, hinf⟩
  exact hx ⟨a, b, ha, hb, infix_collapseWS s.length s [a, b] le_rfl
    (pairLU_no_ws ha hb) hinf⟩

theorem hasDDDU_collapse_travel {s : List Char} (hx : ¬HasDDDU s) :
    ¬HasDDDU (collapseWS s) := by
  rintro ⟨d1, d2, d3, u, h1, h2, h3, hu, hinf⟩
  exact hx ⟨d1, d2, d3, u, h1, h2, h3, hu, infix_collapseWS s.length s
    [d1, d2, d3, u] le_rfl (quadDDDU_no_ws h1 h2 h3 hu) hinf⟩

theorem hasUDDD_collapse_travel {s : List Char} (hx : ¬HasUDDD s) :
    ¬HasUDDD (collapseWS s) := by
  rintro ⟨u, d1, d2, d3, hu, h1, h2, h3, hinf⟩
  exact hx ⟨u, d1, d2, d3, hu, h1, h2, h3, infix_collapseWS s.length s
    [u, d1, d2, d3] le_rfl (quadUDDD_no_ws hu h1 h2 h3) hinf⟩

theorem hasLU_strip_travel {s : List Char} (hx : ¬HasLU s) :
    ¬HasLU (pyStrip s) := by
  rintro ⟨a, b, ha, hb, hinf⟩
  exact hx ⟨a, b, ha, hb, hinf.trans ( pyStrip_infix s)⟩

theorem hasDDDU_strip_travel {s : List Char} (hx : ¬HasDDDU s) :
    ¬HasDDDU (pyStrip s) := by
  rintro ⟨d1, d2, d3, u, h1, h2, h3, hu, hinf⟩
  exact hx ⟨d1, d2, d3, u, h1, h2, h3, hu, hinf.trans ( pyStrip_infix s)⟩

theorem hasUDDD_strip_travel {s : List Char} (hx : ¬HasUDDD s) :
    ¬HasUDDD (pyStrip s) := by
  rintro ⟨u, d1, d2, d3, hu, h1, h2, h3, hinf⟩
  exact hx ⟨u, d1, d2, d3, hu, h1, h2, h3, hinf.trans ( pyStrip_infix s)⟩

/- ============ pattern facts and per-stage establishment ============ -/

set_option maxRecDepth 100000 in
theorem u12_free_1 (s : List Char) :
    containsCI pat1 (applySubs phraseSubs s) = false := by
  have hdec : applySubs phraseSubs s =
      applySubs (phraseSubs.drop 1) (ciReplace pat1 rep1 s) := rfl
  rw [hdec]
  apply applySubs_contains_travel pat1 (by decide) (phraseSubs.drop 1) _
    (by decide)
  exact contains_elim s (by decide) (by decide) (by decide) (by decide)
    (by decide)

set_option maxRecDepth 100000 in
theorem u12_free_2 (s : List Char) :
    containsCI pat2 (applySubs phraseSubs s) = false := by
  have hdec : applySubs phraseSubs s =
      applySubs (phraseSubs.drop 2)
        (ciReplace pat2 rep2 (ciReplace pat1 rep1 s)) := rfl
  rw [hdec]
  apply applySubs_contains_travel pat2 (by decide) (phraseSubs.drop 2) _
    (by decide)
  exact contains_elim _ (by decide) (by decide) (by decide) (by decide)
    (by decide)

set_option maxRecDepth 100000 in
theorem u12_free_3 (s : List Char) :
    containsCI pat3 (applySubs phraseSubs s) = false := by
  have hdec : applySubs phraseSubs s =
      applySubs (phraseSubs.drop 3)
        (ciReplace pat3 rep3 (ciReplace pat2 rep2 (ciReplace pat1 rep1 s))) := rfl
  rw [hdec]
  apply applySubs_contains_travel pat3 (by decide) (phraseSubs.drop 3) _
    (by decide)
  exact contains_elim _ (by decide) (by decide) (by decide) (by decide)
    (by decide)

set_option maxRecDepth 100000 in
theorem u12_free_4 (s : List Char) :
    containsCI pat4 (applySubs phraseSubs s) = false := by
  have hdec : applySubs phraseSubs s =
      applySubs (phraseSubs.drop 4)
        (ciReplace pat4 rep4 (ciReplace pat3 rep3 (ciReplace pat2 rep2 (ciReplace pat1 rep1 s)))) := rfl
  rw [hdec]
  apply applySubs_contains_travel pat4 (by decide) (phraseSubs.drop 4) _
    (by decide)
  exact contains_elim _ (by decide) (by decide) (by decide) (by decide)
    (by decide)

set_option maxRecDepth 100000 in
theorem u12_free_5 (s : List Char) :
    containsCI pat5 (applySubs phraseSubs s) = false := by
  have hdec : applySubs phraseSubs s =
      applySubs (phraseSubs.drop 5)
        (ciReplace pat5 rep5 (ciReplace pat4 rep4 (ciReplace pat3 rep3 (ciReplace pat2 rep2 (ciReplace pat1 rep1 s))))) := rfl
  rw [hdec]
  apply applySubs_contains_travel pat5 (by decide) (phraseSubs.drop 5) _
    (by decide)
  exact contains_elim _ (by decide) (by decide) (by decide) (by decide)
    (by decide)

set_option maxRecDepth 100000 in
theorem u12_free_6 (s : List Char) :
    containsCI pat6 (applySubs phraseSubs s) = false := by
  have hdec : applySubs phraseSubs s =
      applySubs (phraseSubs.drop 6)
        (ciReplace pat6 rep6 (ciReplace pat5 rep5 (ciReplace pat4 rep4 (ciReplace pat3 rep3 (ciReplace pat2 rep2 (ciReplace pat1 rep1 s)))))) := rfl
  rw [hdec]
  apply applySubs_contains_travel pat6 (by decide) (phraseSubs.drop 6) _
    (by decide)
  exact contains_elim _ (by decide) (by decide) (by decide) (by decide)
    (by decide)

set_option maxRecDepth 100000 in
theorem u12_free_7 (s : List Char) :
    containsCI pat7 (applySubs phraseSubs s) = false := by
  have hdec : applySubs phraseSubs s =
      applySubs (phraseSubs.drop 7)
        (ciReplace pat7 rep7 (ciReplace pat6 rep6 (ciReplace pat5 rep5 (ciReplace pat4 rep4 (ciReplace pat3 rep3 (ciReplace pat2 rep2 (ciReplace pat1 rep1 s))))))) := rfl
  rw [hdec]
  apply applySubs_contains_travel pat7 (by decide) (phraseSubs.drop 7) _
    (by decide)
  exact contains_elim _ (by decide) (by decide) (by decide) (by decide)
    (by decide)

set_option maxRecDepth 100000 in
theorem u12_free_8 (s : List Char) :
    containsCI pat8 (applySubs phraseSubs s) = false := by
  have hdec : applySubs phraseSubs s =
      applySubs (phraseSubs.drop 8)
        (ciReplace pat8 rep8 (ciReplace pat7 rep7 (ciReplace pat6 rep6 (ciReplace pat5 rep5 (ciReplace pat4 rep4 (ciReplace pat3 rep3 (ciReplace pat2 rep2 (ciReplace pat1 rep1 s)))))))) := rfl
  rw [hdec]
  apply applySubs_contains_travel pat8 (by decide) (phraseSubs.drop 8) _
    (by decide)
  exact contains_elim _ (by decide) (by decide) (by decide) (by decide)
    (by decide)

set_option maxRecDepth 100000 in
theorem u12_free_9 (s : List Char) :
    containsCI pat9 (applySubs phraseSubs s) = false := by
  have hdec : applySubs phraseSubs s =
      applySubs (phraseSubs.drop 9)
        (ciReplace pat9 rep9 (ciReplace pat8 rep8 (ciReplace pat7 rep7 (ciReplace pat6 rep6 (ciReplace pat5 rep5 (ciReplace pat4 rep4 (ciReplace pat3 rep3 (ciReplace pat2 rep2 (ciReplace pat1 rep1 s))))))))) := rfl
  rw [hdec]
  apply applySubs_contains_travel pat9 (by decide) (phraseSubs.drop 9) _
    (by decide)
  exact contains_elim _ (by decide) (by decide) (by decide) (by decide)
    (by decide)

/- ============ assembly: normal form established and fixed ============ -/

/-- An uppercase-then-three-digit occurrence reflects through space
    insertion. -/
theorem hasUDDD_split_travel {x t : List Char} (hins : InsSp x t)
    (hx : ¬HasUDDD x) : ¬HasUDDD t := by
  rintro ⟨u, d1, d2, d3, hu, h1, h2, h3, hinf⟩
  exact hx ⟨u, d1, d2, d3, hu, h1, h2, h3, InsSp_infix_refl hins
    (fun c hc => ne_space_of_not_ws (quadUDDD_no_ws hu h1 h2 h3 c hc)) hinf⟩

/-- splitLU with its wrapper-free interface inserts spaces only. -/
theorem InsSp_splitLUw (s : List Char) : InsSp s (splitLU s) :=
  InsSp_splitLU s.length s le_rfl

/-- splitDAw inserts spaces only. -/
theorem InsSp_splitDAw (s : List Char) : InsSp s (splitDAw s) :=
  InsSp_splitDA s.length false s

/-- splitDBw inserts spaces only. -/
theorem InsSp_splitDBw (s : List Char) : InsSp s (splitDBw s) :=
  InsSp_splitDB s.length s

/-- splitLU leaves no lower-upper adjacency. -/
theorem splitLUw_no_LU (s : List Char) : ¬HasLU (splitLU s) :=
  splitLU_no_LU s.length s le_rfl

/-- splitDAw leaves no three-digits-then-uppercase adjacency. -/
theorem splitDAw_no_DDDU (s : List Char) : ¬HasDDDU (splitDAw s) :=
  splitDA_no_DDDU s.length false s le_rfl
    (fun hf => absurd hf Bool.false_ne_true)

/-- splitDBw leaves no uppercase-then-three-digits adjacency. -/
theorem splitDBw_no_UDDD (s : List Char) : ¬HasUDDD (splitDBw s) :=
  splitDB_no_UDDD s.length s le_rfl

set_option maxRecDepth 100000 in
/-- The first label pattern is canonical after the whole phrase table. -/
theorem label_est_10 (s : List Char) :
    LabelP pat10 (applySubs phraseSubs s) := by
  have hdec : applySubs phraseSubs s =
      ciReplace pat12 rep12 (ciReplace pat11 rep11 (ciReplace pat10 rep10
        (applySubs (phraseSubs.take 9) s))) := rfl
  rw [hdec]
  have hrep : rep10 = pat10 ++ [' '] := by decide
  have h0 : LabelP pat10 (ciReplace pat10 rep10
      (applySubs (phraseSubs.take 9) s)) := by
    rw [hrep]
    exact ciReplaceF_LabelP_self pat10 (by decide) (by decide) _ _ le_rfl
  have h1 : LabelP pat10 (ciReplace pat11 rep11 (ciReplace pat10 rep10
      (applySubs (phraseSubs.take 9) s))) :=
    ciReplaceF_LabelP_presv pat11 rep11 pat10 (by decide) (by decide)
      (insChk_sound pat11 rep11 (by decide)) (by decide) (by decide) pat11
      (by decide) (by decide) (by decide) _ _ le_rfl h0
  exact ciReplaceF_LabelP_presv pat12 rep12 pat10 (by decide) (by decide)
    (insChk_sound pat12 rep12 (by decide)) (by decide) (by decide) pat12
    (by decide) (by decide) (by decide) _ _ le_rfl h1

set_option maxRecDepth 100000 in
/-- The second label pattern is canonical after the whole phrase table. -/
theorem label_est_11 (s : List Char) :
    LabelP pat11 (applySubs phraseSubs s) := by
  have hdec : applySubs phraseSubs s =
      ciReplace pat12 rep12 (ciReplace pat11 rep11
        (applySubs (phraseSubs.take 10) s)) := rfl
  rw [hdec]
  have hrep : rep11 = pat11 ++ [' '] := by decide
  have h0 : LabelP pat11 (ciReplace pat11 rep11
      (applySubs (phraseSubs.take 10) s)) := by
    rw [hrep]
    exact ciReplaceF_LabelP_self pat11 (by decide) (by decide) _ _ le_rfl
  exact ciReplaceF_LabelP_presv pat12 rep12 pat11 (by decide) (by decide)
    (insChk_sound pat12 rep12 (by decide)) (by decide) (by decide) pat12
    (by decide) (by decide) (by decide) _ _ le_rfl h0

set_option maxRecDepth 100000 in
/-- The third label pattern is canonical after the whole phrase table. -/
theorem label_est_12 (s : List Char) :
    LabelP pat12 (applySubs phraseSubs s) := by
  have hdec : applySubs phraseSubs s =
      ciReplace pat12 rep12 (applySubs (phraseSubs.take 11) s) := rfl
  rw [hdec]
  have hrep : rep12 = pat12 ++ [' '] := by decide
  rw [hrep]
  exact ciReplaceF_LabelP_self pat12 (by decide) (by decide) _ _ le_rfl

/-- A pattern absent after the phrase table stays absent through the whole
    remaining pipeline. -/
theorem nf_occ_chain (q x0 : List Char) (hq : patNoWS q = true)
    (h : containsCI q x0 = false) :
    containsCI q (pyStrip (collapseWS ((splitDBw (splitDAw
      (splitLU x0))).map spMap))) = false := by
  apply contains_strip_travel
  apply contains_collapse_travel _ hq
  apply contains_spMap_travel _ hq
  apply contains_split_travel _ (InsSp_splitDBw _) hq
  apply contains_split_travel _ (InsSp_splitDAw _) hq
  exact contains_split_travel _ (InsSp_splitLUw _) hq h

/-- A canonical label stays canonical through the whole remaining
    pipeline. -/
theorem nf_label_chain (q x0 : List Char) (hq : patNoWS q = true)
    (hq0 : q ≠ []) (h : LabelP q x0) :
    LabelP q (pyStrip (collapseWS ((splitDBw (splitDAw
      (splitLU x0))).map spMap))) := by
  apply LabelP_pyStrip
  apply LabelP_collapseWS hq hq0 _ _ le_rfl
  apply LabelP_spMap hq
  apply InsSp_LabelP hq (InsSp_splitDBw _)
  apply InsSp_LabelP hq (InsSp_splitDAw _)
  exact InsSp_LabelP hq (InsSp_splitLUw _) h

/-- The empty string is in normal form. -/
theorem NormForm_nil : NormForm [] := by
  refine ⟨⟨?_, ?_, ?_, ?_⟩, ?_, ?_, ?_, ?_, ?_⟩
  · intro c hc _
    cases hc
  · intro h
    simpa using List.infix_nil.mp h
  · decide
  · decide
  · intro pat hpat hocc
    have hc := (OccCI_iff_containsCI _ _).mp hocc
    have hcp : concatPats =
        [pat1, pat2, pat3, pat4, pat5, pat6, pat7, pat8, pat9] := rfl
    rw [hcp] at hpat
    simp only [List.mem_cons, List.not_mem_nil, or_false] at hpat
    rcases hpat with rfl|rfl|rfl|rfl|rfl|rfl|rfl|rfl|rfl <;>
      exact absurd hc (by decide)
  · intro pat hpat
    have hlp : labelPats = [pat10, pat11, pat12] := rfl
    rw [hlp] at hpat
    simp only [List.mem_cons, List.not_mem_nil, or_false] at hpat
    rcases hpat with rfl|rfl|rfl <;> exact LabelP_nil (by decide)
  · rintro ⟨a, b, _, _, hinf⟩
    simpa using List.infix_nil.mp hinf
  · rintro ⟨d1, d2, d3, u, _, _, _, _, hinf⟩
    simpa using List.infix_nil.mp hinf
  · rintro ⟨u, d1, d2, d3, _, _, _, _, hinf⟩
    simpa using List.infix_nil.mp hinf

set_option maxRecDepth 100000 in
/-- Every normalised page text is in normal form. -/
theorem NF_norm (s : List Char) : NormForm (normalize_page_text s) := by
  rcases eq_or_ne s [] with rfl | h0
  · rw [show normalize_page_text [] = [] from rfl]
    exact NormForm_nil
  · have hrw : normalize_page_text s =
        pyStrip (collapseWS ((splitDBw (splitDAw (splitLU
          (applySubs phraseSubs s)))).map spMap)) := by
      unfold normalize_page_text restore_spaces
      rw [if_neg h0, if_neg h0, replaceSpecials_eq_map]
    rw [hrw]
    refine ⟨⟨?_, ?_, ?_, ?_⟩, ?_, ?_, ?_, ?_, ?_⟩
    · intro c hc hws
      exact collapseWS_mem_ws _ _ le_rfl c (( pyStrip_infix _).subset hc) hws
    · intro hinf
      exact collapseWS_no_double _ _ le_rfl (hinf.trans ( pyStrip_infix _))
    · intro hh
      exact absurd (pyStrip_head_nonws _ ' ' hh) (by decide)
    · intro hh
      exact absurd (pyStrip_last_nonws _ ' ' hh) (by decide)
    · intro pat hpat hocc
      have hc := (OccCI_iff_containsCI _ _).mp hocc
      have hcp : concatPats =
          [pat1, pat2, pat3, pat4, pat5, pat6, pat7, pat8, pat9] := rfl
      rw [hcp] at hpat
      simp only [List.mem_cons, List.not_mem_nil, or_false] at hpat
      rcases hpat with rfl|rfl|rfl|rfl|rfl|rfl|rfl|rfl|rfl
      · rw [nf_occ_chain pat1 _ (by decide) (u12_free_1 s)] at hc
        exact Bool.false_ne_true hc
      · rw [nf_occ_chain pat2 _ (by decide) (u12_free_2 s)] at hc
        exact Bool.false_ne_true hc
      · rw [nf_occ_chain pat3 _ (by decide) (u12_free_3 s)] at hc
        exact Bool.false_ne_true hc
      · rw [nf_occ_chain pat4 _ (by decide) (u12_free_4 s)] at hc
        exact Bool.false_ne_true hc
      · rw [nf_occ_chain pat5 _ (by decide) (u12_free_5 s)] at hc
        exact Bool.false_ne_true hc
      · rw [nf_occ_chain pat6 _ (by decide) (u12_free_6 s)] at hc
        exact Bool.false_ne_true hc
      · rw [nf_occ_chain pat7 _ (by decide) (u12_free_7 s)] at hc
        exact Bool.false_ne_true hc
      · rw [nf_occ_chain pat8 _ (by decide) (u12_free_8 s)] at hc
        exact Bool.false_ne_true hc
      · rw [nf_occ_chain pat9 _ (by decide) (u12_free_9 s)] at hc
        exact Bool.false_ne_true hc
    · intro pat hpat
      have hlp : labelPats = [pat10, pat11, pat12] := rfl
      rw [hlp] at hpat
      simp only [List.mem_cons, List.not_mem_nil, or_false] at hpat
      rcases hpat with rfl|rfl|rfl
      · exact nf_label_chain pat10 _ (by decide) (by decide) (label_est_10 s)
      · exact nf_label_chain pat11 _ (by decide) (by decide) (label_est_11 s)
      · exact nf_label_chain pat12 _ (by decide) (by decide) (label_est_12 s)
    · apply hasLU_strip_travel
      apply hasLU_collapse_travel
      apply hasLU_spMap_travel
      apply hasLU_split_travel (InsSp_splitDBw _)
      apply hasLU_split_travel (InsSp_splitDAw _)
      exact splitLUw_no_LU _
    · apply hasDDDU_strip_travel
      apply hasDDDU_collapse_travel
      apply hasDDDU_spMap_travel
      apply hasDDDU_split_travel (InsSp_splitDBw _)
      exact splitDAw_no_DDDU _
    · apply hasUDDD_strip_travel
      apply hasUDDD_collapse_travel
      apply hasUDDD_spMap_travel
      exact splitDBw_no_UDDD _

set_option maxRecDepth 100000 in
/-- A string in normal form is a fixed point of the normaliser. -/
theorem NF_fix (y : List Char) (h : NormForm y) :
    normalize_page_text y = y := by
  obtain ⟨⟨hws1, hws2, hws3, hws4⟩, hoccs, hlabs, hlu, hdddu, huddd⟩ := h
  rcases eq_or_ne y [] with rfl | h0
  · rfl
  · have hcp : concatPats =
        [pat1, pat2, pat3, pat4, pat5, pat6, pat7, pat8, pat9] := rfl
    have hlp : labelPats = [pat10, pat11, pat12] := rfl
    have hc1 : containsCI pat1 y = false := by
      cases hb : containsCI pat1 y with
      | false => rfl
      | true =>
        exact absurd ((OccCI_iff_containsCI _ _).mpr hb)
          (hoccs pat1 (by rw [hcp]; simp))
    have hc2 : containsCI pat2 y = false := by
      cases hb : containsCI pat2 y with
      | false => rfl
      | true =>
        exact absurd ((OccCI_iff_containsCI _ _).mpr hb)
          (hoccs pat2 (by rw [hcp]; simp))
    have hc3 : containsCI pat3 y = false := by
      cases hb : containsCI pat3 y with
      | false => rfl
      | true =>
        exact absurd ((OccCI_iff_containsCI _ _).mpr hb)
          (hoccs pat3 (by rw [hcp]; simp))
    have hc4 : containsCI pat4 y = false := by
      cases hb : containsCI pat4 y with
      | false => rfl
      | true =>
        exact absurd ((OccCI_iff_containsCI _ _).mpr hb)
          (hoccs pat4 (by rw [hcp]; simp))
    have hc5 : containsCI pat5 y = false := by
      cases hb : containsCI pat5 y with
      | false => rfl
      | true =>
        exact absurd ((OccCI_iff_containsCI _ _).mpr hb)
          (hoccs pat5 (by rw [hcp]; simp))
    have hc6 : containsCI pat6 y = false := by
      cases hb : containsCI pat6 y with
      | false => rfl
      | true =>
        exact absurd ((OccCI_iff_containsCI _ _).mpr hb)
          (hoccs pat6 (by rw [hcp]; simp))
    have hc7 : containsCI pat7 y = false := by
      cases hb : containsCI pat7 y with
      | false => rfl
      | true =>
        exact absurd ((OccCI_iff_containsCI _ _).mpr hb)
          (hoccs pat7 (by rw [hcp]; simp))
    have hc8 : containsCI pat8 y = false := by
      cases hb : containsCI pat8 y with
      | false => rfl
      | true =>
        exact absurd ((OccCI_iff_containsCI _ _).mpr hb)
          (hoccs pat8 (by rw [hcp]; simp))
    have hc9 : containsCI pat9 y = false := by
      cases hb : containsCI pat9 y with
      | false => rfl
      | true =>
        exact absurd ((OccCI_iff_containsCI _ _).mpr hb)
          (hoccs pat9 (by rw [hcp]; simp))
    have hl10 : LabelP pat10 y := hlabs pat10 (by rw [hlp]; simp)
    have hl11 : LabelP pat11 y := hlabs pat11 (by rw [hlp]; simp)
    have hl12 : LabelP pat12 y := hlabs pat12 (by rw [hlp]; simp)
    have hrep10 : rep10 = pat10 ++ [' '] := by decide
    have hrep11 : rep11 = pat11 ++ [' '] := by decide
    have hrep12 : rep12 = pat12 ++ [' '] := by decide
    have e1 : ciReplace pat1 rep1 y = y := ciReplaceF_id pat1 rep1 y.length y hc1
    have e2 : ciReplace pat2 rep2 y = y := ciReplaceF_id pat2 rep2 y.length y hc2
    have e3 : ciReplace pat3 rep3 y = y := ciReplaceF_id pat3 rep3 y.length y hc3
    have e4 : ciReplace pat4 rep4 y = y := ciReplaceF_id pat4 rep4 y.length y hc4
    have e5 : ciReplace pat5 rep5 y = y := ciReplaceF_id pat5 rep5 y.length y hc5
    have e6 : ciReplace pat6 rep6 y = y := ciReplaceF_id pat6 rep6 y.length y hc6
    have e7 : ciReplace pat7 rep7 y = y := ciReplaceF_id pat7 rep7 y.length y hc7
    have e8 : ciReplace pat8 rep8 y = y := ciReplaceF_id pat8 rep8 y.length y hc8
    have e9 : ciReplace pat9 rep9 y = y := ciReplaceF_id pat9 rep9 y.length y hc9
    have h19 : applySubs (phraseSubs.take 9) y = y := by
      have ht : phraseSubs.take 9 =
          [(pat1, rep1), (pat2, rep2), (pat3, rep3), (pat4, rep4),
           (pat5, rep5), (pat6, rep6), (pat7, rep7), (pat8, rep8),
           (pat9, rep9)] := rfl
      rw [ht, applySubs, e1, applySubs, e2, applySubs, e3, applySubs, e4,
        applySubs, e5, applySubs, e6, applySubs, e7, applySubs, e8,
        applySubs, e9]
      rfl
    have hsplit : applySubs phraseSubs y =
        ciReplace pat12 rep12 (ciReplace pat11 rep11
          (ciReplace pat10 rep10 y)) := by
      have h2 : applySubs phraseSubs y =
          applySubs (phraseSubs.drop 9) (applySubs (phraseSubs.take 9) y) := by
        rw [← applySubs_append, List.take_append_drop]
      rw [h2, h19]
      rfl
    have hins10 : InsSp y (ciReplace pat10 rep10 y) := by
      rw [hrep10]
      exact ciReplace_InsSp pat10 (by decide) y.length y le_rfl hl10
    have hl11z10 : LabelP pat11 (ciReplace pat10 rep10 y) :=
      ciReplaceF_LabelP_presv pat10 rep10 pat11 (by decide) (by decide)
        (insChk_sound pat10 rep10 (by decide)) (by decide) (by decide) pat10
        hrep10 (by decide) (by decide) y.length y le_rfl hl11
    have hl12z10 : LabelP pat12 (ciReplace pat10 rep10 y) :=
      ciReplaceF_LabelP_presv pat10 rep10 pat12 (by decide) (by decide)
        (insChk_sound pat10 rep10 (by decide)) (by decide) (by decide) pat10
        hrep10 (by decide) (by decide) y.length y le_rfl hl12
    have hw10 : wordsOf (ciReplace pat10 rep10 y) = wordsOf y := by
      rw [hrep10]
      exact (ciReplaceF_words pat10 (by decide) (by decide)
        y.length y le_rfl hl10).1
    have hins11 : InsSp (ciReplace pat10 rep10 y)
        (ciReplace pat11 rep11 (ciReplace pat10 rep10 y)) := by
      rw [hrep11]
      exact ciReplace_InsSp pat11 (by decide) _ _ le_rfl hl11z10
    have hl12z11 : LabelP pat12
        (ciReplace pat11 rep11 (ciReplace pat10 rep10 y)) :=
      ciReplaceF_LabelP_presv pat11 rep11 pat12 (by decide) (by decide)
        (insChk_sound pat11 rep11 (by decide)) (by decide) (by decide) pat11
        hrep11 (by decide) (by decide) _ _ le_rfl hl12z10
    have hw11 : wordsOf (ciReplace pat11 rep11 (ciReplace pat10 rep10 y)) =
        wordsOf (ciReplace pat10 rep10 y) := by
      rw [hrep11]
      exact (ciReplaceF_words pat11 (by decide) (by decide)
        _ _ le_rfl hl11z10).1
    have hins12 : InsSp (ciReplace pat11 rep11 (ciReplace pat10 rep10 y))
        (ciReplace pat12 rep12 (ciReplace pat11 rep11
          (ciReplace pat10 rep10 y))) := by
      rw [hrep12]
      exact ciReplace_InsSp pat12 (by decide) _ _ le_rfl hl12z11
    have hw12 : wordsOf (ciReplace pat12 rep12 (ciReplace pat11 rep11
        (ciReplace pat10 rep10 y))) =
        wordsOf (ciReplace pat11 rep11 (ciReplace pat10 rep10 y)) := by
      rw [hrep12]
      exact (ciReplaceF_words pat12 (by decide) (by decide)
        _ _ le_rfl hl12z11).1
    have hinsY : InsSp y (applySubs phraseSubs y) := by
      rw [hsplit]
      exact InsSp_trans (InsSp_trans hins10 hins11) hins12
    have hwordsY : wordsOf (applySubs phraseSubs y) = wordsOf y := by
      rw [hsplit, hw12, hw11, hw10]
    have hluX : ¬HasLU (applySubs phraseSubs y) := hasLU_split_travel hinsY hlu
    have hddduX : ¬HasDDDU (applySubs phraseSubs y) :=
      hasDDDU_split_travel hinsY hdddu
    have huddX : ¬HasUDDD (applySubs phraseSubs y) :=
      hasUDDD_split_travel hinsY huddd
    have hsLU : splitLU (applySubs phraseSubs y) = applySubs phraseSubs y :=
      splitLU_id _ _ le_rfl hluX
    have hsDA : splitDAw (applySubs phraseSubs y) = applySubs phraseSubs y :=
      splitDA_id _ _ _ hddduX
    have hsDB : splitDBw (applySubs phraseSubs y) = applySubs phraseSubs y :=
      splitDB_id _ _ huddX
    have hmapX : (applySubs phraseSubs y).map spMap = applySubs phraseSubs y := by
      apply map_id_of_mem
      intro c hc
      rcases InsSp_mem hinsY c hc with hcy | rfl
      · by_cases h160 : cp c = 160
        · exfalso
          have hws : isPySpace c = true := by
            unfold isPySpace
            rw [h160]
            decide
          have hce := hws1 c hcy hws
          rw [hce] at h160
          exact absurd h160 (by decide)
        · by_cases h9 : cp c = 9
          · exfalso
            have hws : isPySpace c = true := by
              unfold isPySpace
              rw [h9]
              decide
            have hce := hws1 c hcy hws
            rw [hce] at h9
            exact absurd h9 (by decide)
          · simp [spMap, h160, h9]
      · decide
    have hrw : normalize_page_text y =
        pyStrip (collapseWS ((splitDBw (splitDAw (splitLU
          (applySubs phraseSubs y)))).map spMap)) := by
      unfold normalize_page_text restore_spaces
      rw [if_neg h0, if_neg h0, replaceSpecials_eq_map]
    rw [hrw, hsLU, hsDA, hsDB, hmapX]
    calc pyStrip (collapseWS (applySubs phraseSubs y))
        = unwordsSp (wordsOf (applySubs phraseSubs y)) :=
          strip_collapse_words _ _ le_rfl
      _ = unwordsSp (wordsOf y) := by rw [hwordsY]
      _ = pyStrip (collapseWS y) := (strip_collapse_words _ _ le_rfl).symm
      _ = y := by rw [collapseWS_id y hws1 hws2, pyStrip_id y hws1 hws3 hws4]

/-- Claim C2: the page-text normaliser _normalize_page_text is idempotent:
    normalising an already-normalised page text returns it unchanged. -/
theorem c2_normalize_idempotent (s : List Char) :
    normalize_page_text (normalize_page_text s) = normalize_page_text s :=
  NF_fix (normalize_page_text s) (NF_norm s)
